import Mathlib

/-!
Verification of the rust_matrix linear-algebra kernel.

This file gives a shallow embedding of the library (scalar element,
vector, dense matrix, elimination engine, LU decomposition, determinant,
inverse, cofactor/minor) and proves or refutes the specification claims
about it.

Modelling conventions:
* An `f64` is modelled by an exact rational, represented as an
  unnormalized integer fraction `Fr` (numerator and positive denominator)
  so that every operation reduces inside the kernel; `Fr.toQ` maps a
  fraction to its value in `ℚ` and all algebraic reasoning happens on
  values.  The individual arithmetic operations of the source are exact
  on the inputs used here, and the fixed-tolerance comparison family
  (`10e-8` in element.rs) is modelled exactly.
* Rust `Result` values and panics are modelled by `Except Failure`:
  `Error` mirrors the recoverable error enum of lib.rs and
  `Failure.panicked` mirrors an unrecoverable panic (including `unwrap`
  of an `Err`).
* The `while` loops of reduce.rs and lu.rs advance their column cursor
  on every iteration, so a loop starting at column `j` runs at most
  `cols - j` iterations; the loops are written with that iteration count
  as a structural fuel argument, which keeps every definition kernel
  computable.
* Negative zero has no rational counterpart; the sign-of-zero behaviour
  of the mutation primitives (claim about set.rs / swap.rs / row_ops.rs)
  is modelled separately at the end of the definitions by scalars
  carrying an explicit sign-of-zero bit.
-/

set_option maxHeartbeats 4000000
set_option maxRecDepth 10000

/-- Rational matrices indexed by `Fin`, the algebraic mirror used to reason
about products of the list-based matrices below. -/
abbrev QMat (m n : Nat) := Matrix (Fin m) (Fin n) ℚ

/-- An exact rational as an unnormalized integer fraction.  Every value
produced by the model keeps `0 < den`; the fraction is deliberately not
reduced so that all arithmetic is plain integer arithmetic and reduces
inside the kernel. -/
structure Fr where
  num : Int
  den : Int
deriving DecidableEq

namespace Fr

/-- The rational value of a fraction. -/
def toQ (x : Fr) : ℚ := (x.num : ℚ) / (x.den : ℚ)

/-- Positive denominator: the representation invariant. -/
def Pos (x : Fr) : Prop := 0 < x.den

def zero : Fr := ⟨0, 1⟩

def one : Fr := ⟨1, 1⟩

def add (a b : Fr) : Fr := ⟨a.num * b.den + b.num * a.den, a.den * b.den⟩

def sub (a b : Fr) : Fr := ⟨a.num * b.den - b.num * a.den, a.den * b.den⟩

def mul (a b : Fr) : Fr := ⟨a.num * b.num, a.den * b.den⟩

/-- Exact division of values, with the sign moved into the numerator so
that the denominator stays positive whenever `b` has a nonzero value. -/
def divFr (a b : Fr) : Fr :=
  let n := a.num * b.den
  let d := a.den * b.num
  if d < 0 then ⟨-n, -d⟩ else ⟨n, d⟩

/-- Value comparison (correct for positive denominators). -/
def lt (a b : Fr) : Bool := decide (a.num * b.den < b.num * a.den)

/-- Value equality (correct for nonzero denominators). -/
def eqv (a b : Fr) : Bool := decide (a.num * b.den = b.num * a.den)

end Fr

namespace RustMatrix

/-- The fixed comparison tolerance: element.rs compares with the literal
`10e-8`. -/
def EPS : Fr := ⟨10, 10 ^ 8⟩

/-- element.rs: `MatrixElement` wraps one double-precision value. -/
structure MatrixElement where
  data : Fr
deriving DecidableEq

namespace MatrixElement

/-- element.rs `MatrixElement::new`. -/
def new (v : Fr) : MatrixElement := ⟨v⟩

/-- element.rs `MatrixElement::zero`. -/
def zero : MatrixElement := ⟨Fr.zero⟩

/-- element.rs `MatrixElement::one`. -/
def one : MatrixElement := ⟨Fr.one⟩

/-- element.rs `Add for MatrixElement`. -/
def add (a b : MatrixElement) : MatrixElement := ⟨a.data.add b.data⟩

/-- element.rs `Sub for MatrixElement`. -/
def sub (a b : MatrixElement) : MatrixElement := ⟨a.data.sub b.data⟩

/-- element.rs `Mul for MatrixElement`. -/
def mul (a b : MatrixElement) : MatrixElement := ⟨a.data.mul b.data⟩

/-- element.rs `MatrixElement::negate`: `Self::zero() - *self`. -/
def negate (a : MatrixElement) : MatrixElement :=
  zero.sub a

/-- element.rs `MatrixElement::abs`:
`if *self < Self::zero() { self.negate() } else { *self }`. -/
def abs (a : MatrixElement) : MatrixElement :=
  if a.data.lt Fr.zero then a.negate else a

/-- element.rs `MatrixElement::epsilon_equals`:
`(self.data - other.data).abs() < 10e-8`. -/
def epsilon_equals (a b : MatrixElement) : Bool :=
  ((a.sub b).abs).data.lt EPS

/-- element.rs `MatrixElement::is_zero`. -/
def is_zero (a : MatrixElement) : Bool :=
  a.epsilon_equals zero

/-- element.rs `MatrixElement::is_one`. -/
def is_one (a : MatrixElement) : Bool :=
  a.epsilon_equals one

/-- element.rs `epsilon_gt` via `epsilon_cmp`: greater iff neither
epsilon-equal nor strictly less. -/
def epsilon_gt (a b : MatrixElement) : Bool :=
  if a.epsilon_equals b then false
  else if a.data.lt b.data then false
  else true

/-- The rational value of an element. -/
def val (a : MatrixElement) : ℚ := a.data.toQ

end MatrixElement

/-- lib.rs `Error`: the recoverable error taxonomy. -/
inductive Error where
  | invalidOperation (msg : String)
  | indexOutOfBounds (msg : String)
  | shouldBeSquare (msg : String)
deriving DecidableEq

/-- A Rust computation ends in a value, a recoverable `Err`, or a panic. -/
inductive Failure where
  | err (e : Error)
  | panicked (msg : String)
deriving DecidableEq

/-- Fallible Rust computation. -/
abbrev Res (α : Type) := Except Failure α

instance {α : Type} [DecidableEq α] : DecidableEq (Res α) := fun a b =>
  match a, b with
  | .ok x, .ok y =>
    if h : x = y then .isTrue (by rw [h]) else .isFalse (by intro hc; cases hc; exact h rfl)
  | .error x, .error y =>
    if h : x = y then .isTrue (by rw [h]) else .isFalse (by intro hc; cases hc; exact h rfl)
  | .ok _, .error _ => .isFalse (by intro hc; cases hc)
  | .error _, .ok _ => .isFalse (by intro hc; cases hc)

/-- element.rs `Div for MatrixElement`: panics when the divisor is
epsilon-zero. -/
def MatrixElement.div (a b : MatrixElement) : Res MatrixElement :=
  if b.is_zero then .error (.panicked ("Cannot divide by zero"))
  else .ok ⟨a.data.divFr b.data⟩

/-- element.rs `MatrixElement::inverse`: panics at epsilon-zero, then
`Self::one() / *self`. -/
def MatrixElement.inverse (a : MatrixElement) : Res MatrixElement :=
  if a.is_zero then .error (.panicked ("Cannot invert zero"))
  else MatrixElement.div MatrixElement.one a

/-- Rust `Result::unwrap`: a value passes through, an `Err` panics. -/
def unwrapR {α : Type} : Res α → Res α
  | .ok a => .ok a
  | .error _ => .error (.panicked ("called unwrap on an Err value"))

/-- vector.rs `Vector`. -/
structure Vector where
  data : List MatrixElement
deriving DecidableEq

namespace Vector

/-- vector.rs `Vector::new`. -/
def new (d : List MatrixElement) : Vector := ⟨d⟩

/-- vector.rs `Vector::len`. -/
def len (v : Vector) : Nat := v.data.length

/-- vector.rs `Vector::zero`. -/
def zero (len : Nat) : Vector := ⟨List.replicate len MatrixElement.zero⟩

/-- vector.rs `Vector::add`: panics when the lengths differ, then adds the
zipped entries. -/
def add (a b : Vector) : Res Vector :=
  if a.len ≠ b.len then .error (.panicked ("Vector length must be equal to add"))
  else .ok ⟨(a.data.zip b.data).map fun p => p.1.add p.2⟩

/-- vector.rs `Vector::subtract`: panics when the lengths differ, then
subtracts the zipped entries. -/
def subtract (a b : Vector) : Res Vector :=
  if a.len ≠ b.len then .error (.panicked ("Vector length must be equal to subtract"))
  else .ok ⟨(a.data.zip b.data).map fun p => p.1.sub p.2⟩

/-- vector.rs `Vector::scale`: no length constraint. -/
def scale (v : Vector) (s : MatrixElement) : Vector :=
  ⟨v.data.map fun x => x.mul s⟩

/-- vector.rs `Vector::dot`: note there is no length check; the zip
silently truncates to the shorter operand. -/
def dot (a b : Vector) : MatrixElement :=
  ((a.data.zip b.data).map fun p => p.1.mul p.2).foldl MatrixElement.add MatrixElement.zero

/-- vector.rs `Vector::epsilon_equals`: zipped entrywise comparison, also
shape-truncating. -/
def epsilon_equals (a b : Vector) : Bool :=
  (a.data.zip b.data).all fun p => p.1.epsilon_equals p.2

end Vector

/-- matrix.rs `Matrix`. -/
structure Matrix where
  cols_number : Nat
  rows_number : Nat
  elements : List (List MatrixElement)
deriving DecidableEq

namespace Matrix

/-- matrix.rs `Matrix::new`: panics on an empty list of rows or on ragged
rows, otherwise records the dimensions. -/
def new (elements : List (List MatrixElement)) : Res Matrix :=
  if elements.isEmpty then .error (.panicked ("Matrix must have at least one row"))
  else if elements.any fun row => row.length ≠ (elements.headD []).length then
    .error (.panicked ("All rows must have the same length"))
  else .ok ⟨(elements.headD []).length, elements.length, elements⟩

/-- matrix.rs `Matrix::zero`. -/
def zero (rows cols : Nat) : Res Matrix :=
  new (List.replicate rows (List.replicate cols MatrixElement.zero))

/-- matrix.rs `Matrix::identity`: a zero matrix whose diagonal entries are
then assigned directly on `elements` (not through `set`). -/
def identity (size : Nat) : Res Matrix := do
  let z ← zero size size
  let es := (List.range size).foldl
    (fun es i => es.set i ((es.getD i []).set i MatrixElement.one)) z.elements
  .ok { z with elements := es }

/-- matrix.rs `Matrix::assert_square`. -/
def assert_square (m : Matrix) (msg : String) : Res Unit :=
  if m.rows_number ≠ m.cols_number then .error (.err (.shouldBeSquare msg))
  else .ok ()

/-- matrix.rs `Matrix::assert_index`. -/
def assert_index (m : Matrix) (row col : Nat) : Res Unit :=
  if m.rows_number ≤ row then .error (.err (.indexOutOfBounds ("Row index out of bounds")))
  else if m.cols_number ≤ col then .error (.err (.indexOutOfBounds ("Column index out of bounds")))
  else .ok ()

/-- The entry at (row, col); for a well-formed matrix and in-bounds
indices this is the value `self.elements[row][col]` of the source. -/
def ent (m : Matrix) (row col : Nat) : MatrixElement :=
  (m.elements.getD row []).getD col MatrixElement.zero

/-- get.rs `Matrix::get`. -/
def get (m : Matrix) (row col : Nat) : Res MatrixElement := do
  m.assert_index row col
  .ok (m.ent row col)

/-- get.rs `Matrix::get_row`. -/
def get_row (m : Matrix) (row : Nat) : Res Vector := do
  m.assert_index row 0
  .ok ⟨m.elements.getD row []⟩

/-- get.rs `Matrix::as_rows` (each `get_row` is unwrapped in the source;
for a well-formed matrix every unwrap succeeds). -/
def as_rows (m : Matrix) : List Vector :=
  (List.range m.rows_number).map fun i => ⟨m.elements.getD i []⟩

/-- Column `col` as a list; get.rs `Matrix::get_col` body. -/
def colD (m : Matrix) (col : Nat) : List MatrixElement :=
  (List.range m.rows_number).map fun i => m.ent i col

/-- get.rs `Matrix::as_cols` (unwraps as in `as_rows`). -/
def as_cols (m : Matrix) : List Vector :=
  (List.range m.cols_number).map fun j => ⟨m.colD j⟩

/-- equals.rs `Matrix::epsilon_equals`: zipped row comparison; rows and
entries beyond the shorter shape are ignored. -/
def epsilon_equals (a b : Matrix) : Bool :=
  (a.as_rows.zip b.as_rows).all fun p => p.1.epsilon_equals p.2

/-- set.rs: the body of `Matrix::set` routes every written value through
`if value.is_zero() { MatrixElement::zero() } else { value }`. -/
def clampWrite (v : MatrixElement) : MatrixElement :=
  if v.is_zero then MatrixElement.zero else v

/-- set.rs `Matrix::set`. -/
def set (m : Matrix) (row col : Nat) (v : MatrixElement) : Res Matrix := do
  m.assert_index row col
  .ok { m with elements :=
    m.elements.set row ((m.elements.getD row []).set col (clampWrite v)) }

/-- set.rs `Matrix::set_row`: bounds check, length check, then entrywise
`set`. -/
def set_row (m : Matrix) (row : Nat) (values : Vector) : Res Matrix := do
  m.assert_index row 0
  if values.len ≠ m.cols_number then
    .error (.err (.invalidOperation ("Values length must be equal to columns to set row")))
  else
    values.data.enum.foldlM (fun acc p => acc.set row p.1 p.2) m

/-- swap.rs `Matrix::swap_rows`: bounds checks, then `Vec::swap` on the
row list — the values themselves are moved, not rewritten. -/
def swap_rows (m : Matrix) (row1 row2 : Nat) : Res Matrix := do
  m.assert_index row1 0
  m.assert_index row2 0
  .ok { m with elements :=
    (m.elements.set row1 (m.elements.getD row2 [])).set row2 (m.elements.getD row1 []) }

/-- scale.rs `Matrix::scale_row`: `set_row(row, get_row(row)?.scale(s))`. -/
def scale_row (m : Matrix) (row : Nat) (s : MatrixElement) : Res Matrix := do
  let r ← m.get_row row
  m.set_row row (r.scale s)

/-- row_ops.rs `Matrix::add_scaled_row_from_to`:
`set_row(to, row_to.add(&row_from.scale(scalar)))`. -/
def add_scaled_row_from_to (m : Matrix) (frm tgt : Nat) (s : MatrixElement) : Res Matrix := do
  let row_from ← m.get_row frm
  let row_to ← m.get_row tgt
  let summed ← row_to.add (row_from.scale s)
  m.set_row tgt summed

/-- mul_vec.rs `Matrix::multiply_vector`: length check, then the fold of
scaled columns. -/
def multiply_vector (m : Matrix) (v : Vector) : Res Vector := do
  let cols := m.as_cols
  if cols.length ≠ v.len then
    .error (.err (.invalidOperation ("Matrix columns number must be equal to vector length for multiplication")))
  else
    (cols.zip v.data).foldlM (fun acc p => acc.add (p.1.scale p.2)) (Vector.zero m.rows_number)

/-- matrix.rs `Matrix::from_cols`: panics on empty or ragged columns,
then transposes the column list into rows. -/
def from_cols (cols : List Vector) : Res Matrix :=
  if cols.isEmpty then .error (.panicked ("Matrix must have at least one column"))
  else if cols.any fun c => c.len ≠ (cols.headD ⟨[]⟩).len then
    .error (.panicked ("All columns must have the same length"))
  else
    .ok { cols_number := cols.length
          rows_number := (cols.headD ⟨[]⟩).len
          elements := (List.range (cols.headD ⟨[]⟩).len).map fun i =>
            cols.map fun c => c.data.getD i MatrixElement.zero }

/-- mul.rs `Matrix::multiply`: dimension check, then
`from_cols(as_cols(other).map(multiply_vector(..).unwrap()))`. -/
def multiply (a b : Matrix) : Res Matrix :=
  if a.cols_number ≠ b.rows_number then
    .error (.err (.invalidOperation ("Matrix multiplication is only available for MxP * PxN")))
  else do
    let cols ← b.as_cols.mapM fun col => unwrapR (a.multiply_vector col)
    from_cols cols

end Matrix

/-- The written values of one `add_scaled_row_from_to(from, to, s)` call:
`row_to.add(&row_from.scale(s))` of vector.rs (zip semantics). -/
def rowCombine (rowTo rowFrom : List MatrixElement) (s : MatrixElement) : List MatrixElement :=
  (rowTo.zip (rowFrom.map fun x => x.mul s)).map fun p => p.1.add p.2

/-- Ghost check used by the instrumented loops: true when no value of the
written row would be changed by the write clamp of set.rs, i.e. every
value is exactly zero or not epsilon-zero. -/
def cleanVals (vs : List MatrixElement) : Bool :=
  vs.all fun v => decide (v.data.num = 0) || !v.is_zero

namespace Matrix

/-- The pivot scan of reduce.rs `_row_echelon` (and, against the original
matrix, of lu.rs `_pivot`): over rows `[i, m)` of column `j`, replace the
current best exactly when the scanned absolute value is epsilon-strictly
greater. -/
def pivotScan (origin : Matrix) (i m j : Nat) : Res Nat :=
  (List.range' i (m - i)).foldlM
    (fun mx k => do
      let a ← origin.get k j
      let b ← origin.get mx j
      .ok (if a.abs.epsilon_gt b.abs then k else mx))
    i

/-- The elimination inner loop of `_row_echelon` (rows strictly below the
pivot row). The `Bool` component is ghost instrumentation only: it stays
true while no written value is clamped by set.rs; the matrices evolve
exactly as in the source. -/
def elimLoop (i j : Nat) (ks : List Nat) (st : Matrix × Matrix × Bool) :
    Res (Matrix × Matrix × Bool) :=
  ks.foldlM
    (fun st k => do
      let (origin, output, clean) := st
      let a ← origin.get k j
      let b ← origin.get i j
      let q ← a.div b
      let factor := q.negate
      let clean := clean
        && cleanVals (rowCombine (origin.elements.getD k []) (origin.elements.getD i []) factor)
        && cleanVals (rowCombine (output.elements.getD k []) (output.elements.getD i []) factor)
      let origin ← origin.add_scaled_row_from_to i k factor
      let output ← output.add_scaled_row_from_to i k factor
      .ok (origin, output, clean))
    st

/-- The `while i < m && j < n` forward loop of reduce.rs `_row_echelon`.
`fuel` bounds the number of iterations; the column cursor advances every
iteration, so `fuel = n - j` makes the guard and the fuel run out
together. The final `Bool` is the ghost clamp-free flag. -/
def echelonLoop (m n : Nat) : Nat → Nat → Nat → Matrix → Matrix → Nat → Bool →
    Res (Matrix × Matrix × Nat × Bool)
  | 0, _, _, origin, output, swaps, clean => .ok (origin, output, swaps, clean)
  | fuel + 1, i, j, origin, output, swaps, clean =>
    if i < m ∧ j < n then do
      let mx ← origin.pivotScan i m j
      let piv ← origin.get mx j
      if piv.is_zero then
        echelonLoop m n fuel i (j + 1) origin output swaps clean
      else do
        let (origin, output, swaps) ←
          if mx ≠ i then do
            let origin ← origin.swap_rows i mx
            let output ← output.swap_rows i mx
            .ok (origin, output, swaps + 1)
          else .ok (origin, output, swaps)
        let (origin, output, clean) ←
          elimLoop i j (List.range' (i + 1) (m - (i + 1))) (origin, output, clean)
        echelonLoop m n fuel (i + 1) (j + 1) origin output swaps clean
    else .ok (origin, output, swaps, clean)

/-- reduce.rs `_row_echelon` with the ghost clamp-free flag: companion
row-count check before anything else, then the forward loop. -/
def rowEchelonG (mtx : Matrix) (apply_to : Option Matrix) :
    Res (Matrix × Matrix × Nat × Bool) := do
  let m := mtx.rows_number
  let n := mtx.cols_number
  let output ← match apply_to with
    | some a =>
      if a.rows_number ≠ m then
        .error (.err (.invalidOperation
          ("Matrix to apply steps to must have the same number of rows as the original matrix")))
      else .ok a
    | none => .ok mtx
  echelonLoop m n n 0 0 mtx output 0 true

/-- reduce.rs `_row_echelon` (ghost flag projected away). -/
def _row_echelon (mtx : Matrix) (apply_to : Option Matrix) :
    Res (Matrix × Matrix × Nat) := do
  let (o, p, s, _) ← mtx.rowEchelonG apply_to
  .ok (o, p, s)

/-- reduce.rs `Matrix::row_echelon`: the reduced subject and the swap
count. -/
def row_echelon (mtx : Matrix) : Res (Matrix × Nat) := do
  let (output, _, swap_count) ← mtx._row_echelon none
  .ok (output, swap_count)

/-- The leading-entry search of the backward pass of reduce.rs
`_to_rref`: first column of row `i` that is not epsilon-zero. -/
def findLeading (origin : Matrix) (i : Nat) : Nat → Nat → Res (Option Nat)
  | _, 0 => .ok none
  | j, fuel + 1 =>
    if j < origin.cols_number then do
      let e ← origin.get i j
      if e.is_zero then findLeading origin i (j + 1) fuel
      else .ok (some j)
    else .ok none

/-- One row of the backward pass of reduce.rs `_to_rref`: find the
leading entry, normalize the row when the leading entry is not
epsilon-one, then eliminate every non-epsilon-zero entry above it.
The `Bool` is the ghost clamp-free flag. -/
def backStep (st : Matrix × Matrix × Bool) (i : Nat) : Res (Matrix × Matrix × Bool) := do
  let (origin, output, clean) := st
  let piv ← origin.findLeading i 0 origin.cols_number
  match piv with
  | none => .ok (origin, output, clean)
  | some pivot => do
    let leading ← origin.get i pivot
    let (origin, output, clean) ←
      if leading.is_one then .ok (origin, output, clean)
      else do
        let inv1 ← leading.inverse
        let inv2 ← leading.inverse
        let clean := clean
          && cleanVals ((origin.elements.getD i []).map fun x => x.mul inv1)
          && cleanVals ((output.elements.getD i []).map fun x => x.mul inv2)
        let origin ← origin.scale_row i inv1
        let output ← output.scale_row i inv2
        .ok (origin, output, clean)
    (List.range i).foldlM
      (fun st k => do
        let (origin, output, clean) := st
        let e ← origin.get k pivot
        let factor := e.negate
        if factor.is_zero then .ok (origin, output, clean)
        else do
          let clean := clean
            && cleanVals (rowCombine (origin.elements.getD k []) (origin.elements.getD i []) factor)
            && cleanVals (rowCombine (output.elements.getD k []) (output.elements.getD i []) factor)
          let origin ← origin.add_scaled_row_from_to i k factor
          let output ← output.add_scaled_row_from_to i k factor
          .ok (origin, output, clean))
      (origin, output, clean)

/-- reduce.rs `_to_rref` with the ghost clamp-free flag: forward pass,
then the bottom-up backward pass. -/
def toRrefG (mtx : Matrix) (apply_to : Option Matrix) : Res (Matrix × Matrix × Bool) := do
  let m := mtx.rows_number
  let (origin, output, _, clean) ← mtx.rowEchelonG apply_to
  (List.range m).reverse.foldlM backStep (origin, output, clean)

/-- reduce.rs `_to_rref` (ghost flag projected away). -/
def _to_rref (mtx : Matrix) (apply_to : Option Matrix) : Res (Matrix × Matrix) := do
  let (o, p, _) ← mtx.toRrefG apply_to
  .ok (o, p)

/-- reduce.rs `Matrix::to_rref`: `self._to_rref(None).unwrap().0`. -/
def to_rref (mtx : Matrix) : Res Matrix := do
  let r ← unwrapR (mtx._to_rref none)
  .ok r.1

/-- reduce.rs `Matrix::to_rref_apply_to`. -/
def to_rref_apply_to (mtx other : Matrix) : Res (Matrix × Matrix) :=
  mtx._to_rref (some other)

/-- inverse.rs `Matrix::inverse`: reduce with an identity companion and
require the reduced subject to be epsilon-equal to the identity. -/
def inverse (mtx : Matrix) : Res Matrix := do
  let idm ← identity mtx.rows_number
  let (origin, applied) ← mtx.to_rref_apply_to idm
  let idm2 ← identity mtx.rows_number
  if !(origin.epsilon_equals idm2) then
    .error (.err (.invalidOperation ("The matrix cannot be inverted")))
  else .ok applied

/-- The `while i < m && j < n` loop of lu.rs `_pivot`: pivot scan against
the original matrix, swap in `p` only, both cursors always advance. -/
def pivotLoop (mtx : Matrix) (m n : Nat) : Nat → Nat → Nat → Matrix → Res Matrix
  | 0, _, _, p => .ok p
  | fuel + 1, i, j, p =>
    if i < m ∧ j < n then do
      let mx ← mtx.pivotScan i m j
      let p ← if mx ≠ i then p.swap_rows i mx else .ok p
      pivotLoop mtx m n fuel (i + 1) (j + 1) p
    else .ok p

/-- lu.rs `Matrix::_pivot`. -/
def _pivot (mtx : Matrix) : Res Matrix := do
  let p ← identity mtx.rows_number
  pivotLoop mtx mtx.rows_number mtx.cols_number mtx.cols_number 0 0 p

/-- The `while i < m && j < n` elimination loop of lu.rs
`lup_decomposition`: on a non-epsilon-zero pivot, record each factor in
`l` and subtract the scaled pivot row in `u`; on an epsilon-zero pivot
skip the column. The two `Bool`s are ghost instrumentation: the first
stays true while no written value (factor or row entry) is clamped by
set.rs, the second stays true while no column is skipped. -/
def lupLoop (m n : Nat) : Nat → Nat → Nat → Matrix → Matrix → Bool → Bool →
    Res (Matrix × Matrix × Bool × Bool)
  | 0, _, _, l, u, clean, noskip => .ok (l, u, clean, noskip)
  | fuel + 1, i, j, l, u, clean, noskip =>
    if i < m ∧ j < n then do
      let pivot ← u.get i j
      if pivot.is_zero then
        lupLoop m n fuel i (j + 1) l u clean false
      else do
        let (l, u, clean) ← (List.range' (i + 1) (m - (i + 1))).foldlM
          (fun st k => do
            let (l, u, clean) := st
            let a ← u.get k j
            let factor ← a.div pivot
            let clean := clean
              && (decide (factor.data.num = 0) || !factor.is_zero)
              && cleanVals (rowCombine (u.elements.getD k []) (u.elements.getD i []) factor.negate)
            let l ← l.set k i factor
            let u ← u.add_scaled_row_from_to i k factor.negate
            .ok (l, u, clean))
          (l, u, clean)
        lupLoop m n fuel (i + 1) (j + 1) l u clean noskip
    else .ok (l, u, clean, noskip)

/-- lu.rs `lup_decomposition` with the ghost flags: permutation first,
then `u = p * self` (the `Mul` operator unwraps `multiply`), then the
forward-only elimination. -/
def lupG (mtx : Matrix) : Res (Matrix × Matrix × Matrix × Bool × Bool) := do
  let m := mtx.rows_number
  let n := mtx.cols_number
  let p ← mtx._pivot
  let l ← identity m
  let u ← unwrapR (p.multiply mtx)
  let (l, u, clean, noskip) ← lupLoop m n n 0 0 l u true true
  .ok (l, u, p, clean, noskip)

/-- lu.rs `Matrix::lup_decomposition` (ghost flags projected away). -/
def lup_decomposition (mtx : Matrix) : Res (Matrix × Matrix × Matrix) := do
  let (l, u, p, _, _) ← mtx.lupG
  .ok (l, u, p)

/-- det.rs `Matrix::det`: square check; sizes 1 and 2 by closed form;
otherwise the signed diagonal product of the row echelon form. -/
def det (mtx : Matrix) : Res MatrixElement := do
  mtx.assert_square ("Only square matrices have determinants")
  let n := mtx.rows_number
  if n = 1 then mtx.get 0 0
  else if n = 2 then do
    let a ← mtx.get 0 0
    let d ← mtx.get 1 1
    let b ← mtx.get 0 1
    let c ← mtx.get 1 0
    .ok ((a.mul d).sub (b.mul c))
  else do
    let (matrix, swap_count) ← mtx.row_echelon
    let d ← (List.range n).foldlM
      (fun acc i => do
        let e ← matrix.get i i
        .ok (acc.mul e))
      MatrixElement.one
    let sign : MatrixElement := if swap_count % 2 = 0 then ⟨⟨1, 1⟩⟩ else ⟨⟨-1, 1⟩⟩
    .ok (sign.mul d)

/-- cofactor.rs `Matrix::get_minor`: bounds check, build the submatrix
without row `row` and column `col` through `Matrix::new`, then its
determinant. For a 1x1 matrix the built list is empty and `new` panics. -/
def get_minor (mtx : Matrix) (row col : Nat) : Res MatrixElement := do
  mtx.assert_index row col
  let elements := ((List.range mtx.rows_number).filter fun i => i ≠ row).map fun i =>
    ((List.range mtx.cols_number).filter fun j => j ≠ col).map fun j => mtx.ent i j
  let sub ← new elements
  sub.det

/-- The recorded and stored dimensions of a matrix are both `m x n`. -/
def Dims (a : Matrix) (m n : Nat) : Prop :=
  a.rows_number = m ∧ a.cols_number = n ∧ a.elements.length = m ∧
  ∀ r ∈ a.elements, r.length = n

/-- Every entry keeps the positive-denominator representation
invariant. -/
def PosEnts (a : Matrix) : Prop :=
  ∀ r ∈ a.elements, ∀ e ∈ r, 0 < e.data.den

/-- Index-based shape invariant (equivalent to `Dims` and more
convenient in proofs): recorded and stored dimensions are `m x n`. -/
def Shape (a : Matrix) (m n : Nat) : Prop :=
  a.rows_number = m ∧ a.cols_number = n ∧ a.elements.length = m ∧
  ∀ r, r < m → (a.elements.getD r []).length = n

/-- Every entry position (also out of bounds, where `ent` defaults to
zero) carries a positive denominator. -/
def EntPos (a : Matrix) : Prop := ∀ r c, (a.ent r c).data.Pos

/-- Well-formedness, matching the data-model invariant of the
specification: a stored rectangular grid with at least one row and one
column and consistent recorded dimensions, every entry keeping the
positive-denominator representation invariant. -/
def WF (m : Matrix) : Prop :=
  Dims m m.rows_number m.cols_number ∧
  1 ≤ m.rows_number ∧ 1 ≤ m.cols_number ∧ PosEnts m

instance (a : Matrix) (m n : Nat) : Decidable (Dims a m n) := by
  unfold Dims; infer_instance

instance (a : Matrix) : Decidable a.PosEnts := by
  unfold PosEnts; infer_instance

instance (m : Matrix) : Decidable m.WF := by
  unfold WF; infer_instance

/-- Exactly the identity (by value): used as the hypothesis under which
the reduction-based inverse is a true two-sided inverse. -/
def isIdentityExact (a : Matrix) : Bool :=
  (List.range a.rows_number).all fun r =>
    (List.range a.cols_number).all fun c =>
      if r = c then decide ((a.ent r c).data.num = (a.ent r c).data.den)
      else decide ((a.ent r c).data.num = 0)

end Matrix

/-- The value of the comparison tolerance. -/
def EPSQ : ℚ := 10 / 10 ^ 8

/-- A matrix literal for concrete inputs (the result of `Matrix::new` on
a nonempty rectangular list). -/
def mkMat (l : List (List MatrixElement)) : Matrix :=
  ⟨(l.headD []).length, l.length, l⟩

/-- An integer-valued element. -/
def ofInt (n : Int) : MatrixElement := ⟨⟨n, 1⟩⟩

/-- A fraction-valued element. -/
def ofFrac (n d : Int) : MatrixElement := ⟨⟨n, d⟩⟩

/-- The rational-valued mirror of a list matrix. -/
def toQM (m n : Nat) (a : Matrix) : QMat m n := fun i j => (a.ent i j).val

/-- Concrete input refuting claim C1: eliminating the third row writes
the epsilon-small values `9e-8` (into U) and `1e-8` (the factor, into
L), both of which set.rs clamps to zero, so `P*A` and `L*U` differ in
row 2 by a full `1`. -/
def cexC1 : Matrix :=
  mkMat [[ofInt 1, ofInt 0, ofInt 0],
         [ofInt 1, ofInt (10 ^ 8), ofInt (-9)],
         [ofInt 1, ofInt 1, ofFrac 9 (10 ^ 8)]]

/-- Concrete input refuting claim C2: column 0 is epsilon-zero and is
skipped, the elimination against column 1 then drives the entry below
the diagonal up to `2.5e-7`, which is not epsilon-zero. -/
def cexC2 : Matrix :=
  mkMat [[ofFrac 5 (10 ^ 8), ofInt 1],
         [ofFrac 5 (10 ^ 8), ofInt (-4)]]

/-- Concrete input refuting claim C3 at size 2: the closed form gives
`1.5e-7` while the echelon diagonal product is zero (the forward pass
clamps the remaining `3.75e-8`), and `|1.5e-7 - 0|` exceeds the
tolerance. -/
def cexC3 : Matrix :=
  mkMat [[ofFrac 5 (10 ^ 8), ofInt 1],
         [ofFrac 5 (10 ^ 8), ofInt 4]]

/-- Concrete input refuting claim C4: the inverse of `[[1e8]]` is
computed by scaling the identity companion by `1e-8`, which set.rs
clamps to zero, so the returned inverse is `[[0]]`. -/
def cexC4 : Matrix := mkMat [[ofInt (10 ^ 8)]]

/-- Concrete input refuting claim C5: its reduced row echelon form has
the row `[1.8e-7, 1]` (the epsilon-small `9e-8` grew past the tolerance
when the row was normalized by `2`), and reducing again pivots on the
`1.8e-7`. -/
def cexC5 : Matrix :=
  mkMat [[ofFrac 9 (10 ^ 8), ofFrac 1 2],
         [ofInt 0, ofInt 0]]

/-- Witness input for the amended C1/C2: a clamp-free, skip-free LU run. -/
def witC1 : Matrix := mkMat [[ofInt 2, ofInt 1], [ofInt 4, ofInt 3]]

/-- Witness input for the amended C3: a 3x3 elimination determinant. -/
def witC3 : Matrix :=
  mkMat [[ofInt 1, ofInt 0, ofInt 0],
         [ofInt 0, ofInt 2, ofInt 0],
         [ofInt 0, ofInt 0, ofInt 3]]

/-- Witness input for the amended C4: a clamp-free inversion whose
reduced subject is exactly the identity. -/
def witC4 : Matrix := mkMat [[ofInt 2, ofInt 0], [ofInt 0, ofInt 2]]

/-- Witness input for the amended C5: the identity is strictly reduced. -/
def witC5 : Matrix := mkMat [[ofInt 1, ofInt 0], [ofInt 0, ofInt 1]]

/-- The 2x2 identity as built by `Matrix::identity(2)`. -/
def idm2 : Matrix := mkMat [[ofInt 1, ofInt 0], [ofInt 0, ofInt 1]]

/-- The reduced subject of the witness C4 run on `witC4` (with the exact
fraction representations the run produces). -/
def oC4 : Matrix := mkMat [[ofFrac 2 2, ofInt 0], [ofInt 0, ofFrac 8 8]]

/-- The transformed companion of the witness C4 run on `witC4`. -/
def apC4 : Matrix := mkMat [[ofFrac 1 2, ofInt 0], [ofInt 0, ofFrac 4 8]]

/-- The claim C3 comparison value, written from the specification:
`(-1)^swaps` times the product of the diagonal entries of the echelon
form, with the product accumulated exactly as det.rs accumulates it. -/
def echelonSignedDiagProd (e : RustMatrix.Matrix) (swaps : Nat) (n : Nat) : MatrixElement :=
  let d := (List.range n).foldl (fun acc i => acc.mul (e.ent i i)) MatrixElement.one
  (if swaps % 2 = 0 then (⟨⟨1, 1⟩⟩ : MatrixElement) else ⟨⟨-1, 1⟩⟩).mul d

/-- Leading index of a row: position of the first entry that is not
epsilon-zero. -/
def leadIdx (row : List MatrixElement) : Option Nat :=
  row.findIdx? fun e => !e.is_zero

/-- Leading indices are strictly increasing while present, and absent
rows stay absent below. -/
def leadsOrdered : List (Option Nat) → Bool
  | [] => true
  | [_] => true
  | a :: b :: rest =>
    (match a, b with
     | some x, some y => decide (x < y)
     | some _, none => true
     | none, none => false || true
     | none, some _ => false) && leadsOrdered (b :: rest)

/-- Strict reduced-row-echelon shape (the hypothesis under which
`to_rref` is a fixed point): every entry is exactly zero or not
epsilon-zero; leading indices strictly increase and zero rows come last;
each leading entry is exactly one; a leading column is exactly zero at
every other row; entries of a row before its leading index are exactly
zero; a row with no leading index is exactly zero. -/
def strictShape (r : RustMatrix.Matrix) : Bool :=
  let rows := r.elements
  let ls := rows.map leadIdx
  (rows.all fun row => row.all fun e => decide (e.data.num = 0) || !e.is_zero)
  && leadsOrdered ls
  && (rows.enum.all fun p =>
      match leadIdx p.2 with
      | none => p.2.all fun e => decide (e.data.num = 0)
      | some j =>
        decide ((p.2.getD j MatrixElement.zero).data.num = (p.2.getD j MatrixElement.zero).data.den)
        && ((List.range j).all fun c => decide ((p.2.getD c MatrixElement.zero).data.num = 0))
        && (rows.enum.all fun q =>
            decide (q.1 = p.1) || decide ((q.2.getD j MatrixElement.zero).data.num = 0)))

end RustMatrix

namespace FloatModel

/-- An IEEE double for the sign-of-zero claim: `val` is its numeric
value, `negZero` marks the value `-0.0` (so a meaningful state has
`negZero → val = 0`). -/
structure F64 where
  val : Fr
  negZero : Bool
deriving DecidableEq

namespace F64

/-- A state that an actual `f64` can have. -/
def valid (x : F64) : Prop := x.negZero = true → x.val.num = 0

/-- The sign bit. -/
def isNeg (x : F64) : Bool := x.val.lt Fr.zero || x.negZero

/-- element.rs `is_zero` on doubles: `|self - 0.0| < 10e-8`; negative
zero compares equal to zero. -/
def is_zero (x : F64) : Bool :=
  (if x.val.lt Fr.zero then Fr.sub Fr.zero x.val else x.val).lt RustMatrix.EPS

/-- `0.0`. -/
def zero : F64 := ⟨Fr.zero, false⟩

/-- `f64` multiplication: a zero result carries the xor of the signs. -/
def mul (a b : F64) : F64 :=
  ⟨a.val.mul b.val, decide ((a.val.mul b.val).num = 0) && (a.isNeg != b.isNeg)⟩

/-- `f64` addition in round-to-nearest: the only sum that is `-0.0` is
`-0.0 + -0.0`. -/
def add (a b : F64) : F64 :=
  ⟨a.val.add b.val, a.negZero && b.negZero⟩

instance (x : F64) : Decidable x.valid := by
  unfold valid
  infer_instance

end F64

/-- The dense matrix of matrix.rs, with the sign of zero kept. -/
structure FMatrix where
  cols_number : Nat
  rows_number : Nat
  elements : List (List F64)
deriving DecidableEq

namespace FMatrix

/-- matrix.rs `Matrix::assert_index`. -/
def assert_index (m : FMatrix) (row col : Nat) : RustMatrix.Res Unit :=
  if m.rows_number ≤ row then
    .error (.err (.indexOutOfBounds ("Row index out of bounds")))
  else if m.cols_number ≤ col then
    .error (.err (.indexOutOfBounds ("Column index out of bounds")))
  else .ok ()

/-- Entry accessor (in-bounds under well-formedness). -/
def ent (m : FMatrix) (row col : Nat) : F64 :=
  (m.elements.getD row []).getD col F64.zero

/-- set.rs `Matrix::set`: bounds check, then the write with the
negative-zero guard `if value.is_zero() { zero } else { value }`. -/
def set (m : FMatrix) (row col : Nat) (v : F64) : RustMatrix.Res FMatrix := do
  m.assert_index row col
  .ok { m with elements :=
    m.elements.set row ((m.elements.getD row []).set col
      (if v.is_zero then F64.zero else v)) }

/-- set.rs `Matrix::set_row`. -/
def set_row (m : FMatrix) (row : Nat) (values : List F64) : RustMatrix.Res FMatrix := do
  m.assert_index row 0
  if values.length ≠ m.cols_number then
    .error (.err (.invalidOperation ("Values length must be equal to columns to set row")))
  else
    values.enum.foldlM (fun acc p => acc.set row p.1 p.2) m

/-- swap.rs `Matrix::swap_rows`: bounds checks, then `Vec::swap`; the
entries are moved without being rewritten. -/
def swap_rows (m : FMatrix) (row1 row2 : Nat) : RustMatrix.Res FMatrix := do
  m.assert_index row1 0
  m.assert_index row2 0
  .ok { m with elements :=
    (m.elements.set row1 (m.elements.getD row2 [])).set row2 (m.elements.getD row1 []) }

/-- get.rs `Matrix::get_row` (row as a list). -/
def get_row (m : FMatrix) (row : Nat) : RustMatrix.Res (List F64) := do
  m.assert_index row 0
  .ok (m.elements.getD row [])

/-- scale.rs `Matrix::scale_row`: `set_row(row, get_row(row)?.scale(s))`
with vector.rs `scale` mapping `element * scalar`. -/
def scale_row (m : FMatrix) (row : Nat) (s : F64) : RustMatrix.Res FMatrix := do
  let r ← m.get_row row
  m.set_row row (r.map fun x => x.mul s)

/-- row_ops.rs `Matrix::add_scaled_row_from_to` with vector.rs `add`
zip semantics. -/
def add_scaled_row_from_to (m : FMatrix) (frm tgt : Nat) (s : F64) : RustMatrix.Res FMatrix := do
  let row_from ← m.get_row frm
  let row_to ← m.get_row tgt
  m.set_row tgt ((row_to.zip (row_from.map fun x => x.mul s)).map fun p => p.1.add p.2)

end FMatrix

end FloatModel

/-! ## Theorems -/

namespace RustMatrix

/-- Truncating both lists to the common length does not change the zip. -/
theorem zip_take_min {α β : Type} (a : List α) (b : List β) :
    a.zip b = (a.take (min a.length b.length)).zip (b.take (min a.length b.length)) := by
  induction a generalizing b with
  | nil => simp
  | cons x xs ih =>
    cases b with
    | nil => simp
    | cons y ys =>
      simp only [List.zip_cons_cons, List.length_cons]
      have : min (xs.length + 1) (ys.length + 1) = min xs.length ys.length + 1 := by omega
      rw [this]
      simp only [List.take_succ_cons, List.zip_cons_cons]
      exact congrArg (List.cons (x, y)) (ih ys)

/-- C6, counterexample: `Vector::dot` never checks the operand lengths:
on the mismatched operands `[1,2,3]` and `[4,5]` it silently returns the
truncated dot product `14` instead of failing, refuting the claim that
every one of add, subtract and dot fails on unequal lengths. -/
theorem claim_C6_counterexample :
    (Vector.new [ofInt 1, ofInt 2, ofInt 3]).len ≠ (Vector.new [ofInt 4, ofInt 5]).len ∧
    Vector.dot (Vector.new [ofInt 1, ofInt 2, ofInt 3]) (Vector.new [ofInt 4, ofInt 5]) =
      ⟨⟨14, 1⟩⟩ := by
  exact ⟨by decide, by decide⟩

/-- C6, amended: on operands of unequal length, `Vector::add` and
`Vector::subtract` fail (panic), while `Vector::dot` performs no length
check and returns the dot product of the operands truncated to the
shorter length. -/
theorem claim_C6_amended : ∀ u v : Vector, u.len ≠ v.len →
    u.add v = .error (.panicked ("Vector length must be equal to add")) ∧
    u.subtract v = .error (.panicked ("Vector length must be equal to subtract")) ∧
    Vector.dot u v =
      Vector.dot ⟨u.data.take (min u.len v.len)⟩ ⟨v.data.take (min u.len v.len)⟩ := by
  intro u v h
  refine ⟨?_, ?_, ?_⟩
  · simp [Vector.add, h]
  · simp [Vector.subtract, h]
  · unfold Vector.dot
    rw [zip_take_min u.data v.data]
    rfl

/-- C6, witness for the amended claim at the concrete mismatched pair
`[1]` and `[2,3]`. -/
theorem claim_C6_witness :
    (Vector.new [ofInt 1]).len ≠ (Vector.new [ofInt 2, ofInt 3]).len ∧
    ((Vector.new [ofInt 1]).add (Vector.new [ofInt 2, ofInt 3]) =
      .error (.panicked ("Vector length must be equal to add")) ∧
    (Vector.new [ofInt 1]).subtract (Vector.new [ofInt 2, ofInt 3]) =
      .error (.panicked ("Vector length must be equal to subtract")) ∧
    Vector.dot (Vector.new [ofInt 1]) (Vector.new [ofInt 2, ofInt 3]) =
      Vector.dot ⟨(Vector.new [ofInt 1]).data.take
        (min (Vector.new [ofInt 1]).len (Vector.new [ofInt 2, ofInt 3]).len)⟩
        ⟨(Vector.new [ofInt 2, ofInt 3]).data.take
        (min (Vector.new [ofInt 1]).len (Vector.new [ofInt 2, ofInt 3]).len)⟩) :=
  ⟨by decide, claim_C6_amended _ _ (by decide)⟩

/-- C9: on a 1x1 matrix, `get_minor(0, 0)` passes the bounds check and
then builds the empty submatrix, whose construction through
`Matrix::new` panics with the empty-row message: the failure is an
unrecoverable panic, not a recoverable error. -/
theorem claim_C9_get_minor_panics : ∀ x : MatrixElement,
    (mkMat [[x]]).assert_index 0 0 = .ok () ∧
    (mkMat [[x]]).get_minor 0 0 =
      .error (.panicked ("Matrix must have at least one row")) := by
  intro x
  exact ⟨rfl, rfl⟩

/-- C10: `Matrix::epsilon_equals` inspects only the zipped rows and the
zipped entries inside them, so well-formed matrices that differ in
rows_number (and in cols_number) can still compare equal. -/
theorem claim_C10_epsilon_equals_shape_blind :
    ∃ a b c d : Matrix,
      a.WF ∧ b.WF ∧ c.WF ∧ d.WF ∧
      a.rows_number ≠ b.rows_number ∧ a.epsilon_equals b = true ∧
      c.cols_number ≠ d.cols_number ∧ c.epsilon_equals d = true := by
  refine ⟨mkMat [[ofInt 1], [ofInt 2]], mkMat [[ofInt 1]],
          mkMat [[ofInt 1, ofInt 5]], mkMat [[ofInt 1]], ?_, ?_, ?_, ?_, ?_, ?_, ?_, ?_⟩
  all_goals decide

/-- C1, counterexample: on `cexC1` the decomposition succeeds, but the
write clamp of set.rs zeroes the epsilon-small factor `1e-8` inside L
and the epsilon-small entry `9e-8` inside U, and `P*A` differs from
`L*U` by `1` at entry (2,1): they are not epsilon-equal. -/
theorem claim_C1_counterexample :
    ∃ l u p pa lu,
      cexC1.lup_decomposition = .ok (l, u, p) ∧
      p.multiply cexC1 = .ok pa ∧
      l.multiply u = .ok lu ∧
      pa.epsilon_equals lu = false := by
  refine ⟨mkMat [[ofInt 1, ofInt 0, ofInt 0],
                 [ofInt 1, ofInt 1, ofInt 0],
                 [ofInt 1, ofInt 0, ofInt 1]],
          mkMat [[ofInt 1, ofInt 0, ofFrac 0 (10 ^ 8)],
                 [ofInt 0, ofInt (10 ^ 8), ofFrac (-(9 * 10 ^ 16)) (10 ^ 16)],
                 [ofInt 0, ofInt 0, ofInt 0]],
          mkMat [[ofInt 1, ofInt 0, ofInt 0],
                 [ofInt 0, ofInt 1, ofInt 0],
                 [ofInt 0, ofInt 0, ofInt 1]],
          mkMat [[ofInt 1, ofInt 0, ofFrac 0 (10 ^ 8)],
                 [ofInt 1, ofInt (10 ^ 8), ofFrac (-(9 * 10 ^ 8)) (10 ^ 8)],
                 [ofInt 1, ofInt 1, ofFrac 9 (10 ^ 8)]],
          mkMat [[ofInt 1, ofInt 0, ofFrac 0 (10 ^ 24)],
                 [ofInt 1, ofInt (10 ^ 8), ofFrac (-(9 * 10 ^ 24)) (10 ^ 24)],
                 [ofInt 1, ofInt 0, ofFrac 0 (10 ^ 24)]],
          ?_, ?_, ?_, ?_⟩
  all_goals decide

/-- C2, counterexample: on `cexC2` the epsilon-zero column 0 is skipped
and the elimination against column 1 leaves `2.5e-7` strictly below the
diagonal of U, which is not epsilon-zero, so U is not upper-triangular
in the claimed sense. -/
theorem claim_C2_counterexample :
    ∃ l u p,
      cexC2.lup_decomposition = .ok (l, u, p) ∧
      (0 : Nat) < 1 ∧
      (u.ent 1 0).is_zero = false := by
  refine ⟨mkMat [[ofInt 1, ofInt 0], [ofInt (-4), ofInt 1]],
          mkMat [[ofFrac (5 * 10 ^ 8) (10 ^ 16), ofInt 1],
                 [ofFrac (25 * 10 ^ 24) (10 ^ 32), ofInt 0]],
          mkMat [[ofInt 1, ofInt 0], [ofInt 0, ofInt 1]],
          ?_, ?_, ?_⟩
  all_goals decide

/-- C3, counterexample at size 2: `det` uses the closed form `ad - bc`
(value `1.5e-7`), while the echelon form of the same matrix has diagonal
product zero after the write clamp; the difference exceeds the
tolerance, so the determinant is not epsilon-equal to the signed
echelon diagonal product at size 2. -/
theorem claim_C3_counterexample :
    ∃ d e s,
      cexC3.det = .ok d ∧
      cexC3.row_echelon = .ok (e, s) ∧
      d.epsilon_equals (echelonSignedDiagProd e s 2) = false := by
  refine ⟨⟨⟨15 * 10 ^ 8, 10 ^ 16⟩⟩,
          mkMat [[ofFrac 5 (10 ^ 8), ofInt 4], [ofInt 0, ofInt 0]], 1,
          ?_, ?_, ?_⟩
  all_goals decide

/-- C4, counterexample: `inverse([[1e8]])` succeeds but returns `[[0]]`
(the exact inverse value `1e-8` is epsilon-small and the write clamp of
set.rs zeroes it), so `A * inverse(A)` is the zero matrix rather than
the identity, and `inverse(inverse(A))` fails outright. -/
theorem claim_C4_counterexample :
    ∃ e ae i1,
      Matrix.identity 1 = .ok i1 ∧
      cexC4.inverse = .ok e ∧
      cexC4.multiply e = .ok ae ∧
      ae.epsilon_equals i1 = false ∧
      e.inverse = .error (.err (.invalidOperation ("The matrix cannot be inverted"))) := by
  refine ⟨mkMat [[ofInt 0]], mkMat [[ofInt 0]], mkMat [[ofInt 1]], ?_, ?_, ?_, ?_, ?_⟩
  all_goals decide

/-- C5, counterexample: `to_rref` applied to `cexC5` produces
`[[1.8e-7, 1], [0, 0]]`, and applying `to_rref` again pivots on the
non-epsilon-zero `1.8e-7`, producing a matrix that is far from the
first result: `to_rref` is not idempotent up to the tolerance. -/
theorem claim_C5_counterexample :
    ∃ r r2,
      cexC5.to_rref = .ok r ∧
      r.to_rref = .ok r2 ∧
      r2.epsilon_equals r = false := by
  refine ⟨mkMat [[ofFrac 18 (10 ^ 8), ofFrac 2 2], [ofInt 0, ofInt 0]],
          mkMat [[ofFrac (18 * 10 ^ 8) (18 * 10 ^ 8), ofFrac (2 * 10 ^ 8) 36],
                 [ofInt 0, ofInt 0]],
          ?_, ?_, ?_⟩
  all_goals decide

end RustMatrix

/-! ### Value lemmas for the fraction scalar -/

namespace Fr

theorem toQ_zero : Fr.zero.toQ = 0 := by simp [toQ, zero]

theorem toQ_one : Fr.one.toQ = 1 := by simp [toQ, one]

theorem posF_zero : Fr.zero.Pos := by simp [Pos, zero]

theorem posF_one : Fr.one.Pos := by simp [Pos, one]

theorem den_ne {a : Fr} (h : a.Pos) : (a.den : ℚ) ≠ 0 := by
  exact_mod_cast (Int.ne_of_gt h)

theorem posF_add {a b : Fr} (ha : a.Pos) (hb : b.Pos) : (a.add b).Pos :=
  mul_pos ha hb

theorem posF_sub {a b : Fr} (ha : a.Pos) (hb : b.Pos) : (a.sub b).Pos :=
  mul_pos ha hb

theorem posF_mul {a b : Fr} (ha : a.Pos) (hb : b.Pos) : (a.mul b).Pos :=
  mul_pos ha hb

theorem toQ_add {a b : Fr} (ha : a.Pos) (hb : b.Pos) :
    (a.add b).toQ = a.toQ + b.toQ := by
  unfold toQ add
  have h1 := den_ne ha
  have h2 := den_ne hb
  push_cast
  field_simp
  try ring

theorem toQ_sub {a b : Fr} (ha : a.Pos) (hb : b.Pos) :
    (a.sub b).toQ = a.toQ - b.toQ := by
  unfold toQ sub
  have h1 := den_ne ha
  have h2 := den_ne hb
  push_cast
  field_simp
  try ring

theorem toQ_mul {a b : Fr} (ha : a.Pos) (hb : b.Pos) :
    (a.mul b).toQ = a.toQ * b.toQ := by
  unfold toQ mul
  have h1 := den_ne ha
  have h2 := den_ne hb
  push_cast
  field_simp
  try ring

theorem lt_iff {a b : Fr} (ha : a.Pos) (hb : b.Pos) :
    (a.lt b = true) ↔ a.toQ < b.toQ := by
  unfold lt toQ
  rw [decide_eq_true_iff]
  rw [div_lt_div_iff (by exact_mod_cast ha) (by exact_mod_cast hb)]
  constructor
  · intro h; exact_mod_cast h
  · intro h; exact_mod_cast h

theorem num_zero_iff {a : Fr} (h : a.Pos) : a.num = 0 ↔ a.toQ = 0 := by
  unfold toQ
  rw [div_eq_zero_iff]
  constructor
  · intro hn; exact Or.inl (by exact_mod_cast hn)
  · rintro (hn | hd)
    · exact_mod_cast hn
    · exact absurd hd (den_ne h)

theorem num_ne_zero {a : Fr} (h : a.Pos) (hv : a.toQ ≠ 0) : a.num ≠ 0 := by
  intro hn
  exact hv ((num_zero_iff h).mp hn)

theorem divFr_eq (a b : Fr) : a.divFr b =
    if a.den * b.num < 0 then ⟨-(a.num * b.den), -(a.den * b.num)⟩
    else ⟨a.num * b.den, a.den * b.num⟩ := rfl

theorem pos_divFr {a b : Fr} (ha : a.Pos) (hb : b.num ≠ 0) : (a.divFr b).Pos := by
  rw [divFr_eq]
  have had : a.den ≠ 0 := ne_of_gt ha
  have hne : a.den * b.num ≠ 0 := mul_ne_zero had hb
  by_cases h : a.den * b.num < 0
  · rw [if_pos h]
    show (0 : Int) < -(a.den * b.num)
    omega
  · rw [if_neg h]
    show (0 : Int) < a.den * b.num
    omega

theorem toQ_divFr {a b : Fr} (ha : a.Pos) (hb : b.Pos) (hbn : b.num ≠ 0) :
    (a.divFr b).toQ = a.toQ / b.toQ := by
  rw [divFr_eq]
  have h1 := den_ne ha
  have h2 := den_ne hb
  have h3 : (b.num : ℚ) ≠ 0 := by exact_mod_cast hbn
  unfold toQ
  by_cases h : a.den * b.num < 0
  · rw [if_pos h]
    show (((-(a.num * b.den) : Int) : ℚ) / ((-(a.den * b.num) : Int) : ℚ)) = _
    push_cast
    field_simp
    try ring
  · rw [if_neg h]
    show (((a.num * b.den : Int) : ℚ) / ((a.den * b.num : Int) : ℚ)) = _
    push_cast
    field_simp
    try ring

end Fr

/-! ### Value lemmas for the matrix element -/

namespace RustMatrix

theorem EPSQ_pos : (0 : ℚ) < EPSQ := by norm_num [EPSQ]

theorem EPS_toQ : EPS.toQ = EPSQ := by norm_num [EPS, Fr.toQ, EPSQ]

theorem EPS_pos : EPS.Pos := by norm_num [EPS, Fr.Pos]

namespace MatrixElement

theorem val_zero : MatrixElement.zero.val = 0 := Fr.toQ_zero

theorem val_one : MatrixElement.one.val = 1 := Fr.toQ_one

theorem pos_zero : MatrixElement.zero.data.Pos := Fr.posF_zero

theorem pos_one : MatrixElement.one.data.Pos := Fr.posF_one

theorem val_add {a b : MatrixElement} (ha : a.data.Pos) (hb : b.data.Pos) :
    (a.add b).val = a.val + b.val := Fr.toQ_add ha hb

theorem val_sub {a b : MatrixElement} (ha : a.data.Pos) (hb : b.data.Pos) :
    (a.sub b).val = a.val - b.val := Fr.toQ_sub ha hb

theorem val_mul {a b : MatrixElement} (ha : a.data.Pos) (hb : b.data.Pos) :
    (a.mul b).val = a.val * b.val := Fr.toQ_mul ha hb

theorem pos_add {a b : MatrixElement} (ha : a.data.Pos) (hb : b.data.Pos) :
    (a.add b).data.Pos := Fr.posF_add ha hb

theorem pos_sub {a b : MatrixElement} (ha : a.data.Pos) (hb : b.data.Pos) :
    (a.sub b).data.Pos := Fr.posF_sub ha hb

theorem pos_mul {a b : MatrixElement} (ha : a.data.Pos) (hb : b.data.Pos) :
    (a.mul b).data.Pos := Fr.posF_mul ha hb

theorem val_negate {a : MatrixElement} (ha : a.data.Pos) :
    a.negate.val = -a.val := by
  show (MatrixElement.zero.sub a).val = -a.val
  rw [val_sub pos_zero ha, val_zero]
  ring

theorem pos_negate {a : MatrixElement} (ha : a.data.Pos) :
    a.negate.data.Pos := Fr.posF_sub Fr.posF_zero ha

theorem val_abs {a : MatrixElement} (ha : a.data.Pos) : a.abs.val = |a.val| := by
  unfold abs
  by_cases h : a.data.lt Fr.zero = true
  · have hneg : a.val < 0 := by
      have := (Fr.lt_iff ha Fr.posF_zero).mp h
      rwa [Fr.toQ_zero] at this
    rw [if_pos h, val_negate ha, abs_of_neg hneg]
  · have hnonneg : 0 ≤ a.val := by
      rcases le_or_lt 0 a.val with h' | h'
      · exact h'
      · exact absurd (by rw [Fr.lt_iff ha Fr.posF_zero, Fr.toQ_zero]; exact h') h
    rw [if_neg h, abs_of_nonneg hnonneg]

theorem pos_abs {a : MatrixElement} (ha : a.data.Pos) : a.abs.data.Pos := by
  unfold abs
  by_cases h : a.data.lt Fr.zero = true
  · rw [if_pos h]; exact pos_negate ha
  · rw [if_neg h]; exact ha

theorem epsilon_equals_iff {a b : MatrixElement} (ha : a.data.Pos) (hb : b.data.Pos) :
    (a.epsilon_equals b = true) ↔ |a.val - b.val| < EPSQ := by
  unfold epsilon_equals
  rw [Fr.lt_iff (pos_abs (pos_sub ha hb)) EPS_pos]
  show (a.sub b).abs.val < EPS.toQ ↔ _
  rw [val_abs (pos_sub ha hb), val_sub ha hb, EPS_toQ]

theorem is_zero_iff {a : MatrixElement} (ha : a.data.Pos) :
    (a.is_zero = true) ↔ |a.val| < EPSQ := by
  unfold is_zero
  rw [epsilon_equals_iff ha pos_zero, val_zero, sub_zero]

theorem is_one_iff {a : MatrixElement} (ha : a.data.Pos) :
    (a.is_one = true) ↔ |a.val - 1| < EPSQ := by
  unfold is_one
  rw [epsilon_equals_iff ha pos_one, val_one]

theorem val_ne_zero_of_not_is_zero {a : MatrixElement} (ha : a.data.Pos)
    (h : a.is_zero = false) : a.val ≠ 0 := by
  intro hv
  have : a.is_zero = true := (is_zero_iff ha).mpr (by rw [hv]; simpa using EPSQ_pos)
  rw [this] at h
  cases h

theorem div_ok {a b : MatrixElement} (hb : b.is_zero = false) :
    a.div b = .ok ⟨a.data.divFr b.data⟩ := by
  unfold div
  rw [hb]
  rfl

theorem div_val {a b : MatrixElement} (ha : a.data.Pos) (hb : b.data.Pos)
    (h : b.is_zero = false) :
    (⟨a.data.divFr b.data⟩ : MatrixElement).val = a.val / b.val ∧
    (a.data.divFr b.data).Pos := by
  have hbn : b.data.num ≠ 0 := Fr.num_ne_zero hb (val_ne_zero_of_not_is_zero hb h)
  exact ⟨Fr.toQ_divFr ha hb hbn, Fr.pos_divFr ha hbn⟩

theorem inverse_ok {a : MatrixElement} (h : a.is_zero = false) :
    a.inverse = .ok ⟨Fr.one.divFr a.data⟩ := by
  unfold inverse
  rw [h]
  simp only [Bool.false_eq_true, if_false]
  exact div_ok h

theorem inverse_val {a : MatrixElement} (ha : a.data.Pos) (h : a.is_zero = false) :
    (⟨Fr.one.divFr a.data⟩ : MatrixElement).val = 1 / a.val ∧
    (Fr.one.divFr a.data).Pos := by
  have := div_val (a := MatrixElement.one) pos_one ha h
  rwa [val_one] at this

theorem epsilon_equals_of_val_eq {a b : MatrixElement} (ha : a.data.Pos)
    (hb : b.data.Pos) (h : a.val = b.val) : a.epsilon_equals b = true := by
  rw [epsilon_equals_iff ha hb, h]
  simpa using EPSQ_pos

end MatrixElement

theorem clampWrite_pos {v : MatrixElement} (hv : v.data.Pos) :
    (Matrix.clampWrite v).data.Pos := by
  unfold Matrix.clampWrite
  by_cases h : v.is_zero = true
  · simp [h, MatrixElement.pos_zero]
  · simp only [h]
    rw [if_neg (by simp [h])]
    exact hv

theorem clampWrite_val_of_clean {v : MatrixElement} (hv : v.data.Pos)
    (h : v.data.num = 0 ∨ v.is_zero = false) :
    (Matrix.clampWrite v).val = v.val := by
  unfold Matrix.clampWrite
  rcases h with h | h
  · have hz : v.val = 0 := (Fr.num_zero_iff hv).mp h
    by_cases hi : v.is_zero = true
    · simp [hi, MatrixElement.val_zero, hz]
    · simp only [hi]
      rw [if_neg (by simp [hi])]
  · rw [if_neg (by simp [h])]

theorem clampWrite_val_zero {v : MatrixElement} (hv : v.data.Pos) (hz : v.val = 0) :
    (Matrix.clampWrite v).val = 0 := by
  unfold Matrix.clampWrite
  by_cases h : v.is_zero = true
  · simp [h, MatrixElement.val_zero]
  · simp only [h]
    rw [if_neg (by simp [h])]
    exact hz

end RustMatrix

/-! ### List access helpers -/

namespace RustMatrix

@[simp] theorem resBind_ok {α β : Type} (a : α) (f : α → Res β) :
    (Except.ok a : Res α) >>= f = f a := rfl

@[simp] theorem resBind_error {α β : Type} (e : Failure) (f : α → Res β) :
    (Except.error e : Res α) >>= f = .error e := rfl

theorem List_getD_set_self {α : Type} (l : List α) (i : Nat) (v d : α)
    (h : i < l.length) : (l.set i v).getD i d = v := by
  induction l generalizing i with
  | nil => simp at h
  | cons x xs ih =>
    cases i with
    | zero => rfl
    | succ k => exact ih k (by simpa using h)

theorem List_getD_set_ne {α : Type} (l : List α) (i j : Nat) (v d : α)
    (h : i ≠ j) : (l.set i v).getD j d = l.getD j d := by
  induction l generalizing i j with
  | nil => simp [List.set]
  | cons x xs ih =>
    cases i with
    | zero =>
      cases j with
      | zero => exact absurd rfl h
      | succ k => rfl
    | succ ki =>
      cases j with
      | zero => rfl
      | succ kj => exact ih ki kj (by omega)

theorem List_length_set {α : Type} (l : List α) (i : Nat) (v : α) :
    (l.set i v).length = l.length := List.length_set ..

theorem List_getD_of_ge {α : Type} (l : List α) (i : Nat) (d : α)
    (h : l.length ≤ i) : l.getD i d = d := by
  induction l generalizing i with
  | nil => cases i <;> rfl
  | cons x xs ih =>
    cases i with
    | zero => simp at h
    | succ k => exact ih k (by simpa using h)

theorem List_getD_mem {α : Type} (l : List α) (i : Nat) (d : α)
    (h : i < l.length) : l.getD i d ∈ l := by
  induction l generalizing i with
  | nil => simp at h
  | cons x xs ih =>
    cases i with
    | zero => exact List.mem_cons_self ..
    | succ k => exact List.mem_cons_of_mem x (ih k (by simpa using h))

theorem List_mem_getD {α : Type} (l : List α) (a : α) (d : α) (h : a ∈ l) :
    ∃ i, i < l.length ∧ l.getD i d = a := by
  induction l with
  | nil => simp at h
  | cons x xs ih =>
    rcases List.mem_cons.mp h with h | h
    · exact ⟨0, by simp, h.symm⟩
    · rcases ih h with ⟨i, hi, he⟩
      exact ⟨i + 1, by simpa using hi, he⟩

theorem List_getD_map_me (f : MatrixElement → MatrixElement) (l : List MatrixElement)
    (i : Nat) (h : i < l.length) :
    (l.map f).getD i MatrixElement.zero = f (l.getD i MatrixElement.zero) := by
  induction l generalizing i with
  | nil => simp at h
  | cons x xs ih =>
    cases i with
    | zero => rfl
    | succ k => exact ih k (by simpa using h)

theorem rowCombine_length (rowTo rowFrom : List MatrixElement) (s : MatrixElement) :
    (rowCombine rowTo rowFrom s).length = min rowTo.length rowFrom.length := by
  simp [rowCombine]

theorem rowCombine_getD (rowTo rowFrom : List MatrixElement) (s : MatrixElement)
    (c : Nat) (h1 : c < rowTo.length) (h2 : c < rowFrom.length) :
    (rowCombine rowTo rowFrom s).getD c MatrixElement.zero =
      (rowTo.getD c MatrixElement.zero).add ((rowFrom.getD c MatrixElement.zero).mul s) := by
  induction rowTo generalizing rowFrom c with
  | nil => simp at h1
  | cons x xs ih =>
    cases rowFrom with
    | nil => simp at h2
    | cons y ys =>
      cases c with
      | zero => rfl
      | succ k =>
        exact ih ys k (by simpa using h1) (by simpa using h2)

theorem cleanVals_getD {vs : List MatrixElement} (h : cleanVals vs = true)
    (c : Nat) (hc : c < vs.length) :
    (vs.getD c MatrixElement.zero).data.num = 0 ∨
    (vs.getD c MatrixElement.zero).is_zero = false := by
  have hm := List_getD_mem vs c MatrixElement.zero hc
  rw [cleanVals, List.all_eq_true] at h
  have h2 := h _ hm
  rcases Bool.or_eq_true_iff.mp h2 with h' | h'
  · exact Or.inl (of_decide_eq_true h')
  · right
    simpa using h' 

/-! ### Shape and positivity bridges -/

namespace Matrix

theorem wf_shape {a : Matrix} (h : a.WF) : Shape a a.rows_number a.cols_number := by
  obtain ⟨⟨h1, h2, h3, h4⟩, _, _, _⟩ := h
  refine ⟨rfl, rfl, h3.symm ▸ rfl, fun r hr => ?_⟩
  · exact h4 _ (List_getD_mem _ _ _ (by omega))

theorem wf_entPos {a : Matrix} (h : a.WF) : EntPos a := by
  obtain ⟨⟨h1, h2, h3, h4⟩, _, _, hP⟩ := h
  intro r c
  unfold ent
  by_cases hr : r < a.elements.length
  · have hrow := List_getD_mem a.elements r [] hr
    by_cases hc : c < (a.elements.getD r []).length
    · exact hP _ hrow _ (List_getD_mem _ _ _ hc)
    · rw [List_getD_of_ge (a.elements.getD r []) c MatrixElement.zero (by omega)]
      exact MatrixElement.pos_zero
  · rw [List_getD_of_ge a.elements r [] (by omega)]
    simp only [List.getD_nil]
    exact MatrixElement.pos_zero

theorem shape_wf {a : Matrix} {m n : Nat} (hS : Shape a m n) (hE : EntPos a)
    (hm : 1 ≤ m) (hn : 1 ≤ n) : a.WF := by
  obtain ⟨h1, h2, h3, h4⟩ := hS
  have hrows : ∀ r ∈ a.elements, r.length = a.cols_number := by
    intro row hrow
    rcases List_mem_getD a.elements row [] hrow with ⟨i, hi, he⟩
    rw [← he, h2, h4 i (by omega)]
  refine ⟨⟨rfl, rfl, by omega, hrows⟩, by omega, by omega, ?_⟩
  intro row hrow e he
  rcases List_mem_getD a.elements row [] hrow with ⟨i, hi, hei⟩
  rcases List_mem_getD row e MatrixElement.zero he with ⟨j, hj, hej⟩
  have := hE i j
  unfold ent at this
  rwa [hei, hej] at this

theorem entPos_ent {a : Matrix} (h : EntPos a) (r c : Nat) :
    (a.ent r c).data.Pos := h r c

theorem entPos_of_shape {c : Matrix} {m n : Nat} (hS : Shape c m n)
    (h : ∀ r q, r < m → q < n → (c.ent r q).data.Pos) : EntPos c := by
  intro r q
  by_cases hr : r < m
  · by_cases hq : q < n
    · exact h r q hr hq
    · unfold ent
      rw [List_getD_of_ge (c.elements.getD r []) q MatrixElement.zero
        (by rw [hS.2.2.2 r hr]; omega)]
      exact MatrixElement.pos_zero
  · unfold ent
    rw [List_getD_of_ge c.elements r [] (by rw [hS.2.2.1]; omega)]
    simp only [List.getD_nil]
    exact MatrixElement.pos_zero

/-! ### Characterizations of the mutation primitives -/

theorem assert_index_ok {a : Matrix} {m n r c : Nat} (hS : Shape a m n)
    (hr : r < m) (hc : c < n) : a.assert_index r c = .ok () := by
  unfold assert_index
  rw [hS.1, hS.2.1, if_neg (by omega), if_neg (by omega)]

theorem get_ok {a : Matrix} {m n r c : Nat} (hS : Shape a m n)
    (hr : r < m) (hc : c < n) : a.get r c = .ok (a.ent r c) := by
  unfold get
  rw [assert_index_ok hS hr hc]
  rfl

theorem get_row_ok {a : Matrix} {m n r : Nat} (hS : Shape a m n)
    (hr : r < m) (hn : 0 < n) : a.get_row r = .ok ⟨a.elements.getD r []⟩ := by
  unfold get_row
  rw [assert_index_ok hS hr hn]
  rfl

theorem set_spec {a : Matrix} {m n r c : Nat} {v : MatrixElement}
    (hS : Shape a m n) (hE : EntPos a) (hr : r < m) (hc : c < n)
    (hv : v.data.Pos) :
    ∃ a', a.set r c v = .ok a' ∧ Shape a' m n ∧ EntPos a' ∧
      (∀ r' c', a'.ent r' c' =
        if r' = r ∧ c' = c then clampWrite v else a.ent r' c') := by
  obtain ⟨h1, h2, h3, h4⟩ := hS
  have hrl : r < a.elements.length := by omega
  have hcl : c < (a.elements.getD r []).length := by rw [h4 r hr]; omega
  have hok : a.set r c v = .ok ⟨a.cols_number, a.rows_number,
      a.elements.set r ((a.elements.getD r []).set c (clampWrite v))⟩ := by
    unfold set
    rw [assert_index_ok ⟨h1, h2, h3, h4⟩ hr hc]
    rfl
  have hchar : ∀ r' c',
      (⟨a.cols_number, a.rows_number,
        a.elements.set r ((a.elements.getD r []).set c (clampWrite v))⟩ : Matrix).ent r' c' =
      if r' = r ∧ c' = c then clampWrite v else a.ent r' c' := by
    intro r' c'
    show ((a.elements.set r ((a.elements.getD r []).set c (clampWrite v))).getD r' []).getD
        c' MatrixElement.zero = _
    by_cases hrr : r' = r
    · subst hrr
      rw [List_getD_set_self _ _ _ _ hrl]
      by_cases hcc : c' = c
      · subst hcc
        rw [List_getD_set_self _ _ _ _ hcl, if_pos ⟨rfl, rfl⟩]
      · rw [List_getD_set_ne _ _ _ _ _ (fun he => hcc he.symm),
          if_neg (fun hp => hcc hp.2)]
        rfl
    · rw [List_getD_set_ne _ _ _ _ _ (fun he => hrr he.symm),
        if_neg (fun hp => hrr hp.1)]
      rfl
  refine ⟨_, hok, ⟨h1, h2, ?_, ?_⟩, ?_, hchar⟩
  · show (a.elements.set r _).length = m
    rw [List_length_set]; exact h3
  · intro r' hr'
    show ((a.elements.set r _).getD r' []).length = n
    by_cases hrr : r' = r
    · subst hrr
      rw [List_getD_set_self _ _ _ _ hrl, List_length_set]
      exact h4 r' hr'
    · rw [List_getD_set_ne _ _ _ _ _ (fun he => hrr he.symm)]
      exact h4 r' hr'
  · intro r' c'
    rw [hchar r' c']
    by_cases hp : r' = r ∧ c' = c
    · rw [if_pos hp]; exact clampWrite_pos hv
    · rw [if_neg hp]; exact hE r' c'

theorem swap_rows_spec {a : Matrix} {m n r1 r2 : Nat}
    (hS : Shape a m n) (hE : EntPos a) (h1 : r1 < m) (h2 : r2 < m) (hn : 0 < n) :
    ∃ a', a.swap_rows r1 r2 = .ok a' ∧ Shape a' m n ∧ EntPos a' ∧
      (∀ r' c', a'.ent r' c' =
        a.ent (if r' = r2 then r1 else if r' = r1 then r2 else r') c') := by
  obtain ⟨hf1, hf2, hf3, hf4⟩ := hS
  have hl1 : r1 < a.elements.length := by omega
  have hl2 : r2 < a.elements.length := by omega
  have hok : a.swap_rows r1 r2 = .ok ⟨a.cols_number, a.rows_number,
      (a.elements.set r1 (a.elements.getD r2 [])).set r2 (a.elements.getD r1 [])⟩ := by
    unfold swap_rows
    rw [assert_index_ok ⟨hf1, hf2, hf3, hf4⟩ h1 hn, assert_index_ok ⟨hf1, hf2, hf3, hf4⟩ h2 hn]
    rfl
  have hrow : ∀ r',
      (((a.elements.set r1 (a.elements.getD r2 [])).set r2 (a.elements.getD r1 [])).getD r' []) =
      a.elements.getD (if r' = r2 then r1 else if r' = r1 then r2 else r') [] := by
    intro r'
    by_cases hr2 : r' = r2
    · subst hr2
      rw [if_pos rfl, List_getD_set_self _ _ _ _ (by rw [List_length_set]; omega)]
    · rw [List_getD_set_ne _ _ _ _ _ (fun he => hr2 he.symm), if_neg hr2]
      by_cases hr1 : r' = r1
      · subst hr1
        rw [if_pos rfl, List_getD_set_self _ _ _ _ hl1]
      · rw [List_getD_set_ne _ _ _ _ _ (fun he => hr1 he.symm), if_neg hr1]
  refine ⟨_, hok, ⟨hf1, hf2, ?_, ?_⟩, ?_, ?_⟩
  · show ((a.elements.set r1 _).set r2 _).length = m
    rw [List_length_set, List_length_set]; exact hf3
  · intro r' hr'
    show (((a.elements.set r1 _).set r2 _).getD r' []).length = n
    rw [hrow r']
    split
    · exact hf4 r1 h1
    · split
      · exact hf4 r2 h2
      · exact hf4 r' hr'
  · intro r' c'
    show ((((a.elements.set r1 _).set r2 _).getD r' []).getD c' MatrixElement.zero).data.Pos
    rw [hrow r']
    exact hE _ c'
  · intro r' c'
    show (((_ : List (List MatrixElement)).getD r' []).getD c' MatrixElement.zero) = _
    rw [hrow r']
    rfl

theorem setfold_spec {m n row : Nat} :
    ∀ (vs : List MatrixElement) (off : Nat) (a : Matrix),
    Shape a m n → EntPos a → row < m → off + vs.length ≤ n →
    (∀ x ∈ vs, x.data.Pos) →
    ∃ a', (List.enumFrom off vs).foldlM (fun acc p => acc.set row p.1 p.2) a = .ok a' ∧
      Shape a' m n ∧ EntPos a' ∧
      (∀ r' c', r' ≠ row → a'.ent r' c' = a.ent r' c') ∧
      (∀ c, c < off → a'.ent row c = a.ent row c) ∧
      (∀ c, off ≤ c → c < off + vs.length →
        a'.ent row c = clampWrite (vs.getD (c - off) MatrixElement.zero)) ∧
      (∀ c, off + vs.length ≤ c → a'.ent row c = a.ent row c) := by
  intro vs
  induction vs with
  | nil =>
    intro off a hS hE hr hoff hvp
    refine ⟨a, rfl, hS, hE, fun _ _ _ => rfl, fun _ _ => rfl, ?_,
      fun _ _ => rfl⟩
    intro c hc1 hc2
    simp only [List.length_nil, Nat.add_zero] at hc2
    exact absurd hc2 (by omega)
  | cons v vt ih =>
    intro off a hS hE hr hoff hvp
    have hvpos : v.data.Pos := hvp v (List.mem_cons_self ..)
    have hoffn : off < n := by
      have := vt.length
      simp only [List.length_cons] at hoff
      omega
    rcases set_spec hS hE hr hoffn hvpos with ⟨a1, hok1, hS1, hE1, hch1⟩
    rcases ih (off + 1) a1 hS1 hE1 hr (by simp only [List.length_cons] at hoff; omega)
      (fun x hx => hvp x (List.mem_cons_of_mem v hx)) with
      ⟨a', hfold, hS', hE', hunch, hlow, hmid, hhigh⟩
    refine ⟨a', ?_, hS', hE', ?_, ?_, ?_, ?_⟩
    · show ((off, v) :: List.enumFrom (off + 1) vt).foldlM
        (fun acc p => acc.set row p.1 p.2) a = .ok a'
      rw [List.foldlM_cons]
      show (a.set row off v) >>= _ = _
      rw [hok1, resBind_ok]
      exact hfold
    · intro r' c' hne
      rw [hunch r' c' hne, hch1 r' c', if_neg (fun hp => hne hp.1)]
    · intro c hc
      rw [hlow c (by omega), hch1 row c, if_neg (fun hp => by omega)]
    · intro c hc1 hc2
      by_cases hceq : c = off
      · subst hceq
        rw [hlow c (by omega), hch1 row c, if_pos ⟨rfl, rfl⟩]
        simp
      · have hge : off + 1 ≤ c := by omega
        rw [hmid c hge (by simp only [List.length_cons] at hc2 ⊢; omega)]
        have : (v :: vt).getD (c - off) MatrixElement.zero =
            vt.getD (c - (off + 1)) MatrixElement.zero := by
          have hco : c - off = (c - (off + 1)) + 1 := by omega
          rw [hco]
          rfl
        rw [this]
    · intro c hc
      simp only [List.length_cons] at hc
      rw [hhigh c (by omega), hch1 row c, if_neg (fun hp => by omega)]

theorem set_row_spec {a : Matrix} {m n row : Nat} {w : Vector}
    (hS : Shape a m n) (hE : EntPos a) (hr : row < m) (hn : 0 < n)
    (hlen : w.len = n) (hvp : ∀ x ∈ w.data, x.data.Pos) :
    ∃ a', a.set_row row w = .ok a' ∧ Shape a' m n ∧ EntPos a' ∧
      (∀ r' c', r' ≠ row → a'.ent r' c' = a.ent r' c') ∧
      (∀ c, c < n → a'.ent row c = clampWrite (w.data.getD c MatrixElement.zero)) := by
  rcases setfold_spec w.data 0 a hS hE hr (by unfold Vector.len at hlen; omega) hvp with
    ⟨a', hfold, hS', hE', hunch, _, hmid, _⟩
  refine ⟨a', ?_, hS', hE', hunch, ?_⟩
  · unfold set_row
    rw [assert_index_ok hS hr hn, resBind_ok]
    have hcond : (w.len ≠ a.cols_number) = False := by
      simp only [eq_iff_iff, iff_false, Decidable.not_not]
      rw [hlen, hS.2.1]
    rw [if_neg (by rw [hlen, hS.2.1]; exact fun h => h rfl)]
    exact hfold
  · intro c hc
    have := hmid c (by omega) (by unfold Vector.len at hlen; omega)
    simpa using this

theorem scale_row_spec {a : Matrix} {m n row : Nat} {s : MatrixElement}
    (hS : Shape a m n) (hE : EntPos a) (hr : row < m) (hn : 0 < n)
    (hs : s.data.Pos) :
    ∃ a', a.scale_row row s = .ok a' ∧ Shape a' m n ∧ EntPos a' ∧
      (∀ r' c', r' ≠ row → a'.ent r' c' = a.ent r' c') ∧
      (∀ c, c < n → a'.ent row c = clampWrite ((a.ent row c).mul s)) := by
  have hrl : (a.elements.getD row []).length = n := hS.2.2.2 row hr
  have hvp : ∀ x ∈ ((a.elements.getD row []).map fun e => e.mul s), x.data.Pos := by
    intro x hx
    rcases List.mem_map.mp hx with ⟨e, he, rfl⟩
    rcases List_mem_getD _ e MatrixElement.zero he with ⟨c, hcl, hce⟩
    have : e = a.ent row c := by rw [← hce]; rfl
    rw [this]
    exact MatrixElement.pos_mul (hE row c) hs
  rcases set_row_spec (w := ⟨(a.elements.getD row []).map fun e => e.mul s⟩)
    hS hE hr hn (by unfold Vector.len; simpa using hrl) hvp with
    ⟨a', hsr, hS', hE', hunch, hmid⟩
  refine ⟨a', ?_, hS', hE', hunch, ?_⟩
  · unfold scale_row
    rw [get_row_ok hS hr hn, resBind_ok]
    exact hsr
  · intro c hc
    rw [hmid c hc]
    show clampWrite (((a.elements.getD row []).map fun e => e.mul s).getD c
      MatrixElement.zero) = _
    rw [List_getD_map_me _ _ _ (by omega)]
    rfl

theorem add_scaled_spec {a : Matrix} {m n i k : Nat} {s : MatrixElement}
    (hS : Shape a m n) (hE : EntPos a) (hi : i < m) (hk : k < m) (hn : 0 < n)
    (hs : s.data.Pos) :
    ∃ a', a.add_scaled_row_from_to i k s = .ok a' ∧ Shape a' m n ∧ EntPos a' ∧
      (∀ r' c', r' ≠ k → a'.ent r' c' = a.ent r' c') ∧
      (∀ c, c < n →
        a'.ent k c = clampWrite ((a.ent k c).add ((a.ent i c).mul s))) := by
  have hil : (a.elements.getD i []).length = n := hS.2.2.2 i hi
  have hkl : (a.elements.getD k []).length = n := hS.2.2.2 k hk
  have hlen_eq : (Vector.mk (a.elements.getD k [])).len =
      ((Vector.mk (a.elements.getD i [])).scale s).len := by
    show (a.elements.getD k []).length = ((a.elements.getD i []).map fun e => e.mul s).length
    rw [List.length_map, hil, hkl]
  have hsum : (Vector.mk (a.elements.getD k [])).add
      ((Vector.mk (a.elements.getD i [])).scale s) =
      .ok ⟨rowCombine (a.elements.getD k []) (a.elements.getD i []) s⟩ := by
    unfold Vector.add
    rw [if_neg (fun hne => hne hlen_eq)]
    rfl
  have hvp : ∀ x ∈ rowCombine (a.elements.getD k []) (a.elements.getD i []) s,
      x.data.Pos := by
    intro x hx
    rcases List_mem_getD _ x MatrixElement.zero hx with ⟨c, hcl, hce⟩
    rw [rowCombine_length, hil, hkl] at hcl
    rw [← hce, rowCombine_getD _ _ _ _ (by omega) (by omega)]
    have e1 : (a.elements.getD k []).getD c MatrixElement.zero = a.ent k c := rfl
    have e2 : (a.elements.getD i []).getD c MatrixElement.zero = a.ent i c := rfl
    rw [e1, e2]
    exact MatrixElement.pos_add (hE k c) (MatrixElement.pos_mul (hE i c) hs)
  rcases set_row_spec (w := ⟨rowCombine (a.elements.getD k []) (a.elements.getD i []) s⟩)
    hS hE hk hn (by unfold Vector.len; rw [rowCombine_length, hil, hkl]; omega) hvp with
    ⟨a', hsr, hS', hE', hunch, hmid⟩
  refine ⟨a', ?_, hS', hE', hunch, ?_⟩
  · unfold add_scaled_row_from_to
    rw [get_row_ok hS hi hn, resBind_ok, get_row_ok hS hk hn, resBind_ok, hsum, resBind_ok]
    exact hsr
  · intro c hc
    rw [hmid c hc]
    show clampWrite ((rowCombine (a.elements.getD k []) (a.elements.getD i []) s).getD c
      MatrixElement.zero) = _
    rw [rowCombine_getD _ _ _ _ (by omega) (by omega)]
    rfl

end Matrix

theorem List_getD_map_lt {α β : Type} (f : α → β) (l : List α) (i : Nat)
    (d : β) (d' : α) (h : i < l.length) :
    (l.map f).getD i d = f (l.getD i d') := by
  induction l generalizing i with
  | nil => simp at h
  | cons x xs ih =>
    cases i with
    | zero => rfl
    | succ k => exact ih k (by simpa using h)

theorem List_getD_replicate {α : Type} (x d : α) (n i : Nat) (h : i < n) :
    (List.replicate n x).getD i d = x := by
  induction n generalizing i with
  | zero => omega
  | succ k ih =>
    cases i with
    | zero => rfl
    | succ j => exact ih j (by omega)

theorem List_getD_range (n i : Nat) (d : Nat) (h : i < n) :
    (List.range n).getD i d = i := by
  induction n generalizing i d with
  | zero => omega
  | succ k ih =>
    rw [List.range_succ_eq_map]
    cases i with
    | zero => rfl
    | succ j =>
      show ((List.range k).map Nat.succ).getD j d = j + 1
      rw [List_getD_map_lt Nat.succ _ j d 0 (by simpa using h), ih j 0 (by omega)]

theorem List_mapM_ok {α β : Type} (f : α → Res β) (g : α → β) :
    ∀ l : List α, (∀ x ∈ l, f x = .ok (g x)) → l.mapM f = .ok (l.map g) := by
  intro l
  induction l with
  | nil => intro _; rfl
  | cons x xs ih =>
    intro h
    rw [List.mapM_cons, h x (List.mem_cons_self ..), ih (fun y hy => h y (List.mem_cons_of_mem x hy))]
    rfl

theorem listRangeSum_eq (n : Nat) (f : Nat → ℚ) :
    ((List.range n).map f).sum = ∑ i : Fin n, f i := by
  induction n with
  | zero => simp
  | succ k ih =>
    rw [List.range_succ, List.map_append, List.sum_append, Fin.sum_univ_castSucc, ih]
    simp

namespace Matrix

theorem zero_spec (rows cols : Nat) (hr : 1 ≤ rows) :
    Matrix.zero rows cols =
      .ok ⟨cols, rows, List.replicate rows (List.replicate cols MatrixElement.zero)⟩ := by
  obtain ⟨r, rfl⟩ : ∃ r, rows = r + 1 := ⟨rows - 1, by omega⟩
  unfold zero new
  rw [if_neg (by simp [List.replicate_succ]), if_neg ?hragged]
  case hragged =>
    simp only [List.any_eq_true, not_exists, not_and]
    intro row hrow
    have heq := List.eq_of_mem_replicate hrow
    subst heq
    simp [List.replicate_succ]
  simp [List.replicate_succ]

theorem idfold_char (sz : Nat) :
    ∀ (l : List Nat) (es : List (List MatrixElement)),
    (∀ i ∈ l, i < sz) → es.length = sz → (∀ r, r < sz → (es.getD r []).length = sz) →
    (l.foldl (fun es i => es.set i ((es.getD i []).set i MatrixElement.one)) es).length = sz ∧
    (∀ r, r < sz →
      ((l.foldl (fun es i => es.set i ((es.getD i []).set i MatrixElement.one)) es).getD r []).length = sz) ∧
    (∀ r c,
      ((l.foldl (fun es i => es.set i ((es.getD i []).set i MatrixElement.one)) es).getD r []).getD c
        MatrixElement.zero =
      if r = c ∧ r ∈ l then MatrixElement.one
      else (es.getD r []).getD c MatrixElement.zero) := by
  intro l
  induction l with
  | nil =>
    intro es hmem hlen hrow
    exact ⟨hlen, hrow, fun r c => by simp⟩
  | cons i rest ih =>
    intro es hmem hlen hrow
    have hisz : i < sz := hmem i (List.mem_cons_self ..)
    have hil : i < es.length := by omega
    have hcl : i < (es.getD i []).length := by rw [hrow i hisz]; omega
    have h1len : (es.set i ((es.getD i []).set i MatrixElement.one)).length = sz := by
      rw [List_length_set]; exact hlen
    have h1row : ∀ r, r < sz →
        ((es.set i ((es.getD i []).set i MatrixElement.one)).getD r []).length = sz := by
      intro r hr
      by_cases hri : r = i
      · subst hri
        rw [List_getD_set_self _ _ _ _ hil, List_length_set]
        exact hrow r hr
      · rw [List_getD_set_ne _ _ _ _ _ (fun he => hri he.symm)]
        exact hrow r hr
    rcases ih _ (fun j hj => hmem j (List.mem_cons_of_mem i hj)) h1len h1row with
      ⟨hl, hrw, hch⟩
    refine ⟨hl, hrw, ?_⟩
    intro r c
    show ((List.foldl _ (es.set i ((es.getD i []).set i MatrixElement.one)) rest).getD r []).getD c
      MatrixElement.zero = _
    rw [hch r c]
    by_cases hrc : r = c ∧ r ∈ rest
    · rw [if_pos hrc, if_pos ⟨hrc.1, List.mem_cons_of_mem i hrc.2⟩]
    · rw [if_neg hrc]
      by_cases hri : r = i
      · subst hri
        rw [List_getD_set_self _ _ _ _ hil]
        by_cases hcc : c = r
        · subst hcc
          rw [List_getD_set_self _ _ _ _ hcl, if_pos ⟨rfl, List.mem_cons_self ..⟩]
        · rw [List_getD_set_ne _ _ _ _ _ (fun he => hcc he.symm),
            if_neg (fun hp => hcc hp.1.symm)]
      · rw [List_getD_set_ne _ _ _ _ _ (fun he => hri he.symm)]
        rw [if_neg (fun hp => by
          rcases List.mem_cons.mp hp.2 with h | h
          · exact hri h
          · exact hrc ⟨hp.1, h⟩)]

theorem identity_spec (sz : Nat) (hsz : 1 ≤ sz) :
    ∃ idm, Matrix.identity sz = .ok idm ∧ Shape idm sz sz ∧ EntPos idm ∧
      (∀ r c, idm.ent r c =
        if r = c ∧ r < sz then MatrixElement.one else MatrixElement.zero) := by
  have hz := zero_spec sz sz hsz
  have hch := idfold_char sz (List.range sz)
    (List.replicate sz (List.replicate sz MatrixElement.zero))
    (fun i hi => List.mem_range.mp hi)
    (by simp)
    (fun r hr => by rw [List_getD_replicate _ _ _ _ hr]; simp)
  rcases hch with ⟨hl, hrw, hch⟩
  have hid : Matrix.identity sz = .ok ⟨sz, sz,
      (List.range sz).foldl (fun es i => es.set i ((es.getD i []).set i MatrixElement.one))
        (List.replicate sz (List.replicate sz MatrixElement.zero))⟩ := by
    unfold identity
    rw [hz, resBind_ok]
  refine ⟨_, hid, ⟨rfl, rfl, hl, hrw⟩, ?_, ?_⟩
  · intro r c
    show ((_ : List (List MatrixElement)).getD r []).getD c MatrixElement.zero |>.data.Pos
    rw [hch r c]
    split
    · exact MatrixElement.pos_one
    · by_cases hr : r < sz
      · by_cases hc : c < sz
        · rw [List_getD_replicate (List.replicate sz MatrixElement.zero) [] sz r hr,
            List_getD_replicate MatrixElement.zero MatrixElement.zero sz c hc]
          exact MatrixElement.pos_zero
        · rw [List_getD_replicate (List.replicate sz MatrixElement.zero) [] sz r hr,
            List_getD_of_ge (List.replicate sz MatrixElement.zero) c MatrixElement.zero
              (by rw [List.length_replicate]; omega)]
          exact MatrixElement.pos_zero
      · rw [List_getD_of_ge (List.replicate sz (List.replicate sz MatrixElement.zero)) r []
          (by rw [List.length_replicate]; omega)]
        simp only [List.getD_nil]
        exact MatrixElement.pos_zero
  · intro r c
    show ((_ : List (List MatrixElement)).getD r []).getD c MatrixElement.zero = _
    rw [hch r c]
    by_cases hp : r = c ∧ r ∈ List.range sz
    · rw [if_pos hp, if_pos ⟨hp.1, List.mem_range.mp hp.2⟩]
    · rw [if_neg hp, if_neg (fun hq => hp ⟨hq.1, List.mem_range.mpr hq.2⟩)]
      by_cases hr : r < sz
      · by_cases hc : c < sz
        · rw [List_getD_replicate (List.replicate sz MatrixElement.zero) [] sz r hr,
            List_getD_replicate MatrixElement.zero MatrixElement.zero sz c hc]
        · rw [List_getD_replicate (List.replicate sz MatrixElement.zero) [] sz r hr,
            List_getD_of_ge (List.replicate sz MatrixElement.zero) c MatrixElement.zero
              (by rw [List.length_replicate]; omega)]
      · rw [List_getD_of_ge (List.replicate sz (List.replicate sz MatrixElement.zero)) r []
          (by rw [List.length_replicate]; omega)]
        simp only [List.getD_nil]

theorem zip_range_map_sum {α β : Type} (d : β) (f : α → β → ℚ) :
    ∀ (n : Nat) (G : Nat → α) (ys : List β), ys.length = n →
    ((((List.range n).map G).zip ys).map fun p => f p.1 p.2).sum =
    ((List.range n).map fun j => f (G j) (ys.getD j d)).sum := by
  intro n
  induction n with
  | zero => intro G ys h; simp
  | succ k ih =>
    intro G ys h
    rcases ys with _ | ⟨y, yt⟩
    · simp at h
    · have hyt : yt.length = k := by simpa using h
      rw [List.range_succ_eq_map]
      simp only [List.map_cons, List.map_map, List.zip_cons_cons, List.sum_cons,
        List.getD_cons_zero]
      rw [ih (G ∘ Nat.succ) yt hyt]
      congr 1

theorem foldAdd_spec (mm : Nat) :
    ∀ (zl : List (Vector × MatrixElement)) (acc : Vector),
    acc.data.length = mm → (∀ x ∈ acc.data, x.data.Pos) →
    (∀ p ∈ zl, p.1.data.length = mm ∧ (∀ x ∈ p.1.data, x.data.Pos) ∧ p.2.data.Pos) →
    ∃ w : Vector, zl.foldlM (fun acc p => acc.add (p.1.scale p.2)) acc = .ok w ∧
      w.data.length = mm ∧ (∀ x ∈ w.data, x.data.Pos) ∧
      ∀ r, r < mm → (w.data.getD r MatrixElement.zero).val =
        (acc.data.getD r MatrixElement.zero).val +
        (zl.map fun p => (p.1.data.getD r MatrixElement.zero).val * p.2.val).sum := by
  intro zl
  induction zl with
  | nil =>
    intro acc hlen hpos _
    exact ⟨acc, rfl, hlen, hpos, fun r _ => by simp⟩
  | cons p pt ih =>
    intro acc hlen hpos hzl
    obtain ⟨hp1len, hp1pos, hp2pos⟩ := hzl p (List.mem_cons_self ..)
    have hstep : acc.add (p.1.scale p.2) = .ok ⟨rowCombine acc.data p.1.data p.2⟩ := by
      unfold Vector.add
      rw [if_neg (fun hne => hne (by
        show acc.data.length = (p.1.data.map fun e => e.mul p.2).length
        rw [List.length_map, hlen, hp1len]))]
      rfl
    have hclen : (rowCombine acc.data p.1.data p.2).length = mm := by
      rw [rowCombine_length, hlen, hp1len]; omega
    have hcpos : ∀ x ∈ rowCombine acc.data p.1.data p.2, x.data.Pos := by
      intro x hx
      rcases List_mem_getD _ x MatrixElement.zero hx with ⟨r, hrl, hre⟩
      rw [hclen] at hrl
      rw [← hre, rowCombine_getD _ _ _ _ (by omega) (by omega)]
      exact MatrixElement.pos_add
        (hpos _ (List_getD_mem _ _ _ (by omega)))
        (MatrixElement.pos_mul (hp1pos _ (List_getD_mem _ _ _ (by omega))) hp2pos)
    rcases ih ⟨rowCombine acc.data p.1.data p.2⟩ hclen hcpos
      (fun q hq => hzl q (List.mem_cons_of_mem p hq)) with ⟨w, hfold, hwlen, hwpos, hwval⟩
    refine ⟨w, ?_, hwlen, hwpos, ?_⟩
    · rw [List.foldlM_cons, hstep, resBind_ok]
      exact hfold
    · intro r hr
      rw [hwval r hr]
      show ((rowCombine acc.data p.1.data p.2).getD r MatrixElement.zero).val + _ = _
      rw [rowCombine_getD _ _ _ _ (by omega) (by omega),
        MatrixElement.val_add (hpos _ (List_getD_mem _ _ _ (by omega)))
          (MatrixElement.pos_mul (hp1pos _ (List_getD_mem _ _ _ (by omega))) hp2pos),
        MatrixElement.val_mul (hp1pos _ (List_getD_mem _ _ _ (by omega))) hp2pos]
      simp only [List.map_cons, List.sum_cons]
      ring


theorem colD_getD {b : Matrix} {n nb : Nat} (hSb : Shape b n nb) (q k : Nat)
    (hk : k < n) : (b.colD q).getD k MatrixElement.zero = b.ent k q := by
  unfold colD
  rw [hSb.1, List_getD_map_lt _ _ _ _ 0 (by rw [List.length_range]; omega),
    List_getD_range _ _ _ hk]

theorem colD_length {b : Matrix} {n nb : Nat} (hSb : Shape b n nb) (q : Nat) :
    (b.colD q).length = n := by
  unfold colD
  rw [List.length_map, List.length_range, hSb.1]

theorem colD_pos {b : Matrix} (hEb : EntPos b) (q : Nat) :
    ∀ x ∈ b.colD q, x.data.Pos := by
  intro x hx
  rcases List.mem_map.mp hx with ⟨i, _, rfl⟩
  exact hEb i q

theorem multiply_vector_spec {a : Matrix} {m n : Nat} (hS : Shape a m n) (hE : EntPos a)
    (v : Vector) (hv : v.len = n) (hvP : ∀ x ∈ v.data, x.data.Pos) :
    ∃ w, a.multiply_vector v = .ok w ∧ w.data.length = m ∧
      (∀ x ∈ w.data, x.data.Pos) ∧
      ∀ r, r < m → (w.data.getD r MatrixElement.zero).val =
        ((List.range n).map fun k =>
          (a.ent r k).val * (v.data.getD k MatrixElement.zero).val).sum := by
  have hcols_len : a.as_cols.length = n := by
    unfold as_cols
    rw [List.length_map, List.length_range, hS.2.1]
  have hzl : ∀ p ∈ a.as_cols.zip v.data,
      p.1.data.length = m ∧ (∀ x ∈ p.1.data, x.data.Pos) ∧ p.2.data.Pos := by
    intro p hp
    have hmem := List.of_mem_zip hp
    rcases List.mem_map.mp hmem.1 with ⟨j, _, hj⟩
    refine ⟨?_, ?_, ?_⟩
    · rw [← hj]
      show (a.colD j).length = m
      unfold colD
      rw [List.length_map, List.length_range, hS.1]
    · rw [← hj]
      exact colD_pos hE j
    · exact hvP p.2 hmem.2
  have hzero_len : (Vector.zero a.rows_number).data.length = m := by
    show (List.replicate a.rows_number MatrixElement.zero).length = m
    rw [List.length_replicate, hS.1]
  have hzero_pos : ∀ x ∈ (Vector.zero a.rows_number).data, x.data.Pos := by
    intro x hx
    rw [List.eq_of_mem_replicate hx]
    exact MatrixElement.pos_zero
  rcases foldAdd_spec m (a.as_cols.zip v.data) (Vector.zero a.rows_number)
    hzero_len hzero_pos hzl with ⟨w, hfold, hwlen, hwpos, hwval⟩
  refine ⟨w, ?_, hwlen, hwpos, ?_⟩
  · unfold multiply_vector
    rw [if_neg (fun hne => hne (by rw [hcols_len, hv]))]
    exact hfold
  · intro r hr
    rw [hwval r hr]
    have hz : ((Vector.zero a.rows_number).data.getD r MatrixElement.zero).val = 0 := by
      show ((List.replicate a.rows_number MatrixElement.zero).getD r MatrixElement.zero).val = 0
      rw [List_getD_replicate _ _ _ _ (by rw [hS.1]; exact hr), MatrixElement.val_zero]
    rw [hz, zero_add]
    show ((((List.range a.cols_number).map fun j => (⟨a.colD j⟩ : Vector)).zip v.data).map
      fun p => (p.1.data.getD r MatrixElement.zero).val * p.2.val).sum = _
    rw [hS.2.1]
    rw [zip_range_map_sum MatrixElement.zero
      (fun (col : Vector) (y : MatrixElement) => (col.data.getD r MatrixElement.zero).val * y.val)
      n (fun j => ⟨a.colD j⟩) v.data (by unfold Vector.len at hv; omega)]
    congr 1
    apply List.map_congr_left
    intro k hk
    have hkn : k < n := List.mem_range.mp hk
    show ((a.colD k).getD r MatrixElement.zero).val * _ = _
    rw [show (a.colD k).getD r MatrixElement.zero = a.ent r k from by
      unfold colD
      rw [hS.1, List_getD_map_lt _ _ _ _ 0 (by rw [List.length_range]; omega),
        List_getD_range _ _ _ hr]]

theorem from_cols_spec (cols : List Vector) (mm : Nat) (hmm : 1 ≤ mm)
    (hne : cols ≠ []) (hl : ∀ c ∈ cols, c.data.length = mm) :
    Matrix.from_cols cols = .ok ⟨cols.length, mm,
      (List.range mm).map fun i => cols.map fun c => c.data.getD i MatrixElement.zero⟩ := by
  rcases cols with _ | ⟨c0, ct⟩
  · exact absurd rfl hne
  have hh : (Vector.len ((c0 :: ct).headD ⟨[]⟩)) = mm := by
    show c0.data.length = mm
    exact hl c0 (List.mem_cons_self ..)
  unfold from_cols
  rw [if_neg (by simp), if_neg ?hragged]
  case hragged =>
    simp only [List.any_eq_true, not_exists, not_and]
    intro c hc
    simp only [decide_eq_true_eq, ne_eq, Decidable.not_not]
    show c.len = ((c0 :: ct).headD ⟨[]⟩).len
    rw [hh]
    exact hl c hc
  rw [hh]

theorem mapM_mv_spec {a : Matrix} {m n : Nat} (hS : Shape a m n) (hE : EntPos a) :
    ∀ (cl : List Vector), (∀ c ∈ cl, c.data.length = n ∧ ∀ x ∈ c.data, x.data.Pos) →
    ∃ ws : List Vector,
      cl.mapM (fun col => unwrapR (a.multiply_vector col)) = .ok ws ∧
      ws.length = cl.length ∧
      (∀ j, j < cl.length →
        (ws.getD j ⟨[]⟩).data.length = m ∧
        (∀ x ∈ (ws.getD j ⟨[]⟩).data, x.data.Pos) ∧
        ∀ r, r < m → ((ws.getD j ⟨[]⟩).data.getD r MatrixElement.zero).val =
          ((List.range n).map fun k =>
            (a.ent r k).val * ((cl.getD j ⟨[]⟩).data.getD k MatrixElement.zero).val).sum) := by
  intro cl
  induction cl with
  | nil => exact fun _ => ⟨[], rfl, rfl, fun j hj => absurd hj (by simp)⟩
  | cons c ct ih =>
    intro hcl
    obtain ⟨hclen, hcpos⟩ := hcl c (List.mem_cons_self ..)
    rcases multiply_vector_spec hS hE c (by unfold Vector.len; omega) hcpos with
      ⟨w, hmv, hwlen, hwpos, hwval⟩
    rcases ih (fun x hx => hcl x (List.mem_cons_of_mem c hx)) with ⟨ws, hmap, hwslen, hwsp⟩
    refine ⟨w :: ws, ?_, by simpa using hwslen, ?_⟩
    · rw [List.mapM_cons, hmv]
      show (Except.ok w : Res Vector) >>= _ = _
      rw [resBind_ok, hmap]
      rfl
    · intro j hj
      cases j with
      | zero => exact ⟨hwlen, hwpos, hwval⟩
      | succ i =>
        have := hwsp i (by simpa using hj)
        simpa using this

theorem multiply_spec {a b : Matrix} {ma n nb : Nat}
    (hSa : Shape a ma n) (hEa : EntPos a) (hSb : Shape b n nb) (hEb : EntPos b)
    (hma : 1 ≤ ma) (hn : 1 ≤ n) (hnb : 1 ≤ nb) :
    ∃ c, a.multiply b = .ok c ∧ Shape c ma nb ∧ EntPos c ∧
      ∀ r q, r < ma → q < nb → (c.ent r q).val =
        ((List.range n).map fun k => (a.ent r k).val * (b.ent k q).val).sum := by
  have hbcols : ∀ col ∈ b.as_cols, col.data.length = n ∧ ∀ x ∈ col.data, x.data.Pos := by
    intro col hcol
    rcases List.mem_map.mp hcol with ⟨j, _, hj⟩
    exact ⟨by rw [← hj]; exact colD_length hSb j, by rw [← hj]; exact colD_pos hEb j⟩
  rcases mapM_mv_spec hSa hEa b.as_cols hbcols with ⟨ws, hmap, hwslen, hwsp⟩
  have hascols_len : b.as_cols.length = nb := by
    unfold as_cols
    rw [List.length_map, List.length_range, hSb.2.1]
  have hws_len : ws.length = nb := by omega
  have hws_ne : ws ≠ [] := by
    intro habs
    rw [habs] at hws_len
    simp at hws_len
    omega
  have hws_l : ∀ w ∈ ws, w.data.length = ma := by
    intro w hw
    rcases List_mem_getD ws w ⟨[]⟩ hw with ⟨j, hjl, hje⟩
    rw [← hje]
    exact (hwsp j (by omega)).1
  have hfc := from_cols_spec ws ma hma hws_ne hws_l
  have hentc : ∀ r q, r < ma → q < nb →
      ((⟨ws.length, ma, (List.range ma).map fun i =>
        ws.map fun c => c.data.getD i MatrixElement.zero⟩ : Matrix).ent r q) =
      (ws.getD q ⟨[]⟩).data.getD r MatrixElement.zero := by
    intro r q hr hq
    show (((List.range ma).map fun i => ws.map fun c =>
      c.data.getD i MatrixElement.zero).getD r []).getD q MatrixElement.zero = _
    rw [List_getD_map_lt _ _ _ _ 0 (by rw [List.length_range]; omega),
      List_getD_range _ _ _ hr,
      List_getD_map_lt _ _ _ _ ⟨[]⟩ (by omega)]
  have hcolq : ∀ q, q < nb → b.as_cols.getD q ⟨[]⟩ = ⟨b.colD q⟩ := by
    intro q hq
    unfold as_cols
    rw [List_getD_map_lt _ _ _ _ 0 (by rw [List.length_range, hSb.2.1]; omega),
      List_getD_range _ _ _ (by rw [hSb.2.1]; omega)]
  have hmul : a.multiply b = .ok ⟨ws.length, ma, (List.range ma).map fun i =>
      ws.map fun c => c.data.getD i MatrixElement.zero⟩ := by
    unfold multiply
    rw [if_neg (fun hne => hne (by rw [hSa.2.1, hSb.1])), hmap, resBind_ok, hfc]
  have hrowlen : ∀ r, r < ma → (((List.range ma).map fun i => ws.map fun c =>
      c.data.getD i MatrixElement.zero).getD r []).length = nb := by
    intro r hr
    rw [List_getD_map_lt _ _ _ _ 0 (by rw [List.length_range]; omega),
      List.length_map, hws_len]
  have hshape : Shape ⟨ws.length, ma, (List.range ma).map fun i =>
      ws.map fun c => c.data.getD i MatrixElement.zero⟩ ma nb :=
    ⟨rfl, hws_len, by rw [List.length_map, List.length_range], hrowlen⟩
  have hpos_in : ∀ r q, r < ma → q < nb →
      ((⟨ws.length, ma, (List.range ma).map fun i =>
        ws.map fun c => c.data.getD i MatrixElement.zero⟩ : Matrix).ent r q).data.Pos := by
    intro r q hr hq
    rw [hentc r q hr hq]
    by_cases hrl : r < (ws.getD q ⟨[]⟩).data.length
    · exact (hwsp q (by omega)).2.1 _ (List_getD_mem _ _ _ hrl)
    · rw [List_getD_of_ge _ _ _ (by omega)]
      exact MatrixElement.pos_zero
  refine ⟨_, hmul, hshape, entPos_of_shape hshape hpos_in, ?_⟩
  intro r q hr hq
  rw [hentc r q hr hq, (hwsp q (by omega)).2.2 r hr]
  congr 1
  apply List.map_congr_left
  intro k hk
  have hkn : k < n := List.mem_range.mp hk
  rw [hcolq q hq]
  show _ * ((b.colD q).getD k MatrixElement.zero).val = _
  rw [colD_getD hSb q k hkn]


end Matrix

end RustMatrix

/-! ### Rational matrix algebra: row operations as left multiplications -/

theorem updateRow_mul_right {m n p : Nat} (X : QMat m n) (B : QMat n p)
    (i : Fin m) (v : Fin n → ℚ) :
    (X.updateRow i v) * B = (X * B).updateRow i (Matrix.vecMul v B) := by
  ext r c
  by_cases h : r = i
  · subst h
    simp [Matrix.mul_apply, Matrix.vecMul, Matrix.dotProduct]
  · simp [Matrix.mul_apply, Matrix.updateRow_ne h]

theorem one_row_single {m : Nat} (r : Fin m) :
    (1 : QMat m m) r = Pi.single r (1 : ℚ) := by
  funext c
  rw [Matrix.one_apply, Pi.single_apply]
  exact if_congr eq_comm rfl rfl

theorem vecMul_singleQ {m n : Nat} (i : Fin m) (c : ℚ) (X : QMat m n) :
    Matrix.vecMul (Pi.single i c) X = c • X i := by
  funext j
  simp only [Matrix.vecMul, Matrix.dotProduct, Pi.single_apply, Pi.smul_apply,
    smul_eq_mul]
  rw [Finset.sum_eq_single i]
  · simp
  · intro b _ hb
    simp [hb]
  · intro habs
    exact absurd (Finset.mem_univ i) habs

theorem vecMul_addQ {m n : Nat} (v w : Fin m → ℚ) (X : QMat m n) :
    Matrix.vecMul (v + w) X = Matrix.vecMul v X + Matrix.vecMul w X := by
  funext j
  simp [Matrix.vecMul, Matrix.dotProduct, add_mul, Finset.sum_add_distrib]

theorem vecMul_smulQ {m n : Nat} (c : ℚ) (v : Fin m → ℚ) (X : QMat m n) :
    Matrix.vecMul (c • v) X = c • Matrix.vecMul v X := by
  funext j
  simp [Matrix.vecMul, Matrix.dotProduct, Finset.mul_sum, mul_assoc]

theorem swapE_mul {m : Nat} (r1 r2 : Fin m) :
    ∃ E : QMat m m, ∀ (n : Nat) (X : QMat m n),
      (X.updateRow r1 (X r2)).updateRow r2 (X r1) = E * X := by
  refine ⟨((1 : QMat m m).updateRow r1 ((1 : QMat m m) r2)).updateRow r2
    ((1 : QMat m m) r1), fun n X => ?_⟩
  rw [updateRow_mul_right, updateRow_mul_right, Matrix.one_mul,
    one_row_single, one_row_single, vecMul_singleQ, vecMul_singleQ, one_smul, one_smul]

theorem scaleE_mul {m : Nat} (i : Fin m) (s : ℚ) :
    ∃ E : QMat m m, ∀ (n : Nat) (X : QMat m n),
      X.updateRow i (s • X i) = E * X := by
  refine ⟨(1 : QMat m m).updateRow i (s • (1 : QMat m m) i), fun n X => ?_⟩
  rw [updateRow_mul_right, Matrix.one_mul, one_row_single, vecMul_smulQ,
    vecMul_singleQ, one_smul]

theorem addE_mul {m : Nat} (k i : Fin m) (f : ℚ) :
    ∃ E : QMat m m, ∀ (n : Nat) (X : QMat m n),
      X.updateRow k (X k + f • X i) = E * X := by
  refine ⟨(1 : QMat m m).updateRow k ((1 : QMat m m) k + f • (1 : QMat m m) i),
    fun n X => ?_⟩
  rw [updateRow_mul_right, Matrix.one_mul, vecMul_addQ, vecMul_smulQ,
    one_row_single, one_row_single, vecMul_singleQ, vecMul_singleQ, one_smul, one_smul]

/-- The LU elimination step preserves the product `L * U`: writing the
factor `f` at position (k, i) of `L` while subtracting `f` times row `i`
from row `k` of `U`, provided column `k` of `L` is still the `k`-th
standard basis column and `L k i = 0`. -/
theorem lu_step {m n : Nat} (L : QMat m m) (U : QMat m n) (k i : Fin m) (f : ℚ)
    (hki : k ≠ i)
    (hLcol : ∀ r : Fin m, L r k = if r = k then 1 else 0)
    (hLki : L k i = 0) :
    (L.updateRow k (Function.update (L k) i f)) *
      (U.updateRow k (U k + (-f) • U i)) = L * U := by
  ext r c
  rw [Matrix.mul_apply, Matrix.mul_apply]
  by_cases hr : r = k
  · subst hr
    rw [← sub_eq_zero, ← Finset.sum_sub_distrib]
    have hterm : ∀ j : Fin m,
        (L.updateRow r (Function.update (L r) i f)) r j *
          (U.updateRow r (U r + (-f) • U i)) j c - L r j * U j c =
        (if j = i then f * U i c else 0) + (if j = r then -(f * U i c) else 0) := by
      intro j
      by_cases hji : j = i
      · subst hji
        rw [Matrix.updateRow_self, Function.update_same,
          Matrix.updateRow_ne (Ne.symm hki), hLki, if_pos rfl,
          if_neg (Ne.symm hki)]
        ring
      · by_cases hjk : j = r
        · subst hjk
          rw [Matrix.updateRow_self, Function.update_noteq hki,
            Matrix.updateRow_self, hLcol j, if_pos rfl, if_neg hki, if_pos rfl]
          simp only [Pi.add_apply, Pi.smul_apply, smul_eq_mul]
          ring
        · rw [Matrix.updateRow_self, Function.update_noteq hji,
            Matrix.updateRow_ne hjk, if_neg hji, if_neg hjk]
          ring
    rw [Finset.sum_congr rfl (fun j _ => hterm j), Finset.sum_add_distrib]
    simp
  · have hLrk : L r k = 0 := by rw [hLcol r, if_neg hr]
    rw [← sub_eq_zero, ← Finset.sum_sub_distrib]
    apply Finset.sum_eq_zero
    intro j _
    rw [Matrix.updateRow_ne hr]
    by_cases hjk : j = k
    · subst hjk
      rw [Matrix.updateRow_self, hLrk]
      ring
    · rw [Matrix.updateRow_ne hjk]
      ring

/-! ### Value-level bridges between the list matrices and rational matrices -/

namespace RustMatrix

theorem ent_oob {a : Matrix} {m n : Nat} (hS : Matrix.Shape a m n) (r c : Nat)
    (h : m ≤ r ∨ n ≤ c) : a.ent r c = MatrixElement.zero := by
  rcases h with h | h
  · show (a.elements.getD r []).getD c MatrixElement.zero = _
    rw [List_getD_of_ge a.elements r [] (by rw [hS.2.2.1]; omega)]
    rfl
  · by_cases hr : r < m
    · show (a.elements.getD r []).getD c MatrixElement.zero = _
      rw [List_getD_of_ge _ c MatrixElement.zero (by rw [hS.2.2.2 r hr]; omega)]
    · show (a.elements.getD r []).getD c MatrixElement.zero = _
      rw [List_getD_of_ge a.elements r [] (by rw [hS.2.2.1]; omega)]
      rfl

theorem valEq_of_inrange {a b : Matrix} {m n : Nat}
    (hSa : Matrix.Shape a m n) (hSb : Matrix.Shape b m n)
    (h : ∀ r c, r < m → c < n → (a.ent r c).val = (b.ent r c).val) :
    ∀ r c, (a.ent r c).val = (b.ent r c).val := by
  intro r c
  by_cases hr : r < m
  · by_cases hc : c < n
    · exact h r c hr hc
    · rw [ent_oob hSa r c (Or.inr (by omega)), ent_oob hSb r c (Or.inr (by omega))]
  · rw [ent_oob hSa r c (Or.inl (by omega)), ent_oob hSb r c (Or.inl (by omega))]

theorem List_all_zip_getD {α β : Type} (da : α) (db : β) (p : α × β → Bool) :
    ∀ (as_ : List α) (bs : List β),
    (∀ i, i < as_.length → i < bs.length → p (as_.getD i da, bs.getD i db) = true) →
    (as_.zip bs).all p = true := by
  intro as_
  induction as_ with
  | nil => intro bs _; simp
  | cons x xs ih =>
    intro bs h
    cases bs with
    | nil => simp
    | cons y ys =>
      simp only [List.zip_cons_cons, List.all_cons, Bool.and_eq_true]
      constructor
      · exact h 0 (by simp) (by simp)
      · exact ih ys (fun i hi1 hi2 => h (i + 1) (by simpa using hi1) (by simpa using hi2))

theorem epsilon_equals_of_val_eq_mat {a b : Matrix} {m n : Nat}
    (hSa : Matrix.Shape a m n) (hSb : Matrix.Shape b m n)
    (hEa : Matrix.EntPos a) (hEb : Matrix.EntPos b)
    (h : ∀ r c, r < m → c < n → (a.ent r c).val = (b.ent r c).val) :
    a.epsilon_equals b = true := by
  unfold Matrix.epsilon_equals
  apply List_all_zip_getD (Vector.mk []) (Vector.mk [])
  intro i hi1 hi2
  have hlen_a : a.as_rows.length = m := by
    unfold Matrix.as_rows
    rw [List.length_map, List.length_range, hSa.1]
  rw [hlen_a] at hi1
  have hrowa : a.as_rows.getD i (Vector.mk []) = ⟨a.elements.getD i []⟩ := by
    unfold Matrix.as_rows
    rw [List_getD_map_lt _ _ _ _ 0 (by rw [List.length_range, hSa.1]; omega),
      List_getD_range _ _ _ (by rw [hSa.1]; omega)]
  have hrowb : b.as_rows.getD i (Vector.mk []) = ⟨b.elements.getD i []⟩ := by
    unfold Matrix.as_rows
    rw [List_getD_map_lt _ _ _ _ 0 (by rw [List.length_range, hSb.1]; omega),
      List_getD_range _ _ _ (by rw [hSb.1]; omega)]
  rw [hrowa, hrowb]
  show Vector.epsilon_equals _ _ = true
  unfold Vector.epsilon_equals
  apply List_all_zip_getD MatrixElement.zero MatrixElement.zero
  intro j hj1 _
  show (a.ent i j).epsilon_equals (b.ent i j) = true
  have hj : j < n := by
    have h4 := hSa.2.2.2 i hi1
    have hj1' : j < (a.elements.getD i []).length := hj1
    omega
  exact MatrixElement.epsilon_equals_of_val_eq (hEa i j) (hEb i j) (h i j hi1 hj)

theorem toQM_eq_one_of_identityExact {a : Matrix} {m : Nat}
    (hS : Matrix.Shape a m m) (hE : Matrix.EntPos a)
    (h : a.isIdentityExact = true) : toQM m m a = 1 := by
  funext i j
  unfold Matrix.isIdentityExact at h
  rw [List.all_eq_true] at h
  have h1 := h (i : Nat) (List.mem_range.mpr (by rw [hS.1]; exact i.isLt))
  rw [List.all_eq_true] at h1
  have h2 := h1 (j : Nat) (List.mem_range.mpr (by rw [hS.2.1]; exact j.isLt))
  show (a.ent i j).val = (1 : QMat m m) i j
  rw [Matrix.one_apply]
  by_cases hij : i = j
  · subst hij
    rw [if_pos rfl]
    rw [if_pos rfl] at h2
    have hnd : (a.ent i i).data.num = (a.ent i i).data.den := of_decide_eq_true h2
    show (a.ent (i : Nat) (i : Nat)).data.toQ = 1
    unfold Fr.toQ
    rw [hnd, div_self (Fr.den_ne (hE i i))]
  · rw [if_neg hij]
    rw [if_neg (fun he => hij (Fin.ext he))] at h2
    have hn0 : (a.ent i j).data.num = 0 := of_decide_eq_true h2
    exact (Fr.num_zero_iff (hE i j)).mp hn0

theorem toQM_identity {idm : Matrix} {z : Nat}
    (hch : ∀ r c, idm.ent r c =
      if r = c ∧ r < z then MatrixElement.one else MatrixElement.zero) :
    toQM z z idm = 1 := by
  funext i j
  show (idm.ent i j).val = (1 : QMat z z) i j
  rw [hch, Matrix.one_apply]
  by_cases hij : (i : Nat) = (j : Nat)
  · rw [if_pos ⟨hij, i.isLt⟩, if_pos (Fin.ext hij)]
    exact MatrixElement.val_one
  · rw [if_neg (fun hp => hij hp.1), if_neg (fun hp => hij (congrArg Fin.val hp))]
    exact MatrixElement.val_zero

theorem multiply_toQM {a b c : Matrix} {ma n nb : Nat}
    (hch : ∀ r q, r < ma → q < nb → (c.ent r q).val =
      ((List.range n).map fun k => (a.ent r k).val * (b.ent k q).val).sum) :
    toQM ma nb c = toQM ma n a * toQM n nb b := by
  funext i j
  show (c.ent i j).val = _
  rw [Matrix.mul_apply, hch i j i.isLt j.isLt,
    listRangeSum_eq n (fun k => (a.ent i k).val * (b.ent k j).val)]
  rfl

/-! ### Row operations on the rational mirror -/

theorem toQM_swap_char {a a' : Matrix} {m n : Nat} (r1 r2 : Fin m)
    (hch : ∀ r' c', a'.ent r' c' =
      a.ent (if r' = (r2 : Nat) then (r1 : Nat)
             else if r' = (r1 : Nat) then (r2 : Nat) else r') c') :
    toQM m n a' =
      ((toQM m n a).updateRow r1 (toQM m n a r2)).updateRow r2 (toQM m n a r1) := by
  funext i j
  show (a'.ent i j).val = _
  rw [hch]
  by_cases hi2 : (i : Nat) = (r2 : Nat)
  · rw [if_pos hi2]
    have : i = r2 := Fin.ext hi2
    rw [this, Matrix.updateRow_self]
    rfl
  · rw [if_neg hi2, Matrix.updateRow_ne (fun he => hi2 (congrArg Fin.val he))]
    by_cases hi1 : (i : Nat) = (r1 : Nat)
    · rw [if_pos hi1]
      have : i = r1 := Fin.ext hi1
      rw [this, Matrix.updateRow_self]
      rfl
    · rw [if_neg hi1, Matrix.updateRow_ne (fun he => hi1 (congrArg Fin.val he))]
      rfl

theorem toQM_scale_char {a a' : Matrix} {m n : Nat} (row : Fin m) {s : MatrixElement}
    (hS : Matrix.Shape a m n) (hE : Matrix.EntPos a) (hs : s.data.Pos)
    (hunch : ∀ r' c', r' ≠ (row : Nat) → a'.ent r' c' = a.ent r' c')
    (hmid : ∀ c, c < n →
      a'.ent (row : Nat) c = Matrix.clampWrite ((a.ent (row : Nat) c).mul s))
    (hclean : cleanVals ((a.elements.getD (row : Nat) []).map fun x => x.mul s) = true) :
    toQM m n a' = (toQM m n a).updateRow row (s.val • toQM m n a row) := by
  funext i j
  show (a'.ent i j).val = _
  by_cases hi : (i : Nat) = (row : Nat)
  · have hieq : i = row := Fin.ext hi
    subst hieq
    rw [Matrix.updateRow_self]
    rw [hmid j j.isLt]
    have hrl : (a.elements.getD (i : Nat) []).length = n := hS.2.2.2 _ i.isLt
    have hcl := cleanVals_getD hclean j (by rw [List.length_map, hrl]; exact j.isLt)
    rw [List_getD_map_me _ _ _ (by rw [hrl]; exact j.isLt)] at hcl
    have hcl' : ((a.ent (i : Nat) (j : Nat)).mul s).data.num = 0 ∨
        ((a.ent (i : Nat) (j : Nat)).mul s).is_zero = false := hcl
    rw [clampWrite_val_of_clean (MatrixElement.pos_mul (hE i j) hs) hcl',
      MatrixElement.val_mul (hE i j) hs]
    show _ = s.val * (a.ent (i : Nat) (j : Nat)).val
    ring
  · rw [Matrix.updateRow_ne (fun he => hi (congrArg Fin.val he)), hunch i j hi]
    rfl

theorem toQM_add_char {a a' : Matrix} {m n : Nat} (k i : Fin m) {s : MatrixElement}
    (hS : Matrix.Shape a m n) (hE : Matrix.EntPos a) (hs : s.data.Pos)
    (hunch : ∀ r' c', r' ≠ (k : Nat) → a'.ent r' c' = a.ent r' c')
    (hmid : ∀ c, c < n → a'.ent (k : Nat) c =
      Matrix.clampWrite ((a.ent (k : Nat) c).add ((a.ent (i : Nat) c).mul s)))
    (hclean : cleanVals
      (rowCombine (a.elements.getD (k : Nat) []) (a.elements.getD (i : Nat) []) s) = true) :
    toQM m n a' = (toQM m n a).updateRow k (toQM m n a k + s.val • toQM m n a i) := by
  funext r c
  show (a'.ent r c).val = _
  by_cases hr : (r : Nat) = (k : Nat)
  · have hreq : r = k := Fin.ext hr
    subst hreq
    rw [Matrix.updateRow_self]
    rw [hmid c c.isLt]
    have hkl : (a.elements.getD (r : Nat) []).length = n := hS.2.2.2 _ r.isLt
    have hil : (a.elements.getD (i : Nat) []).length = n := hS.2.2.2 _ i.isLt
    have hcl := cleanVals_getD hclean c
      (by rw [rowCombine_length, hkl, hil]; simpa using c.isLt)
    rw [rowCombine_getD _ _ _ _ (by rw [hkl]; exact c.isLt) (by rw [hil]; exact c.isLt)] at hcl
    have hcl' : ((a.ent (r : Nat) (c : Nat)).add ((a.ent (i : Nat) (c : Nat)).mul s)).data.num = 0 ∨
        ((a.ent (r : Nat) (c : Nat)).add ((a.ent (i : Nat) (c : Nat)).mul s)).is_zero = false := hcl
    rw [clampWrite_val_of_clean
      (MatrixElement.pos_add (hE r c) (MatrixElement.pos_mul (hE i c) hs)) hcl',
      MatrixElement.val_add (hE r c) (MatrixElement.pos_mul (hE i c) hs),
      MatrixElement.val_mul (hE i c) hs]
    show _ = (a.ent (r : Nat) (c : Nat)).val + s.val * (a.ent (i : Nat) (c : Nat)).val
    ring
  · rw [Matrix.updateRow_ne (fun he => hr (congrArg Fin.val he)), hunch r c hr]
    rfl

theorem toQM_set_char {a a' : Matrix} {m n : Nat} (k : Fin m) (i : Fin n)
    {v : MatrixElement} (hv : v.data.Pos)
    (hcl : v.data.num = 0 ∨ v.is_zero = false)
    (hch : ∀ r' c', a'.ent r' c' =
      if r' = (k : Nat) ∧ c' = (i : Nat) then Matrix.clampWrite v else a.ent r' c') :
    toQM m n a' = (toQM m n a).updateRow k (Function.update (toQM m n a k) i v.val) := by
  funext r c
  show (a'.ent r c).val = _
  rw [hch]
  by_cases hr : (r : Nat) = (k : Nat)
  · have hreq : r = k := Fin.ext hr
    subst hreq
    rw [Matrix.updateRow_self]
    by_cases hc : (c : Nat) = (i : Nat)
    · have hceq : c = i := Fin.ext hc
      subst hceq
      rw [if_pos ⟨rfl, rfl⟩, Function.update_same]
      exact clampWrite_val_of_clean hv hcl
    · rw [if_neg (fun hp => hc hp.2),
        Function.update_noteq (fun he => hc (congrArg Fin.val he))]
      rfl
  · rw [if_neg (fun hp => hr hp.1),
      Matrix.updateRow_ne (fun he => hr (congrArg Fin.val he))]
    rfl

/-! ### Elementary-matrix forms of the simultaneous row operations -/

theorem swap_stepE {m : Nat} (r1 r2 : Fin m) :
    ∃ E : QMat m m, ∀ (n : Nat) (a a' : Matrix),
      (∀ r' c', a'.ent r' c' =
        a.ent (if r' = (r2 : Nat) then (r1 : Nat)
               else if r' = (r1 : Nat) then (r2 : Nat) else r') c') →
      toQM m n a' = E * toQM m n a := by
  rcases swapE_mul r1 r2 with ⟨E, hE⟩
  exact ⟨E, fun n a a' hch => by rw [toQM_swap_char r1 r2 hch, hE]⟩

theorem scale_stepE {m : Nat} (row : Fin m) (sv : ℚ) :
    ∃ E : QMat m m, ∀ (n : Nat) (a a' : Matrix) (s : MatrixElement),
      s.val = sv →
      Matrix.Shape a m n → Matrix.EntPos a → s.data.Pos →
      (∀ r' c', r' ≠ (row : Nat) → a'.ent r' c' = a.ent r' c') →
      (∀ c, c < n →
        a'.ent (row : Nat) c = Matrix.clampWrite ((a.ent (row : Nat) c).mul s)) →
      cleanVals ((a.elements.getD (row : Nat) []).map fun x => x.mul s) = true →
      toQM m n a' = E * toQM m n a := by
  rcases scaleE_mul row sv with ⟨E, hE⟩
  refine ⟨E, fun n a a' s hsv hS hEp hs hunch hmid hclean => ?_⟩
  rw [toQM_scale_char row hS hEp hs hunch hmid hclean, hsv, hE]

theorem add_stepE {m : Nat} (k i : Fin m) (fv : ℚ) :
    ∃ E : QMat m m, ∀ (n : Nat) (a a' : Matrix) (s : MatrixElement),
      s.val = fv →
      Matrix.Shape a m n → Matrix.EntPos a → s.data.Pos →
      (∀ r' c', r' ≠ (k : Nat) → a'.ent r' c' = a.ent r' c') →
      (∀ c, c < n → a'.ent (k : Nat) c =
        Matrix.clampWrite ((a.ent (k : Nat) c).add ((a.ent (i : Nat) c).mul s))) →
      cleanVals
        (rowCombine (a.elements.getD (k : Nat) []) (a.elements.getD (i : Nat) []) s) = true →
      toQM m n a' = E * toQM m n a := by
  rcases addE_mul k i fv with ⟨E, hE⟩
  refine ⟨E, fun n a a' s hsv hS hEp hs hunch hmid hclean => ?_⟩
  rw [toQM_add_char k i hS hEp hs hunch hmid hclean, hsv, hE]

end RustMatrix

/-! ### Success and invariants of the forward elimination loop -/

namespace RustMatrix

theorem List_mem_range' {s n k : Nat} (h : k ∈ List.range' s n) :
    s ≤ k ∧ k < s + n := by
  induction n generalizing s with
  | zero => simp [List.range'] at h
  | succ t ih =>
    rw [List.range'] at h
    rcases List.mem_cons.mp h with h | h
    · omega
    · have := ih h
      omega

theorem pivotScanFold_spec {origin : Matrix} {m n : Nat}
    (hS : Matrix.Shape origin m n) {j : Nat} (hj : j < n) :
    ∀ (ks : List Nat) (acc : Nat), (∀ k ∈ ks, k < m) → acc < m →
    ∃ mx, ks.foldlM
        (fun mx k => do
          let a ← origin.get k j
          let b ← origin.get mx j
          (.ok (if a.abs.epsilon_gt b.abs then k else mx) : Res Nat)) acc = .ok mx ∧
      mx < m := by
  intro ks
  induction ks with
  | nil => intro acc _ hacc; exact ⟨acc, rfl, hacc⟩
  | cons k rest ih =>
    intro acc hks hacc
    have hk : k < m := hks k (List.mem_cons_self ..)
    have hstep : (do
        let a ← origin.get k j
        let b ← origin.get acc j
        (.ok (if a.abs.epsilon_gt b.abs then k else acc) : Res Nat)) =
        .ok (if (origin.ent k j).abs.epsilon_gt (origin.ent acc j).abs then k else acc) := by
      rw [Matrix.get_ok hS hk hj, resBind_ok, Matrix.get_ok hS hacc hj, resBind_ok]
    rw [List.foldlM_cons, hstep, resBind_ok]
    exact ih _ (fun x hx => hks x (List.mem_cons_of_mem k hx))
      (by split <;> [exact hk; exact hacc])

theorem pivotScan_ok {origin : Matrix} {m n i j : Nat}
    (hS : Matrix.Shape origin m n) (hi : i < m) (hj : j < n) :
    ∃ mx, origin.pivotScan i m j = .ok mx ∧ mx < m := by
  unfold Matrix.pivotScan
  exact pivotScanFold_spec hS hj (List.range' i (m - i)) i
    (fun k hk => by have := List_mem_range' hk; omega) hi

theorem elimLoop_spec {m n p i j : Nat} (hi : i < m) (hj : j < n) (hp : 0 < p) :
    ∀ (ks : List Nat) (origin output : Matrix) (clean : Bool),
    (∀ k ∈ ks, i < k ∧ k < m) →
    Matrix.Shape origin m n → Matrix.EntPos origin →
    Matrix.Shape output m p → Matrix.EntPos output →
    (origin.ent i j).is_zero = false →
    ∃ o q cl, Matrix.elimLoop i j ks (origin, output, clean) = .ok (o, q, cl) ∧
      Matrix.Shape o m n ∧ Matrix.EntPos o ∧ Matrix.Shape q m p ∧ Matrix.EntPos q ∧
      (cl = true → clean = true) ∧
      (cl = true → ∃ E : QMat m m,
        toQM m n o = E * toQM m n origin ∧ toQM m p q = E * toQM m p output) := by
  intro ks
  induction ks with
  | nil =>
    intro origin output clean _ hSo hEo hSq hEq _
    exact ⟨origin, output, clean, rfl, hSo, hEo, hSq, hEq, fun h => h,
      fun _ => ⟨1, by rw [Matrix.one_mul], by rw [Matrix.one_mul]⟩⟩
  | cons k rest ih =>
    intro origin output clean hks hSo hEo hSq hEq hpiv
    have hn : 0 < n := by omega
    obtain ⟨hik, hkm⟩ := hks k (List.mem_cons_self ..)
    have hbP : (origin.ent i j).data.Pos := hEo i j
    have haP : (origin.ent k j).data.Pos := hEo k j
    obtain ⟨hqval, hqP⟩ := MatrixElement.div_val haP hbP hpiv
    have hfP : ((⟨(origin.ent k j).data.divFr (origin.ent i j).data⟩ :
        MatrixElement).negate).data.Pos := MatrixElement.pos_negate hqP
    rcases Matrix.add_scaled_spec (s :=
        (⟨(origin.ent k j).data.divFr (origin.ent i j).data⟩ : MatrixElement).negate)
        hSo hEo hi hkm hn hfP with ⟨o1, hok1, hS1, hE1, hunch1, hmid1⟩
    rcases Matrix.add_scaled_spec (s :=
        (⟨(origin.ent k j).data.divFr (origin.ent i j).data⟩ : MatrixElement).negate)
        hSq hEq hi hkm hp hfP with ⟨q1, hok2, hS2, hE2, hunch2, hmid2⟩
    have hpiv1 : (o1.ent i j).is_zero = false := by
      rw [hunch1 i j (by omega)]; exact hpiv
    rcases ih o1 q1
        (clean &&
          cleanVals (rowCombine (origin.elements.getD k []) (origin.elements.getD i [])
            ((⟨(origin.ent k j).data.divFr (origin.ent i j).data⟩ : MatrixElement).negate)) &&
          cleanVals (rowCombine (output.elements.getD k []) (output.elements.getD i [])
            ((⟨(origin.ent k j).data.divFr (origin.ent i j).data⟩ : MatrixElement).negate)))
        (fun x hx => hks x (List.mem_cons_of_mem k hx)) hS1 hE1 hS2 hE2 hpiv1 with
      ⟨o, q, cl, hfold, hSo', hEo', hSq', hEq', hmono, hEex⟩
    refine ⟨o, q, cl, ?_, hSo', hEo', hSq', hEq', ?_, ?_⟩
    · show List.foldlM _ _ (k :: rest) = _
      rw [List.foldlM_cons]
      simp only [Matrix.get_ok hSo hkm hj, Matrix.get_ok hSo hi hj,
        MatrixElement.div_ok hpiv, resBind_ok, hok1, hok2]
      exact hfold
    · intro hcl
      have := hmono hcl
      rcases Bool.and_eq_true_iff.mp this with ⟨h1, _⟩
      rcases Bool.and_eq_true_iff.mp h1 with ⟨h2, _⟩
      exact h2
    · intro hcl
      have hcleans := hmono hcl
      rcases Bool.and_eq_true_iff.mp hcleans with ⟨h1, hc2⟩
      rcases Bool.and_eq_true_iff.mp h1 with ⟨_, hc1⟩
      rcases hEex hcl with ⟨E2, hE2o, hE2q⟩
      rcases add_stepE (⟨k, hkm⟩ : Fin m) (⟨i, hi⟩ : Fin m)
        ((⟨(origin.ent k j).data.divFr (origin.ent i j).data⟩ : MatrixElement).negate).val with
        ⟨E1, hE1s⟩
      refine ⟨E2 * E1, ?_, ?_⟩
      · rw [hE2o, hE1s n origin o1 _ rfl hSo hEo hfP hunch1 hmid1 hc1, Matrix.mul_assoc]
      · rw [hE2q, hE1s p output q1 _ rfl hSq hEq hfP hunch2 hmid2 hc2, Matrix.mul_assoc]

theorem echelonLoop_spec {m n p : Nat} (hp : 0 < p) :
    ∀ (fuel i j : Nat) (origin output : Matrix) (swaps : Nat) (clean : Bool),
    Matrix.Shape origin m n → Matrix.EntPos origin →
    Matrix.Shape output m p → Matrix.EntPos output →
    ∃ o q s cl, Matrix.echelonLoop m n fuel i j origin output swaps clean = .ok (o, q, s, cl) ∧
      Matrix.Shape o m n ∧ Matrix.EntPos o ∧ Matrix.Shape q m p ∧ Matrix.EntPos q ∧
      (cl = true → clean = true) ∧
      (cl = true → ∃ E : QMat m m,
        toQM m n o = E * toQM m n origin ∧ toQM m p q = E * toQM m p output) := by
  intro fuel
  induction fuel with
  | zero =>
    intro i j origin output swaps clean hSo hEo hSq hEq
    exact ⟨origin, output, swaps, clean, rfl, hSo, hEo, hSq, hEq, fun h => h,
      fun _ => ⟨1, by rw [Matrix.one_mul], by rw [Matrix.one_mul]⟩⟩
  | succ fuel ih =>
    intro i j origin output swaps clean hSo hEo hSq hEq
    by_cases hguard : i < m ∧ j < n
    · obtain ⟨him, hjn⟩ := hguard
      rcases pivotScan_ok hSo him hjn with ⟨mx, hscan, hmx⟩
      by_cases hz : (origin.ent mx j).is_zero = true
      · rcases ih i (j + 1) origin output swaps clean hSo hEo hSq hEq with
          ⟨o, q, s, cl, hrec, hSo2, hEo2, hSq2, hEq2, hmono, hEex⟩
        refine ⟨o, q, s, cl, ?_, hSo2, hEo2, hSq2, hEq2, hmono, hEex⟩
        show Matrix.echelonLoop m n (fuel + 1) i j origin output swaps clean = _
        rw [Matrix.echelonLoop, if_pos ⟨him, hjn⟩]
        simp only [hscan, resBind_ok, Matrix.get_ok hSo hmx hjn, hz, if_true]
        exact hrec
      · replace hz : (origin.ent mx j).is_zero = false := by
          cases h : (origin.ent mx j).is_zero
          · rfl
          · exact absurd h hz
        by_cases hmxi : mx ≠ i
        · rcases Matrix.swap_rows_spec hSo hEo him hmx (by omega) with
            ⟨o2, hsw1, hSsw1, hEsw1, hch1⟩
          rcases Matrix.swap_rows_spec hSq hEq him hmx (by omega) with
            ⟨q2, hsw2, hSsw2, hEsw2, hch2⟩
          have hpiv2 : (o2.ent i j).is_zero = false := by
            rw [hch1 i j]
            by_cases hieq : i = mx
            · rw [if_pos hieq, hieq]
              exact hz
            · rw [if_neg hieq, if_pos rfl]
              exact hz
          rcases elimLoop_spec him hjn hp (List.range' (i + 1) (m - (i + 1))) o2 q2 clean
              (fun x hx => by have := List_mem_range' hx; omega)
              hSsw1 hEsw1 hSsw2 hEsw2 hpiv2 with
            ⟨o3, q3, cl3, helim, hSo3, hEo3, hSq3, hEq3, hmono3, hEex3⟩
          rcases ih (i + 1) (j + 1) o3 q3 (swaps + 1) cl3 hSo3 hEo3 hSq3 hEq3 with
            ⟨o, q, s, cl, hrec, hSo4, hEo4, hSq4, hEq4, hmono4, hEex4⟩
          refine ⟨o, q, s, cl, ?_, hSo4, hEo4, hSq4, hEq4,
            fun hcl => hmono3 (hmono4 hcl), ?_⟩
          · show Matrix.echelonLoop m n (fuel + 1) i j origin output swaps clean = _
            rw [Matrix.echelonLoop, if_pos ⟨him, hjn⟩]
            simp only [hscan, resBind_ok, Matrix.get_ok hSo hmx hjn, hz,
              Bool.false_eq_true, if_false, if_pos hmxi, hsw1, hsw2, helim]
            exact hrec
          · intro hcl
            rcases hEex4 hcl with ⟨E3, hE3o, hE3q⟩
            rcases hEex3 (hmono4 hcl) with ⟨E2, hE2o, hE2q⟩
            rcases swap_stepE (⟨i, him⟩ : Fin m) (⟨mx, hmx⟩ : Fin m) with ⟨E1, hE1s⟩
            refine ⟨E3 * (E2 * E1), ?_, ?_⟩
            · rw [hE3o, hE2o, hE1s n origin o2 hch1, ← Matrix.mul_assoc, ← Matrix.mul_assoc,
                Matrix.mul_assoc E3 E2 E1]
            · rw [hE3q, hE2q, hE1s p output q2 hch2, ← Matrix.mul_assoc, ← Matrix.mul_assoc,
                Matrix.mul_assoc E3 E2 E1]
        · have hmxeq : mx = i := by
            by_cases h : mx = i
            · exact h
            · exact absurd h hmxi
          subst hmxeq
          rcases elimLoop_spec him hjn hp (List.range' (mx + 1) (m - (mx + 1))) origin output
              clean (fun x hx => by have := List_mem_range' hx; omega)
              hSo hEo hSq hEq hz with
            ⟨o3, q3, cl3, helim, hSo3, hEo3, hSq3, hEq3, hmono3, hEex3⟩
          rcases ih (mx + 1) (j + 1) o3 q3 swaps cl3 hSo3 hEo3 hSq3 hEq3 with
            ⟨o, q, s, cl, hrec, hSo4, hEo4, hSq4, hEq4, hmono4, hEex4⟩
          refine ⟨o, q, s, cl, ?_, hSo4, hEo4, hSq4, hEq4,
            fun hcl => hmono3 (hmono4 hcl), ?_⟩
          · show Matrix.echelonLoop m n (fuel + 1) mx j origin output swaps clean = _
            rw [Matrix.echelonLoop, if_pos ⟨him, hjn⟩]
            simp only [hscan, resBind_ok, Matrix.get_ok hSo hmx hjn, hz,
              Bool.false_eq_true, if_false, hmxi, helim]
            exact hrec
          · intro hcl
            rcases hEex4 hcl with ⟨E3, hE3o, hE3q⟩
            rcases hEex3 (hmono4 hcl) with ⟨E2, hE2o, hE2q⟩
            refine ⟨E3 * E2, ?_, ?_⟩
            · rw [hE3o, hE2o, Matrix.mul_assoc]
            · rw [hE3q, hE2q, Matrix.mul_assoc]
    · refine ⟨origin, output, swaps, clean, ?_, hSo, hEo, hSq, hEq, fun h => h,
        fun _ => ⟨1, by rw [Matrix.one_mul], by rw [Matrix.one_mul]⟩⟩
      show Matrix.echelonLoop m n (fuel + 1) i j origin output swaps clean = _
      rw [Matrix.echelonLoop, if_neg hguard]

end RustMatrix

/-! ### Success and invariants of the backward pass -/

namespace RustMatrix

theorem rowEchelonG_mismatch {A B : Matrix} (h : B.rows_number ≠ A.rows_number) :
    A.rowEchelonG (some B) = .error (.err (.invalidOperation
      ("Matrix to apply steps to must have the same number of rows as the original matrix"))) := by
  unfold Matrix.rowEchelonG
  dsimp only
  rw [if_pos h]
  rfl

theorem rowEchelonG_some_spec {A B : Matrix} (hA : A.WF) (hB : B.WF)
    (hrows : B.rows_number = A.rows_number) :
    ∃ o q s cl, A.rowEchelonG (some B) = .ok (o, q, s, cl) ∧
      Matrix.Shape o A.rows_number A.cols_number ∧ Matrix.EntPos o ∧
      Matrix.Shape q A.rows_number B.cols_number ∧ Matrix.EntPos q ∧
      (cl = true → ∃ E : QMat A.rows_number A.rows_number,
        toQM A.rows_number A.cols_number o = E * toQM A.rows_number A.cols_number A ∧
        toQM A.rows_number B.cols_number q = E * toQM A.rows_number B.cols_number B) := by
  have hSA := Matrix.wf_shape hA
  have hEA := Matrix.wf_entPos hA
  have hSB : Matrix.Shape B A.rows_number B.cols_number := by
    rw [← hrows]; exact Matrix.wf_shape hB
  have hEB := Matrix.wf_entPos hB
  rcases echelonLoop_spec (p := B.cols_number) hB.2.2.1 A.cols_number 0 0 A B 0 true
      hSA hEA hSB hEB with ⟨o, q, s, cl, hloop, hSo, hEo, hSq, hEq, _, hEex⟩
  refine ⟨o, q, s, cl, ?_, hSo, hEo, hSq, hEq, hEex⟩
  unfold Matrix.rowEchelonG
  dsimp only
  rw [if_neg (fun hc => hc hrows)]
  exact hloop

theorem rowEchelonG_none_spec {A : Matrix} (hA : A.WF) :
    ∃ o q s cl, A.rowEchelonG none = .ok (o, q, s, cl) ∧
      Matrix.Shape o A.rows_number A.cols_number ∧ Matrix.EntPos o ∧
      Matrix.Shape q A.rows_number A.cols_number ∧ Matrix.EntPos q ∧
      (cl = true → ∃ E : QMat A.rows_number A.rows_number,
        toQM A.rows_number A.cols_number o = E * toQM A.rows_number A.cols_number A ∧
        toQM A.rows_number A.cols_number q = E * toQM A.rows_number A.cols_number A) := by
  have hSA := Matrix.wf_shape hA
  have hEA := Matrix.wf_entPos hA
  rcases echelonLoop_spec (p := A.cols_number) hA.2.2.1 A.cols_number 0 0 A A 0 true
      hSA hEA hSA hEA with ⟨o, q, s, cl, hloop, hSo, hEo, hSq, hEq, _, hEex⟩
  exact ⟨o, q, s, cl, hloop, hSo, hEo, hSq, hEq, hEex⟩

theorem findLeading_spec {origin : Matrix} {m n : Nat} (hS : Matrix.Shape origin m n)
    {i : Nat} (hi : i < m) :
    ∀ (fuel j : Nat),
    ∃ res, Matrix.findLeading origin i j fuel = .ok res ∧
      ∀ pv, res = some pv → pv < n ∧ (origin.ent i pv).is_zero = false := by
  intro fuel
  induction fuel with
  | zero => intro j; exact ⟨none, rfl, by simp⟩
  | succ f ih =>
    intro j
    by_cases hj : j < origin.cols_number
    · have hjn : j < n := by rw [hS.2.1] at hj; exact hj
      by_cases hz : (origin.ent i j).is_zero = true
      · rcases ih (j + 1) with ⟨res, hok, hres⟩
        refine ⟨res, ?_, hres⟩
        rw [Matrix.findLeading, if_pos hj]
        simp only [Matrix.get_ok hS hi hjn, resBind_ok, hz, if_true]
        exact hok
      · replace hz : (origin.ent i j).is_zero = false := by
          cases h : (origin.ent i j).is_zero
          · rfl
          · exact absurd h hz
        refine ⟨some j, ?_, ?_⟩
        · rw [Matrix.findLeading, if_pos hj]
          simp only [Matrix.get_ok hS hi hjn, resBind_ok, hz, Bool.false_eq_true, if_false]
        · intro pv hpv
          have : j = pv := by injection hpv
          subst this
          exact ⟨hjn, hz⟩
    · refine ⟨none, ?_, by simp⟩
      rw [Matrix.findLeading, if_neg hj]


theorem backFold_spec {m n p : Nat} (hp : 0 < p) {i pivot : Nat}
    (hi : i < m) (hpv : pivot < n) :
    ∀ (ks : List Nat) (origin output : Matrix) (clean : Bool),
    (∀ k ∈ ks, k < m ∧ k ≠ i) →
    Matrix.Shape origin m n → Matrix.EntPos origin →
    Matrix.Shape output m p → Matrix.EntPos output →
    ∃ o q cl, ks.foldlM
        (fun st k => do
          let (origin, output, clean) := st
          let e ← origin.get k pivot
          let factor := e.negate
          if factor.is_zero then .ok (origin, output, clean)
          else do
            let clean := clean
              && cleanVals (rowCombine (origin.elements.getD k [])
                   (origin.elements.getD i []) factor)
              && cleanVals (rowCombine (output.elements.getD k [])
                   (output.elements.getD i []) factor)
            let origin ← origin.add_scaled_row_from_to i k factor
            let output ← output.add_scaled_row_from_to i k factor
            .ok (origin, output, clean))
        (origin, output, clean) = .ok (o, q, cl) ∧
      Matrix.Shape o m n ∧ Matrix.EntPos o ∧ Matrix.Shape q m p ∧ Matrix.EntPos q ∧
      (cl = true → clean = true) ∧
      (cl = true → ∃ E : QMat m m,
        toQM m n o = E * toQM m n origin ∧ toQM m p q = E * toQM m p output) := by
  have hn : 0 < n := by omega
  intro ks
  induction ks with
  | nil =>
    intro origin output clean _ hSo hEo hSq hEq
    exact ⟨origin, output, clean, rfl, hSo, hEo, hSq, hEq, fun h => h,
      fun _ => ⟨1, by rw [Matrix.one_mul], by rw [Matrix.one_mul]⟩⟩
  | cons k rest ih =>
    intro origin output clean hks hSo hEo hSq hEq
    obtain ⟨hkm, hki⟩ := hks k (List.mem_cons_self ..)
    have hrest : ∀ x ∈ rest, x < m ∧ x ≠ i :=
      fun x hx => hks x (List.mem_cons_of_mem k hx)
    by_cases hz : ((origin.ent k pivot).negate).is_zero = true
    · rcases ih origin output clean hrest hSo hEo hSq hEq with
        ⟨o, q, cl, hfold, hSo2, hEo2, hSq2, hEq2, hmono, hEex⟩
      refine ⟨o, q, cl, ?_, hSo2, hEo2, hSq2, hEq2, hmono, hEex⟩
      rw [List.foldlM_cons]
      simp only [Matrix.get_ok hSo hkm hpv, resBind_ok, hz, if_true]
      exact hfold
    · replace hz : ((origin.ent k pivot).negate).is_zero = false := by
        cases h : ((origin.ent k pivot).negate).is_zero
        · rfl
        · exact absurd h hz
      have hfP : ((origin.ent k pivot).negate).data.Pos :=
        MatrixElement.pos_negate (hEo k pivot)
      rcases Matrix.add_scaled_spec (s := (origin.ent k pivot).negate)
          hSo hEo hi hkm hn hfP with ⟨o1, hok1, hS1, hE1, hunch1, hmid1⟩
      rcases Matrix.add_scaled_spec (s := (origin.ent k pivot).negate)
          hSq hEq hi hkm hp hfP with ⟨q1, hok2, hS2, hE2, hunch2, hmid2⟩
      rcases ih o1 q1
          (clean &&
            cleanVals (rowCombine (origin.elements.getD k []) (origin.elements.getD i [])
              ((origin.ent k pivot).negate)) &&
            cleanVals (rowCombine (output.elements.getD k []) (output.elements.getD i [])
              ((origin.ent k pivot).negate)))
          hrest hS1 hE1 hS2 hE2 with
        ⟨o, q, cl, hfold, hSo2, hEo2, hSq2, hEq2, hmono, hEex⟩
      refine ⟨o, q, cl, ?_, hSo2, hEo2, hSq2, hEq2, ?_, ?_⟩
      · rw [List.foldlM_cons]
        simp only [Matrix.get_ok hSo hkm hpv, resBind_ok, hz, Bool.false_eq_true,
          if_false, hok1, hok2]
        exact hfold
      · intro hcl
        have := hmono hcl
        rcases Bool.and_eq_true_iff.mp this with ⟨h1, _⟩
        rcases Bool.and_eq_true_iff.mp h1 with ⟨h2, _⟩
        exact h2
      · intro hcl
        have hcleans := hmono hcl
        rcases Bool.and_eq_true_iff.mp hcleans with ⟨h1, hc2⟩
        rcases Bool.and_eq_true_iff.mp h1 with ⟨_, hc1⟩
        rcases hEex hcl with ⟨E2, hE2o, hE2q⟩
        rcases add_stepE (⟨k, hkm⟩ : Fin m) (⟨i, hi⟩ : Fin m)
          ((origin.ent k pivot).negate).val with ⟨E1, hE1s⟩
        refine ⟨E2 * E1, ?_, ?_⟩
        · rw [hE2o, hE1s n origin o1 _ rfl hSo hEo hfP hunch1 hmid1 hc1, Matrix.mul_assoc]
        · rw [hE2q, hE1s p output q1 _ rfl hSq hEq hfP hunch2 hmid2 hc2, Matrix.mul_assoc]

theorem backStep_spec {m n p : Nat} (hp : 0 < p) (hn : 0 < n) {i : Nat} (hi : i < m) :
    ∀ (origin output : Matrix) (clean : Bool),
    Matrix.Shape origin m n → Matrix.EntPos origin →
    Matrix.Shape output m p → Matrix.EntPos output →
    ∃ o q cl, Matrix.backStep (origin, output, clean) i = .ok (o, q, cl) ∧
      Matrix.Shape o m n ∧ Matrix.EntPos o ∧ Matrix.Shape q m p ∧ Matrix.EntPos q ∧
      (cl = true → clean = true) ∧
      (cl = true → ∃ E : QMat m m,
        toQM m n o = E * toQM m n origin ∧ toQM m p q = E * toQM m p output) := by
  intro origin output clean hSo hEo hSq hEq
  rcases findLeading_spec hSo hi origin.cols_number 0 with ⟨res, hfl, hres⟩
  cases res with
  | none =>
    refine ⟨origin, output, clean, ?_, hSo, hEo, hSq, hEq, fun h => h,
      fun _ => ⟨1, by rw [Matrix.one_mul], by rw [Matrix.one_mul]⟩⟩
    show (origin.findLeading i 0 origin.cols_number) >>= _ = _
    rw [hfl, resBind_ok]
  | some pivot =>
    obtain ⟨hpvn, hzl⟩ := hres pivot rfl
    have hlP : (origin.ent i pivot).data.Pos := hEo i pivot
    by_cases hone : (origin.ent i pivot).is_one = true
    · rcases backFold_spec hp hi hpvn (List.range i) origin output clean
          (fun k hk => ⟨by have := List.mem_range.mp hk; omega,
            by have := List.mem_range.mp hk; omega⟩)
          hSo hEo hSq hEq with ⟨o, q, cl, hfold, hSo2, hEo2, hSq2, hEq2, hmono, hEex⟩
      refine ⟨o, q, cl, ?_, hSo2, hEo2, hSq2, hEq2, hmono, hEex⟩
      show (origin.findLeading i 0 origin.cols_number) >>= _ = _
      rw [hfl, resBind_ok]
      simp only [Matrix.get_ok hSo hi hpvn, resBind_ok, hone, if_true]
      exact hfold
    · replace hone : (origin.ent i pivot).is_one = false := by
        cases h : (origin.ent i pivot).is_one
        · rfl
        · exact absurd h hone
      obtain ⟨hinvval, hinvP⟩ := MatrixElement.inverse_val hlP hzl
      rcases Matrix.scale_row_spec (s := ⟨Fr.one.divFr (origin.ent i pivot).data⟩)
          hSo hEo hi hn hinvP with ⟨o2, hsc1, hSsc1, hEsc1, hunch1, hmid1⟩
      rcases Matrix.scale_row_spec (s := ⟨Fr.one.divFr (origin.ent i pivot).data⟩)
          hSq hEq hi hp hinvP with ⟨q2, hsc2, hSsc2, hEsc2, hunch2, hmid2⟩
      rcases backFold_spec hp hi hpvn (List.range i) o2 q2
          (clean &&
            cleanVals ((origin.elements.getD i []).map fun x =>
              x.mul ⟨Fr.one.divFr (origin.ent i pivot).data⟩) &&
            cleanVals ((output.elements.getD i []).map fun x =>
              x.mul ⟨Fr.one.divFr (origin.ent i pivot).data⟩))
          (fun k hk => ⟨by have := List.mem_range.mp hk; omega,
            by have := List.mem_range.mp hk; omega⟩)
          hSsc1 hEsc1 hSsc2 hEsc2 with
        ⟨o, q, cl, hfold, hSo2, hEo2, hSq2, hEq2, hmono, hEex⟩
      refine ⟨o, q, cl, ?_, hSo2, hEo2, hSq2, hEq2, ?_, ?_⟩
      · show (origin.findLeading i 0 origin.cols_number) >>= _ = _
        rw [hfl, resBind_ok]
        simp only [Matrix.get_ok hSo hi hpvn, resBind_ok, hone, Bool.false_eq_true,
          if_false, MatrixElement.inverse_ok hzl, hsc1, hsc2]
        exact hfold
      · intro hcl
        have := hmono hcl
        rcases Bool.and_eq_true_iff.mp this with ⟨h1, _⟩
        rcases Bool.and_eq_true_iff.mp h1 with ⟨h2, _⟩
        exact h2
      · intro hcl
        have hcleans := hmono hcl
        rcases Bool.and_eq_true_iff.mp hcleans with ⟨h1, hc2⟩
        rcases Bool.and_eq_true_iff.mp h1 with ⟨_, hc1⟩
        rcases hEex hcl with ⟨E2, hE2o, hE2q⟩
        rcases scale_stepE (⟨i, hi⟩ : Fin m)
          ((⟨Fr.one.divFr (origin.ent i pivot).data⟩ : MatrixElement)).val with ⟨E1, hE1s⟩
        refine ⟨E2 * E1, ?_, ?_⟩
        · rw [hE2o, hE1s n origin o2 _ rfl hSo hEo hinvP hunch1 hmid1 hc1, Matrix.mul_assoc]
        · rw [hE2q, hE1s p output q2 _ rfl hSq hEq hinvP hunch2 hmid2 hc2, Matrix.mul_assoc]

theorem backRange_spec {m n p : Nat} (hp : 0 < p) (hn : 0 < n) :
    ∀ (ks : List Nat) (origin output : Matrix) (clean : Bool),
    (∀ k ∈ ks, k < m) →
    Matrix.Shape origin m n → Matrix.EntPos origin →
    Matrix.Shape output m p → Matrix.EntPos output →
    ∃ o q cl, ks.foldlM Matrix.backStep (origin, output, clean) = .ok (o, q, cl) ∧
      Matrix.Shape o m n ∧ Matrix.EntPos o ∧ Matrix.Shape q m p ∧ Matrix.EntPos q ∧
      (cl = true → clean = true) ∧
      (cl = true → ∃ E : QMat m m,
        toQM m n o = E * toQM m n origin ∧ toQM m p q = E * toQM m p output) := by
  intro ks
  induction ks with
  | nil =>
    intro origin output clean _ hSo hEo hSq hEq
    exact ⟨origin, output, clean, rfl, hSo, hEo, hSq, hEq, fun h => h,
      fun _ => ⟨1, by rw [Matrix.one_mul], by rw [Matrix.one_mul]⟩⟩
  | cons k rest ih =>
    intro origin output clean hks hSo hEo hSq hEq
    have hkm : k < m := hks k (List.mem_cons_self ..)
    rcases backStep_spec hp hn hkm origin output clean hSo hEo hSq hEq with
      ⟨o1, q1, cl1, hstep, hS1, hE1, hS2, hE2, hmono1, hEex1⟩
    rcases ih o1 q1 cl1 (fun x hx => hks x (List.mem_cons_of_mem k hx))
        hS1 hE1 hS2 hE2 with ⟨o, q, cl, hfold, hSo2, hEo2, hSq2, hEq2, hmono, hEex⟩
    refine ⟨o, q, cl, ?_, hSo2, hEo2, hSq2, hEq2, fun hcl => hmono1 (hmono hcl), ?_⟩
    · rw [List.foldlM_cons, hstep, resBind_ok]
      exact hfold
    · intro hcl
      rcases hEex hcl with ⟨E2, hE2o, hE2q⟩
      rcases hEex1 (hmono hcl) with ⟨E1, hE1o, hE1q⟩
      refine ⟨E2 * E1, ?_, ?_⟩
      · rw [hE2o, hE1o, Matrix.mul_assoc]
      · rw [hE2q, hE1q, Matrix.mul_assoc]

theorem toRrefG_mismatch {A B : Matrix} (h : B.rows_number ≠ A.rows_number) :
    A.toRrefG (some B) = .error (.err (.invalidOperation
      ("Matrix to apply steps to must have the same number of rows as the original matrix"))) := by
  show (A.rowEchelonG (some B)) >>= _ = _
  rw [rowEchelonG_mismatch h, resBind_error]

theorem toRrefG_some_spec {A B : Matrix} (hA : A.WF) (hB : B.WF)
    (hrows : B.rows_number = A.rows_number) :
    ∃ o q cl, A.toRrefG (some B) = .ok (o, q, cl) ∧
      Matrix.Shape o A.rows_number A.cols_number ∧ Matrix.EntPos o ∧
      Matrix.Shape q A.rows_number B.cols_number ∧ Matrix.EntPos q ∧
      (cl = true → ∃ E : QMat A.rows_number A.rows_number,
        toQM A.rows_number A.cols_number o = E * toQM A.rows_number A.cols_number A ∧
        toQM A.rows_number B.cols_number q = E * toQM A.rows_number B.cols_number B) := by
  rcases rowEchelonG_some_spec hA hB hrows with
    ⟨o1, q1, s1, cl1, hech, hS1, hE1, hS2, hE2, hEex1⟩
  rcases backRange_spec hB.2.2.1 hA.2.2.1 (List.range A.rows_number).reverse o1 q1 cl1
      (fun k hk => List.mem_range.mp (List.mem_reverse.mp hk))
      hS1 hE1 hS2 hE2 with ⟨o, q, cl, hfold, hSo, hEo, hSq, hEq, hmono, hEex⟩
  refine ⟨o, q, cl, ?_, hSo, hEo, hSq, hEq, ?_⟩
  · show (A.rowEchelonG (some B)) >>= _ = _
    rw [hech, resBind_ok]
    exact hfold
  · intro hcl
    rcases hEex hcl with ⟨E2, hE2o, hE2q⟩
    rcases hEex1 (hmono hcl) with ⟨E1, hE1o, hE1q⟩
    refine ⟨E2 * E1, ?_, ?_⟩
    · rw [hE2o, hE1o, Matrix.mul_assoc]
    · rw [hE2q, hE1q, Matrix.mul_assoc]

theorem toRrefG_none_spec {A : Matrix} (hA : A.WF) :
    ∃ o q cl, A.toRrefG none = .ok (o, q, cl) ∧
      Matrix.Shape o A.rows_number A.cols_number ∧ Matrix.EntPos o ∧
      Matrix.Shape q A.rows_number A.cols_number ∧ Matrix.EntPos q := by
  rcases rowEchelonG_none_spec hA with
    ⟨o1, q1, s1, cl1, hech, hS1, hE1, hS2, hE2, _⟩
  rcases backRange_spec hA.2.2.1 hA.2.2.1 (List.range A.rows_number).reverse o1 q1 cl1
      (fun k hk => List.mem_range.mp (List.mem_reverse.mp hk))
      hS1 hE1 hS2 hE2 with ⟨o, q, cl, hfold, hSo, hEo, hSq, hEq, _, _⟩
  refine ⟨o, q, cl, ?_, hSo, hEo, hSq, hEq⟩
  show (A.rowEchelonG none) >>= _ = _
  rw [hech, resBind_ok]
  exact hfold

/-- C7: `to_rref_apply_to(A, B)` fails exactly when the companion's row
count differs from the subject's: on a mismatch it returns the
invalid-operation error produced by the check that runs before any row
operation (no state is mutated), and on matching row counts the whole
reduction succeeds with a pair of result matrices. -/
theorem claim_C7_companion_row_check : ∀ A B : Matrix, A.WF → B.WF →
    (B.rows_number ≠ A.rows_number →
      A.to_rref_apply_to B = .error (.err (.invalidOperation
        ("Matrix to apply steps to must have the same number of rows as the original matrix")))) ∧
    (B.rows_number = A.rows_number →
      ∃ o q, A.to_rref_apply_to B = .ok (o, q)) := by
  intro A B hA hB
  constructor
  · intro hne
    show (A.toRrefG (some B)) >>= _ = _
    rw [toRrefG_mismatch hne, resBind_error]
  · intro heq
    rcases toRrefG_some_spec hA hB heq with ⟨o, q, cl, hok, _, _, _, _, _⟩
    refine ⟨o, q, ?_⟩
    show (A.toRrefG (some B)) >>= _ = _
    rw [hok, resBind_ok]

/-- C7, witness: the subject `[[1]]` with companion `[[1],[2]]` has a row
mismatch and errors; the same subject with companion `[[7]]` matches and
succeeds. -/
theorem claim_C7_witness :
    (mkMat [[ofInt 1]]).WF ∧ (mkMat [[ofInt 1], [ofInt 2]]).WF ∧
    ((((mkMat [[ofInt 1], [ofInt 2]]).rows_number ≠ (mkMat [[ofInt 1]]).rows_number →
      (mkMat [[ofInt 1]]).to_rref_apply_to (mkMat [[ofInt 1], [ofInt 2]]) =
        .error (.err (.invalidOperation
          ("Matrix to apply steps to must have the same number of rows as the original matrix")))) ∧
    ((mkMat [[ofInt 1], [ofInt 2]]).rows_number = (mkMat [[ofInt 1]]).rows_number →
      ∃ o q, (mkMat [[ofInt 1]]).to_rref_apply_to (mkMat [[ofInt 1], [ofInt 2]]) =
        .ok (o, q)))) :=
  ⟨by decide, by decide,
    claim_C7_companion_row_check (mkMat [[ofInt 1]]) (mkMat [[ofInt 1], [ofInt 2]])
      (by decide) (by decide)⟩

end RustMatrix

/-! ### The determinant against the echelon diagonal product -/

namespace RustMatrix

theorem detFold_ok {e : Matrix} {m n : Nat} (hS : Matrix.Shape e m n) :
    ∀ (ks : List Nat) (acc : MatrixElement), (∀ k ∈ ks, k < m ∧ k < n) →
    ks.foldlM (fun acc i => do
        let x ← e.get i i
        (.ok (acc.mul x) : Res MatrixElement)) acc =
      .ok (ks.foldl (fun acc i => acc.mul (e.ent i i)) acc) := by
  intro ks
  induction ks with
  | nil => intro acc _; rfl
  | cons k rest ih =>
    intro acc hks
    obtain ⟨hkm, hkn⟩ := hks k (List.mem_cons_self ..)
    rw [List.foldlM_cons]
    simp only [Matrix.get_ok hS hkm hkn, resBind_ok]
    rw [List.foldl_cons]
    exact ih _ (fun x hx => hks x (List.mem_cons_of_mem k hx))

theorem detFold_pos {e : Matrix} (hE : Matrix.EntPos e) :
    ∀ (ks : List Nat) (acc : MatrixElement), acc.data.Pos →
    ((ks.foldl (fun acc i => acc.mul (e.ent i i)) acc)).data.Pos := by
  intro ks
  induction ks with
  | nil => intro acc h; exact h
  | cons k rest ih =>
    intro acc h
    rw [List.foldl_cons]
    exact ih _ (MatrixElement.pos_mul h (hE k k))

theorem echelon_one_step {A : Matrix} (hS : Matrix.Shape A 1 1) :
    Matrix.echelonLoop 1 1 1 0 0 A A 0 true = .ok (A, A, 0, true) := by
  have hget : A.get 0 0 = .ok (A.ent 0 0) := Matrix.get_ok hS (by omega) (by omega)
  have hscan : A.pivotScan 0 1 0 = .ok 0 := by
    unfold Matrix.pivotScan
    have hr : List.range' 0 (1 - 0) = [0] := rfl
    rw [hr, List.foldlM_cons]
    simp only [hget, resBind_ok, ite_self]
    rfl
  rw [Matrix.echelonLoop, if_pos ⟨by omega, by omega⟩]
  simp only [hscan, resBind_ok, hget]
  by_cases hz : (A.ent 0 0).is_zero = true
  · rw [hz]
    rfl
  · replace hz : (A.ent 0 0).is_zero = false := by
      cases h : (A.ent 0 0).is_zero
      · rfl
      · exact absurd h hz
    rw [hz]
    rfl

theorem row_echelon_one {A : Matrix} (hA : A.WF) (hr1 : A.rows_number = 1)
    (hc1 : A.cols_number = 1) : A.row_echelon = .ok (A, 0) := by
  have hS : Matrix.Shape A 1 1 := by
    have h := Matrix.wf_shape hA
    rw [hr1, hc1] at h
    exact h
  unfold Matrix.row_echelon Matrix._row_echelon Matrix.rowEchelonG
  dsimp only
  rw [hr1, hc1]
  simp only [resBind_ok, echelon_one_step hS]

/-- C3, amended: for every well-formed square matrix of size other than
2, `det` succeeds, `row_echelon` succeeds, and the determinant equals
the signed echelon diagonal product exactly (hence epsilon-equal); the
size-2 closed form `a*d - b*c` is excluded because it can differ from
the clamped echelon diagonal product by more than the tolerance. -/
theorem claim_C3_amended : ∀ A : Matrix, A.WF → A.rows_number = A.cols_number →
    A.rows_number ≠ 2 →
    ∃ d e s, A.det = .ok d ∧ A.row_echelon = .ok (e, s) ∧
      d.val = (echelonSignedDiagProd e s A.rows_number).val ∧
      d.epsilon_equals (echelonSignedDiagProd e s A.rows_number) = true := by
  intro A hA hsq hn2
  by_cases h1 : A.rows_number = 1
  · have hc1 : A.cols_number = 1 := by omega
    have hS : Matrix.Shape A 1 1 := by
      have h := Matrix.wf_shape hA
      rw [h1, hc1] at h
      exact h
    have hPd : (A.ent 0 0).data.Pos := Matrix.wf_entPos hA 0 0
    have hdet : A.det = .ok (A.ent 0 0) := by
      unfold Matrix.det Matrix.assert_square
      rw [if_neg (fun hc => hc hsq)]
      dsimp only
      rw [if_pos h1]
      exact Matrix.get_ok hS (by omega) (by omega)
    have hcomp : echelonSignedDiagProd A 0 A.rows_number =
        (⟨⟨1, 1⟩⟩ : MatrixElement).mul (MatrixElement.one.mul (A.ent 0 0)) := by
      rw [h1]
      rfl
    have hone_lit : (⟨⟨1, 1⟩⟩ : MatrixElement) = MatrixElement.one := rfl
    refine ⟨A.ent 0 0, A, 0, hdet, row_echelon_one hA h1 hc1, ?_, ?_⟩
    · rw [hcomp, hone_lit, MatrixElement.val_mul MatrixElement.pos_one
        (MatrixElement.pos_mul MatrixElement.pos_one hPd),
        MatrixElement.val_mul MatrixElement.pos_one hPd,
        MatrixElement.val_one]
      ring
    · apply MatrixElement.epsilon_equals_of_val_eq hPd
      · rw [hcomp, hone_lit]
        exact MatrixElement.pos_mul MatrixElement.pos_one
          (MatrixElement.pos_mul MatrixElement.pos_one hPd)
      · rw [hcomp, hone_lit, MatrixElement.val_mul MatrixElement.pos_one
          (MatrixElement.pos_mul MatrixElement.pos_one hPd),
          MatrixElement.val_mul MatrixElement.pos_one hPd,
          MatrixElement.val_one]
        ring
  · have h3 : 3 ≤ A.rows_number := by
      have := hA.2.1
      omega
    rcases rowEchelonG_none_spec hA with
      ⟨o, q, s, cl, hech, hSo, hEo, _, _, _⟩
    have hre : A.row_echelon = .ok (o, s) := by
      unfold Matrix.row_echelon Matrix._row_echelon
      rw [hech]
      rfl
    have hfold := detFold_ok hSo (List.range A.rows_number) MatrixElement.one
      (fun k hk => ⟨List.mem_range.mp hk, by
        have := List.mem_range.mp hk; omega⟩)
    have hdP : ((List.range A.rows_number).foldl
        (fun acc i => acc.mul (o.ent i i)) MatrixElement.one).data.Pos :=
      detFold_pos hEo (List.range A.rows_number) MatrixElement.one MatrixElement.pos_one
    have hsignP : ((if s % 2 = 0 then (⟨⟨1, 1⟩⟩ : MatrixElement) else ⟨⟨-1, 1⟩⟩)).data.Pos := by
      split
      · show (0 : Int) < 1
        omega
      · show (0 : Int) < 1
        omega
    have hdet : A.det = .ok ((if s % 2 = 0 then (⟨⟨1, 1⟩⟩ : MatrixElement) else ⟨⟨-1, 1⟩⟩).mul
        ((List.range A.rows_number).foldl (fun acc i => acc.mul (o.ent i i))
          MatrixElement.one)) := by
      unfold Matrix.det Matrix.assert_square
      rw [if_neg (fun hc => hc hsq)]
      dsimp only
      rw [if_neg h1, if_neg hn2]
      simp only [hre, resBind_ok, hfold]
    refine ⟨_, o, s, hdet, hre, rfl, ?_⟩
    exact MatrixElement.epsilon_equals_of_val_eq
      (MatrixElement.pos_mul hsignP hdP) (MatrixElement.pos_mul hsignP hdP) rfl

/-- C3, witness for the amended claim: the 3x3 diagonal matrix
`diag(1, 2, 3)` is well-formed, square, and of size other than 2. -/
theorem claim_C3_amended_witness :
    witC3.WF ∧ witC3.rows_number = witC3.cols_number ∧ witC3.rows_number ≠ 2 ∧
    (∃ d e s, witC3.det = .ok d ∧ witC3.row_echelon = .ok (e, s) ∧
      d.val = (echelonSignedDiagProd e s witC3.rows_number).val ∧
      d.epsilon_equals (echelonSignedDiagProd e s witC3.rows_number) = true) :=
  ⟨by decide, by decide, by decide,
    claim_C3_amended witC3 (by decide) (by decide) (by decide)⟩

end RustMatrix

/-! ### The reduction-based inverse under the clean, exact-identity provisos -/

namespace RustMatrix

theorem inverse_clean_exact {A idm origin applied : Matrix} {clean : Bool}
    (hA : A.WF) (hsq : A.rows_number = A.cols_number)
    (hidm : Matrix.identity A.rows_number = .ok idm)
    (hrun : A.toRrefG (some idm) = .ok (origin, applied, clean))
    (hclean : clean = true) (hexact : origin.isIdentityExact = true) :
    A.inverse = .ok applied ∧
    Matrix.Shape applied A.rows_number A.rows_number ∧ Matrix.EntPos applied ∧
    toQM A.rows_number A.rows_number A * toQM A.rows_number A.rows_number applied = 1 ∧
    toQM A.rows_number A.rows_number applied * toQM A.rows_number A.rows_number A = 1 := by
  have hm : 1 ≤ A.rows_number := hA.2.1
  rcases Matrix.identity_spec A.rows_number hm with ⟨idm', hok', hSid, hEid, hch⟩
  have hinj : idm = idm' := by
    have := hidm.symm.trans hok'
    injection this
  subst hinj
  have hWid : idm.WF := Matrix.shape_wf hSid hEid hm hm
  rcases toRrefG_some_spec hA hWid hSid.1 with
    ⟨o, q, cl, hok, hSo, hEo, hSq, hEq, hEex⟩
  have h3 : (o, q, cl) = (origin, applied, clean) := by
    have := hok.symm.trans hrun
    injection this
  have h4 : o = origin := congrArg Prod.fst h3
  have h5 : q = applied := congrArg (fun t => t.2.1) h3
  have h6 : cl = clean := congrArg (fun t => t.2.2) h3
  subst h4
  subst h5
  subst h6
  rw [hSid.2.1] at hSq hEex
  rw [← hsq] at hSo
  rcases hEex hclean with ⟨E, hEo_eq, hEq_eq⟩
  rw [← hsq] at hEo_eq
  have h1 : toQM A.rows_number A.rows_number o = 1 :=
    toQM_eq_one_of_identityExact hSo hEo hexact
  rw [h1] at hEo_eq
  have hEA1 : E * toQM A.rows_number A.rows_number A = 1 := hEo_eq.symm
  rw [toQM_identity hch, mul_one] at hEq_eq
  have hInv1 : toQM A.rows_number A.rows_number q * toQM A.rows_number A.rows_number A = 1 := by
    rw [hEq_eq]
    exact hEA1
  have hInv2 : toQM A.rows_number A.rows_number A * toQM A.rows_number A.rows_number q = 1 :=
    Matrix.mul_eq_one_comm.mp hInv1
  have hvals : ∀ r c, r < A.rows_number → c < A.rows_number →
      (o.ent r c).val = (idm.ent r c).val := by
    intro r c hr hc
    have hleft := congrFun (congrFun h1 (⟨r, hr⟩ : Fin A.rows_number)) ⟨c, hc⟩
    have hright := congrFun (congrFun (toQM_identity hch
      (z := A.rows_number)) (⟨r, hr⟩ : Fin A.rows_number)) ⟨c, hc⟩
    exact hleft.trans hright.symm
  have hguard : o.epsilon_equals idm = true :=
    epsilon_equals_of_val_eq_mat hSo hSid hEo hEid hvals
  refine ⟨?_, hSq, hEq, hInv2, hInv1⟩
  have h2rref : A.to_rref_apply_to idm = .ok (o, q) := by
    unfold Matrix.to_rref_apply_to Matrix._to_rref
    rw [hrun, resBind_ok]
  unfold Matrix.inverse
  simp only [hidm, h2rref, resBind_ok, hguard, Bool.not_true]
  rfl

/-- C4, amended: when `inverse(A)` is obtained from a run of the ghost
reduction in which no written value was clamped and the reduced subject
is exactly the identity, the companion `E` is a true two-sided inverse:
`A * E` agrees entrywise with the identity (hence is epsilon-equal to
it), and a second inversion of `E` under the same two provisos returns a
matrix agreeing entrywise with `A` (hence epsilon-equal to it). -/
theorem claim_C4_amended : ∀ (A idm origin applied : Matrix) (clean : Bool),
    A.WF → A.rows_number = A.cols_number →
    Matrix.identity A.rows_number = .ok idm →
    A.toRrefG (some idm) = .ok (origin, applied, clean) →
    clean = true → origin.isIdentityExact = true →
    A.inverse = .ok applied ∧
    (∃ ae, A.multiply applied = .ok ae ∧
      (∀ r c, (ae.ent r c).val = (idm.ent r c).val) ∧
      ae.epsilon_equals idm = true) ∧
    (∀ origin2 applied2 clean2,
      applied.toRrefG (some idm) = .ok (origin2, applied2, clean2) →
      clean2 = true → origin2.isIdentityExact = true →
      applied.inverse = .ok applied2 ∧
      (∀ r c, (applied2.ent r c).val = (A.ent r c).val) ∧
      applied2.epsilon_equals A = true) := by
  intro A idm origin applied clean hA hsq hidm hrun hclean hexact
  have hm : 1 ≤ A.rows_number := hA.2.1
  rcases Matrix.identity_spec A.rows_number hm with ⟨idm', hok', hSid, hEid, hch⟩
  have hinj : idm = idm' := by
    have := hidm.symm.trans hok'
    injection this
  subst hinj
  obtain ⟨hInvOk, hSap, hEap, hInv2, hInv1⟩ :=
    inverse_clean_exact hA hsq hidm hrun hclean hexact
  have hSA : Matrix.Shape A A.rows_number A.rows_number := by
    have h := Matrix.wf_shape hA
    rw [← hsq] at h
    exact h
  have hEA := Matrix.wf_entPos hA
  refine ⟨hInvOk, ?_, ?_⟩
  · rcases Matrix.multiply_spec hSA hEA hSap hEap hm hm hm with
      ⟨ae, hmul, hSae, hEae, hch_ae⟩
    have hQae : toQM A.rows_number A.rows_number ae = 1 := by
      rw [multiply_toQM hch_ae]
      exact hInv2
    have hvals_in : ∀ r c, r < A.rows_number → c < A.rows_number →
        (ae.ent r c).val = (idm.ent r c).val := by
      intro r c hr hc
      have hleft := congrFun (congrFun hQae (⟨r, hr⟩ : Fin A.rows_number)) ⟨c, hc⟩
      have hright := congrFun (congrFun (toQM_identity hch
        (z := A.rows_number)) (⟨r, hr⟩ : Fin A.rows_number)) ⟨c, hc⟩
      exact hleft.trans hright.symm
    exact ⟨ae, hmul, valEq_of_inrange hSae hSid hvals_in,
      epsilon_equals_of_val_eq_mat hSae hSid hEae hEid hvals_in⟩
  · intro origin2 applied2 clean2 hrun2 hclean2 hexact2
    have hWap : applied.WF := Matrix.shape_wf hSap hEap hm hm
    have hsq2 : applied.rows_number = applied.cols_number := by
      rw [hSap.1, hSap.2.1]
    have hidm2 : Matrix.identity applied.rows_number = .ok idm := by
      rw [hSap.1]
      exact hidm
    obtain ⟨hInvOk2, hSap2, hEap2, hInv2b, hInv1b⟩ :=
      inverse_clean_exact hWap hsq2 hidm2 hrun2 hclean2 hexact2
    rw [hSap.1] at hSap2 hInv1b
    have hQ2 : toQM A.rows_number A.rows_number applied2 =
        toQM A.rows_number A.rows_number A := by
      calc toQM A.rows_number A.rows_number applied2
          = 1 * toQM A.rows_number A.rows_number applied2 := by rw [Matrix.one_mul]
        _ = (toQM A.rows_number A.rows_number A * toQM A.rows_number A.rows_number applied) *
            toQM A.rows_number A.rows_number applied2 := by rw [hInv2]
        _ = toQM A.rows_number A.rows_number A * (toQM A.rows_number A.rows_number applied *
            toQM A.rows_number A.rows_number applied2) := by rw [Matrix.mul_assoc]
        _ = toQM A.rows_number A.rows_number A := by
            have hmid : toQM A.rows_number A.rows_number applied *
                toQM A.rows_number A.rows_number applied2 = 1 :=
              Matrix.mul_eq_one_comm.mp hInv1b
            rw [hmid, Matrix.mul_one]
    have hvals_in : ∀ r c, r < A.rows_number → c < A.rows_number →
        (applied2.ent r c).val = (A.ent r c).val := by
      intro r c hr hc
      exact congrFun (congrFun hQ2 (⟨r, hr⟩ : Fin A.rows_number)) ⟨c, hc⟩
    exact ⟨hInvOk2, valEq_of_inrange hSap2 hSA hvals_in,
      epsilon_equals_of_val_eq_mat hSap2 hSA hEap2 hEA hvals_in⟩

/-- C4, witness for the amended claim: inverting `[[2,0],[0,2]]` runs
clamp-free, reduces the subject exactly to the identity, and the claim
applies at this input. -/
theorem claim_C4_amended_witness :
    witC4.WF ∧ witC4.rows_number = witC4.cols_number ∧
    Matrix.identity witC4.rows_number = .ok idm2 ∧
    witC4.toRrefG (some idm2) = .ok (oC4, apC4, true) ∧
    oC4.isIdentityExact = true ∧
    (witC4.inverse = .ok apC4 ∧
    (∃ ae, witC4.multiply apC4 = .ok ae ∧
      (∀ r c, (ae.ent r c).val = (idm2.ent r c).val) ∧
      ae.epsilon_equals idm2 = true) ∧
    (∀ origin2 applied2 clean2,
      apC4.toRrefG (some idm2) = .ok (origin2, applied2, clean2) →
      clean2 = true → origin2.isIdentityExact = true →
      apC4.inverse = .ok applied2 ∧
      (∀ r c, (applied2.ent r c).val = (witC4.ent r c).val) ∧
      applied2.epsilon_equals witC4 = true)) :=
  ⟨by decide, by decide, by decide, by decide, by decide,
    claim_C4_amended witC4 idm2 oC4 apC4 true (by decide) (by decide) (by decide)
      (by decide) rfl (by decide)⟩

end RustMatrix

/-! ### The sign of zero across the mutation primitives -/

namespace RustMatrix

open FloatModel

theorem List_getD_map_gen {α β : Type} (f : α → β) (l : List α) (i : Nat)
    (d : β) (d' : α) (h : i < l.length) :
    (l.map f).getD i d = f (l.getD i d') := by
  induction l generalizing i with
  | nil => simp at h
  | cons x xs ih =>
    cases i with
    | zero => rfl
    | succ k => exact ih k (by simpa using h)

theorem List_getD_zipmap {α : Type} (f : α → α → α) (d : α) :
    ∀ (xs ys : List α) (c : Nat), c < xs.length → c < ys.length →
    ((xs.zip ys).map fun p => f p.1 p.2).getD c d = f (xs.getD c d) (ys.getD c d) := by
  intro xs
  induction xs with
  | nil => intro ys c h1 _; simp at h1
  | cons x xt ih =>
    intro ys c h1 h2
    cases ys with
    | nil => simp at h2
    | cons y yt =>
      cases c with
      | zero => rfl
      | succ k => exact ih yt k (by simpa using h1) (by simpa using h2)

theorem fwrite_negZero_false {v : F64} (hval : v.negZero = true → v.val.num = 0)
    (hden : 0 < v.val.den) :
    (if v.is_zero then F64.zero else v).negZero = false := by
  by_cases hz : v.is_zero = true
  · rw [if_pos hz]
    rfl
  · rw [if_neg hz]
    cases hneg : v.negZero
    · rfl
    · exfalso
      apply hz
      have hnum : v.val.num = 0 := hval hneg
      unfold F64.is_zero
      have hltz : v.val.lt Fr.zero = false := by
        unfold Fr.lt Fr.zero
        rw [hnum]
        simp
      rw [hltz]
      simp only [Bool.false_eq_true, if_false]
      unfold Fr.lt EPS
      rw [hnum]
      apply decide_eq_true
      show (0 : Int) * 10 ^ 8 < 10 * v.val.den
      have : (0 : Int) * 10 ^ 8 = 0 := by ring
      rw [this]
      omega

theorem fmul_valid (a b : F64) : (a.mul b).negZero = true → (a.mul b).val.num = 0 := by
  intro h
  unfold F64.mul at h ⊢
  rcases Bool.and_eq_true_iff.mp h with ⟨h1, _⟩
  exact of_decide_eq_true h1

theorem fmul_den {a b : F64} (ha : 0 < a.val.den) (hb : 0 < b.val.den) :
    0 < (a.mul b).val.den := by
  show (0 : Int) < a.val.den * b.val.den
  exact mul_pos ha hb

theorem fadd_valid {a b : F64} (hva : a.negZero = true → a.val.num = 0)
    (hvb : b.negZero = true → b.val.num = 0) :
    (a.add b).negZero = true → (a.add b).val.num = 0 := by
  intro h
  unfold F64.add at h ⊢
  rcases Bool.and_eq_true_iff.mp h with ⟨h1, h2⟩
  show a.val.num * b.val.den + b.val.num * a.val.den = 0
  rw [hva h1, hvb h2]
  ring

theorem fadd_den {a b : F64} (ha : 0 < a.val.den) (hb : 0 < b.val.den) :
    0 < (a.add b).val.den := by
  show (0 : Int) < a.val.den * b.val.den
  exact mul_pos ha hb

theorem fm_assert_index_ok {m : FMatrix} {row col : Nat}
    (hr : row < m.rows_number) (hc : col < m.cols_number) :
    m.assert_index row col = .ok () := by
  unfold FMatrix.assert_index
  rw [if_neg (by omega), if_neg (by omega)]

theorem fm_set_full {m : FMatrix} {row col : Nat} (v : F64)
    (hr : row < m.rows_number) (hc : col < m.cols_number)
    (hlen : m.elements.length = m.rows_number)
    (hrow : ∀ r, r < m.rows_number → (m.elements.getD r []).length = m.cols_number) :
    ∃ m', m.set row col v = .ok m' ∧
      m'.rows_number = m.rows_number ∧ m'.cols_number = m.cols_number ∧
      m'.elements.length = m'.rows_number ∧
      (∀ r, r < m'.rows_number → (m'.elements.getD r []).length = m'.cols_number) ∧
      (∀ r' c', ¬(r' = row ∧ c' = col) → m'.ent r' c' = m.ent r' c') ∧
      m'.ent row col = (if v.is_zero then F64.zero else v) := by
  have hrl : row < m.elements.length := by omega
  have hcl : col < (m.elements.getD row []).length := by rw [hrow row hr]; omega
  refine ⟨{ m with elements := m.elements.set row ((m.elements.getD row []).set col
      (if v.is_zero then F64.zero else v)) }, ?_, rfl, rfl, ?_, ?_, ?_, ?_⟩
  · unfold FMatrix.set
    rw [fm_assert_index_ok hr hc]
    rfl
  · show (m.elements.set row _).length = m.rows_number
    rw [List_length_set]
    exact hlen
  · intro r hrr
    show ((m.elements.set row _).getD r []).length = m.cols_number
    by_cases hre : r = row
    · subst hre
      rw [List_getD_set_self _ _ _ _ hrl, List_length_set]
      exact hrow r hrr
    · rw [List_getD_set_ne _ _ _ _ _ (fun he => hre he.symm)]
      exact hrow r hrr
  · intro r' c' hne
    show ((m.elements.set row _).getD r' []).getD c' F64.zero = _
    by_cases hre : r' = row
    · subst hre
      rw [List_getD_set_self _ _ _ _ hrl]
      have hce : c' ≠ col := fun he => hne ⟨rfl, he⟩
      rw [List_getD_set_ne _ _ _ _ _ (fun he => hce he.symm)]
      rfl
    · rw [List_getD_set_ne _ _ _ _ _ (fun he => hre he.symm)]
      rfl
  · show ((m.elements.set row _).getD row []).getD col F64.zero = _
    rw [List_getD_set_self _ _ _ _ hrl, List_getD_set_self _ _ _ _ hcl]

theorem fm_setfold_spec {row : Nat} :
    ∀ (vs : List F64) (off : Nat) (m : FMatrix),
    m.elements.length = m.rows_number →
    (∀ r, r < m.rows_number → (m.elements.getD r []).length = m.cols_number) →
    row < m.rows_number → off + vs.length ≤ m.cols_number →
    ∃ m', (List.enumFrom off vs).foldlM (fun acc p => acc.set row p.1 p.2) m = .ok m' ∧
      m'.rows_number = m.rows_number ∧ m'.cols_number = m.cols_number ∧
      (∀ c, c < off → m'.ent row c = m.ent row c) ∧
      (∀ c, off ≤ c → c < off + vs.length →
        m'.ent row c = (if (vs.getD (c - off) F64.zero).is_zero then F64.zero
          else vs.getD (c - off) F64.zero)) := by
  intro vs
  induction vs with
  | nil =>
    intro off m hlen hrow hr hoff
    exact ⟨m, rfl, rfl, rfl, fun _ _ => rfl, fun c h1 h2 => by
      simp only [List.length_nil, Nat.add_zero] at h2
      exact absurd h2 (by omega)⟩
  | cons v vt ih =>
    intro off m hlen hrow hr hoff
    have hoffc : off < m.cols_number := by
      simp only [List.length_cons] at hoff
      omega
    rcases fm_set_full v hr hoffc hlen hrow with
      ⟨m1, hok1, hrn1, hcn1, hlen1, hrow1, hunch1, hwrit1⟩
    rcases ih (off + 1) m1 hlen1 hrow1
      (by rw [hrn1]; exact hr)
      (by rw [hcn1]; simp only [List.length_cons] at hoff; omega) with
      ⟨m', hfold, hrn, hcn, hlow, hmid⟩
    refine ⟨m', ?_, by rw [hrn, hrn1], by rw [hcn, hcn1], ?_, ?_⟩
    · show ((off, v) :: List.enumFrom (off + 1) vt).foldlM
        (fun acc p => acc.set row p.1 p.2) m = .ok m'
      rw [List.foldlM_cons]
      show (m.set row off v) >>= _ = _
      rw [hok1, resBind_ok]
      exact hfold
    · intro c hc
      rw [hlow c (by omega), hunch1 row c (fun hp => by omega)]
    · intro c hc1 hc2
      by_cases hceq : c = off
      · subst hceq
        rw [hlow c (by omega), hwrit1]
        simp
      · have hge : off + 1 ≤ c := by omega
        rw [hmid c hge (by simp only [List.length_cons] at hc2 ⊢; omega)]
        have hco : c - off = (c - (off + 1)) + 1 := by omega
        rw [hco]
        rfl

theorem fm_set_row_spec {m : FMatrix} {row : Nat} {w : List F64}
    (hr : row < m.rows_number) (hc0 : 0 < m.cols_number)
    (hlen : m.elements.length = m.rows_number)
    (hrow : ∀ r, r < m.rows_number → (m.elements.getD r []).length = m.cols_number)
    (hvs : w.length = m.cols_number) :
    ∃ m', m.set_row row w = .ok m' ∧
      m'.rows_number = m.rows_number ∧ m'.cols_number = m.cols_number ∧
      (∀ c, c < m.cols_number →
        m'.ent row c = (if (w.getD c F64.zero).is_zero then F64.zero
          else w.getD c F64.zero)) := by
  rcases fm_setfold_spec w 0 m hlen hrow hr (by omega) with
    ⟨m', hfold, hrn, hcn, _, hmid⟩
  refine ⟨m', ?_, hrn, hcn, ?_⟩
  · unfold FMatrix.set_row
    rw [fm_assert_index_ok hr hc0, resBind_ok, if_neg (by rw [hvs]; exact fun h => h rfl)]
    exact hfold
  · intro c hc
    have := hmid c (by omega) (by omega)
    simpa using this

end RustMatrix

namespace RustMatrix

open FloatModel

theorem fm_set_bounds {m : FMatrix} {row col : Nat} {v : F64} {m' : FMatrix}
    (h : m.set row col v = .ok m') : row < m.rows_number ∧ col < m.cols_number := by
  by_cases h1 : m.rows_number ≤ row
  · exfalso
    unfold FMatrix.set FMatrix.assert_index at h
    rw [if_pos h1, resBind_error] at h
    cases h
  · by_cases h2 : m.cols_number ≤ col
    · exfalso
      unfold FMatrix.set FMatrix.assert_index at h
      rw [if_neg h1, if_pos h2, resBind_error] at h
      cases h
    · exact ⟨by omega, by omega⟩

theorem fm_get_row_ok {m : FMatrix} {row : Nat} {r : List F64}
    (h : m.get_row row = .ok r) :
    row < m.rows_number ∧ 0 < m.cols_number ∧ r = m.elements.getD row [] := by
  by_cases h1 : m.rows_number ≤ row
  · exfalso
    unfold FMatrix.get_row FMatrix.assert_index at h
    rw [if_pos h1, resBind_error] at h
    cases h
  · by_cases h2 : m.cols_number ≤ 0
    · exfalso
      unfold FMatrix.get_row FMatrix.assert_index at h
      rw [if_neg h1, if_pos h2, resBind_error] at h
      cases h
    · refine ⟨by omega, by omega, ?_⟩
      unfold FMatrix.get_row FMatrix.assert_index at h
      rw [if_neg h1, if_neg h2, resBind_ok] at h
      injection h with h
      exact h.symm

theorem fm_swap_bounds {m : FMatrix} {r1 r2 : Nat} {m' : FMatrix}
    (h : m.swap_rows r1 r2 = .ok m') :
    r1 < m.rows_number ∧ r2 < m.rows_number ∧
    m' = { m with elements :=
      (m.elements.set r1 (m.elements.getD r2 [])).set r2 (m.elements.getD r1 []) } := by
  by_cases h1 : m.rows_number ≤ r1
  · exfalso
    unfold FMatrix.swap_rows FMatrix.assert_index at h
    rw [if_pos h1, resBind_error] at h
    cases h
  · by_cases h0 : m.cols_number ≤ 0
    · exfalso
      unfold FMatrix.swap_rows FMatrix.assert_index at h
      rw [if_neg h1, if_pos h0, resBind_error] at h
      cases h
    · by_cases h2 : m.rows_number ≤ r2
      · exfalso
        unfold FMatrix.swap_rows FMatrix.assert_index at h
        simp only [if_neg h1, if_neg h0, if_pos h2, resBind_ok, resBind_error] at h
        cases h
      · refine ⟨by omega, by omega, ?_⟩
        unfold FMatrix.swap_rows FMatrix.assert_index at h
        simp only [if_neg h1, if_neg h0, if_neg h2, resBind_ok] at h
        injection h with h
        exact h.symm

/-- C8, counterexample: `swap_rows` moves the stored rows without
rewriting any value, so the negative zero stored at (0,0) of
`[[-0.0],[1.0]]` survives the swap and sits at (1,0) afterwards,
refuting the claim that every one of the four mutation primitives
normalizes negative zero on write. -/
theorem claim_C8_counterexample :
    ∃ m', (⟨1, 2, [[⟨Fr.zero, true⟩], [⟨Fr.one, false⟩]]⟩ : FMatrix).swap_rows 0 1 =
        .ok m' ∧
      ((⟨1, 2, [[⟨Fr.zero, true⟩], [⟨Fr.one, false⟩]]⟩ : FMatrix).ent 0 0).negZero = true ∧
      (m'.ent 1 0).negZero = true := by
  refine ⟨⟨1, 2, [[⟨Fr.one, false⟩], [⟨Fr.zero, true⟩]]⟩, ?_, ?_, ?_⟩
  all_goals decide

/-- C8, amended: `set`, `scale_row` and `add_scaled_row_from_to` route
every written value through the write guard of set.rs, which replaces
any epsilon-zero value (negative zero in particular) by the exact
positive zero, so no entry written by them carries the negative-zero
sign afterwards; `swap_rows` only moves the rows: its entries are those
of the source rows unchanged, so an existing negative zero survives. -/
theorem claim_C8_amended :
    (∀ (m : FMatrix) (row col : Nat) (v : F64) (m' : FMatrix),
      m.elements.length = m.rows_number →
      (∀ r, r < m.rows_number → (m.elements.getD r []).length = m.cols_number) →
      v.valid → 0 < v.val.den →
      m.set row col v = .ok m' →
      (m'.ent row col).negZero = false) ∧
    (∀ (m : FMatrix) (row : Nat) (s : F64) (m' : FMatrix),
      m.elements.length = m.rows_number →
      (∀ r, r < m.rows_number → (m.elements.getD r []).length = m.cols_number) →
      (∀ r, r < m.rows_number → ∀ c, c < m.cols_number →
        (m.ent r c).valid ∧ 0 < (m.ent r c).val.den) →
      0 < s.val.den →
      m.scale_row row s = .ok m' →
      ∀ c, c < m.cols_number → (m'.ent row c).negZero = false) ∧
    (∀ (m : FMatrix) (frm tgt : Nat) (s : F64) (m' : FMatrix),
      m.elements.length = m.rows_number →
      (∀ r, r < m.rows_number → (m.elements.getD r []).length = m.cols_number) →
      (∀ r, r < m.rows_number → ∀ c, c < m.cols_number →
        (m.ent r c).valid ∧ 0 < (m.ent r c).val.den) →
      0 < s.val.den →
      m.add_scaled_row_from_to frm tgt s = .ok m' →
      ∀ c, c < m.cols_number → (m'.ent tgt c).negZero = false) ∧
    (∀ (m : FMatrix) (r1 r2 : Nat) (m' : FMatrix),
      m.elements.length = m.rows_number →
      m.swap_rows r1 r2 = .ok m' →
      ∀ r' c', m'.ent r' c' =
        m.ent (if r' = r2 then r1 else if r' = r1 then r2 else r') c') := by
  refine ⟨?_, ?_, ?_, ?_⟩
  · intro m row col v m' hlen hrow hval hden hset
    obtain ⟨hr, hc⟩ := fm_set_bounds hset
    rcases fm_set_full v hr hc hlen hrow with
      ⟨m2, hok, _, _, _, _, _, hwrit⟩
    have hm : m' = m2 := by
      have := hset.symm.trans hok
      injection this
    rw [hm, hwrit]
    exact fwrite_negZero_false hval hden
  · intro m row s m' hlen hrow hent hsden hsc c hc
    unfold FMatrix.scale_row at hsc
    cases hgr : m.get_row row with
    | error e =>
      rw [hgr, resBind_error] at hsc
      cases hsc
    | ok rw_ =>
      rw [hgr, resBind_ok] at hsc
      obtain ⟨hr, hc0, hrw⟩ := fm_get_row_ok hgr
      have hrwlen : rw_.length = m.cols_number := by
        rw [hrw]
        exact hrow row hr
      rcases fm_set_row_spec hr hc0 hlen hrow
          (w := rw_.map fun x => x.mul s)
          (by rw [List.length_map]; exact hrwlen) with
        ⟨m2, hok, _, _, hmid⟩
      have hm : m' = m2 := by
        have := hsc.symm.trans hok
        injection this
      subst hm
      rw [hmid c hc, List_getD_map_gen _ _ _ _ F64.zero (by omega)]
      have hev : rw_.getD c F64.zero = m.ent row c := by
        rw [hrw]
        rfl
      rw [hev]
      exact fwrite_negZero_false
        (fmul_valid (m.ent row c) s)
        (fmul_den (hent row hr c hc).2 hsden)
  · intro m frm tgt s m' hlen hrow hent hsden hadd c hc
    unfold FMatrix.add_scaled_row_from_to at hadd
    cases hgf : m.get_row frm with
    | error e =>
      rw [hgf, resBind_error] at hadd
      cases hadd
    | ok rowf =>
      rw [hgf, resBind_ok] at hadd
      cases hgt : m.get_row tgt with
      | error e =>
        rw [hgt, resBind_error] at hadd
        cases hadd
      | ok rowt =>
        rw [hgt, resBind_ok] at hadd
        obtain ⟨hfr, hc0, hrwf⟩ := fm_get_row_ok hgf
        obtain ⟨htr, _, hrwt⟩ := fm_get_row_ok hgt
        have hflen : rowf.length = m.cols_number := by
          rw [hrwf]
          exact hrow frm hfr
        have htlen : rowt.length = m.cols_number := by
          rw [hrwt]
          exact hrow tgt htr
        rcases fm_set_row_spec htr hc0 hlen hrow
            (w := (rowt.zip (rowf.map fun x => x.mul s)).map fun p => p.1.add p.2)
            (by
              rw [List.length_map, List.length_zip, List.length_map, hflen, htlen]
              omega) with
          ⟨m2, hok, _, _, hmid⟩
        have hm : m' = m2 := by
          have := hadd.symm.trans hok
          injection this
        subst hm
        rw [hmid c hc, List_getD_zipmap F64.add F64.zero rowt _ c (by omega)
          (by rw [List.length_map]; omega)]
        rw [List_getD_map_gen _ _ _ _ F64.zero (by omega)]
        have hevt : rowt.getD c F64.zero = m.ent tgt c := by
          rw [hrwt]
          rfl
        have hevf : rowf.getD c F64.zero = m.ent frm c := by
          rw [hrwf]
          rfl
        rw [hevt, hevf]
        exact fwrite_negZero_false
          (fadd_valid (hent tgt htr c hc).1 (fmul_valid (m.ent frm c) s))
          (fadd_den (hent tgt htr c hc).2 (fmul_den (hent frm hfr c hc).2 hsden))
  · intro m r1 r2 m' hlen hswap r' c'
    obtain ⟨h1, h2, hm⟩ := fm_swap_bounds hswap
    have hl1 : r1 < m.elements.length := by omega
    have hl2 : r2 < m.elements.length := by omega
    subst hm
    show (((m.elements.set r1 (m.elements.getD r2 [])).set r2
        (m.elements.getD r1 [])).getD r' []).getD c' F64.zero = _
    by_cases hr2 : r' = r2
    · subst hr2
      rw [if_pos rfl, List_getD_set_self _ _ _ _ (by rw [List_length_set]; omega)]
      rfl
    · rw [List_getD_set_ne _ _ _ _ _ (fun he => hr2 he.symm), if_neg hr2]
      by_cases hr1 : r' = r1
      · subst hr1
        rw [if_pos rfl, List_getD_set_self _ _ _ _ hl1]
        rfl
      · rw [List_getD_set_ne _ _ _ _ _ (fun he => hr1 he.symm), if_neg hr1]
        rfl

/-- C8, witness for the amended claim at concrete inputs: writing `-0.0`
into `[[1.0]]` stores a value that is not negative zero; scaling the row
of `[[1.0]]` by 2 and adding twice row 0 to row 1 of `[[1.0],[1.0]]`
write no negative zeros; swapping the rows of `[[-0.0],[1.0]]` moves the
entries unchanged. -/
theorem claim_C8_amended_witness :
    ((⟨1, 1, [[⟨Fr.one, false⟩]]⟩ : FMatrix).set 0 0 ⟨Fr.zero, true⟩ =
      .ok ⟨1, 1, [[⟨Fr.zero, false⟩]]⟩) ∧
    (((⟨1, 1, [[⟨Fr.zero, false⟩]]⟩ : FMatrix).ent 0 0).negZero = false) ∧
    ((⟨1, 1, [[⟨Fr.one, false⟩]]⟩ : FMatrix).scale_row 0 ⟨⟨2, 1⟩, false⟩ =
      .ok ⟨1, 1, [[⟨⟨2, 1⟩, false⟩]]⟩) ∧
    (∀ c, c < (⟨1, 1, [[⟨Fr.one, false⟩]]⟩ : FMatrix).cols_number →
      (((⟨1, 1, [[⟨⟨2, 1⟩, false⟩]]⟩ : FMatrix)).ent 0 c).negZero = false) ∧
    ((⟨1, 2, [[⟨Fr.one, false⟩], [⟨Fr.one, false⟩]]⟩ : FMatrix).add_scaled_row_from_to 0 1
        ⟨⟨2, 1⟩, false⟩ =
      .ok ⟨1, 2, [[⟨Fr.one, false⟩], [⟨⟨3, 1⟩, false⟩]]⟩) ∧
    (∀ c, c < (⟨1, 2, [[⟨Fr.one, false⟩], [⟨Fr.one, false⟩]]⟩ : FMatrix).cols_number →
      (((⟨1, 2, [[⟨Fr.one, false⟩], [⟨⟨3, 1⟩, false⟩]]⟩ : FMatrix)).ent 1 c).negZero = false) ∧
    ((⟨1, 2, [[⟨Fr.zero, true⟩], [⟨Fr.one, false⟩]]⟩ : FMatrix).swap_rows 0 1 =
      .ok ⟨1, 2, [[⟨Fr.one, false⟩], [⟨Fr.zero, true⟩]]⟩) ∧
    (∀ r' c', ((⟨1, 2, [[⟨Fr.one, false⟩], [⟨Fr.zero, true⟩]]⟩ : FMatrix).ent r' c') =
      (⟨1, 2, [[⟨Fr.zero, true⟩], [⟨Fr.one, false⟩]]⟩ : FMatrix).ent
        (if r' = 1 then 0 else if r' = 0 then 1 else r') c') :=
  ⟨by decide,
   claim_C8_amended.1 ⟨1, 1, [[⟨Fr.one, false⟩]]⟩ 0 0 ⟨Fr.zero, true⟩
     ⟨1, 1, [[⟨Fr.zero, false⟩]]⟩ (by decide) (by decide) (by decide) (by decide) (by decide),
   by decide,
   claim_C8_amended.2.1 ⟨1, 1, [[⟨Fr.one, false⟩]]⟩ 0 ⟨⟨2, 1⟩, false⟩
     ⟨1, 1, [[⟨⟨2, 1⟩, false⟩]]⟩ (by decide) (by decide) (by decide) (by decide) (by decide),
   by decide,
   claim_C8_amended.2.2.1 ⟨1, 2, [[⟨Fr.one, false⟩], [⟨Fr.one, false⟩]]⟩ 0 1 ⟨⟨2, 1⟩, false⟩
     ⟨1, 2, [[⟨Fr.one, false⟩], [⟨⟨3, 1⟩, false⟩]]⟩ (by decide) (by decide) (by decide)
     (by decide) (by decide),
   by decide,
   claim_C8_amended.2.2.2 ⟨1, 2, [[⟨Fr.zero, true⟩], [⟨Fr.one, false⟩]]⟩ 0 1
     ⟨1, 2, [[⟨Fr.one, false⟩], [⟨Fr.zero, true⟩]]⟩ (by decide) (by decide)⟩

end RustMatrix

/-! ### The LU decomposition loop -/

namespace RustMatrix

theorem List_nodup_range' (s n : Nat) : (List.range' s n).Nodup := by
  induction n generalizing s with
  | zero => exact List.nodup_nil
  | succ t ih =>
    rw [List.range']
    exact List.nodup_cons.mpr
      ⟨fun hmem => by have := List_mem_range' hmem; omega, ih (s + 1)⟩

theorem pivotLoop_spec {mtx : Matrix} {m n : Nat} (hS : Matrix.Shape mtx m n) :
    ∀ (fuel i j : Nat) (p : Matrix), Matrix.Shape p m m → Matrix.EntPos p → 0 < m →
    ∃ p', Matrix.pivotLoop mtx m n fuel i j p = .ok p' ∧
      Matrix.Shape p' m m ∧ Matrix.EntPos p' := by
  intro fuel
  induction fuel with
  | zero =>
    intro i j p hSp hEp _
    exact ⟨p, rfl, hSp, hEp⟩
  | succ fuel ih =>
    intro i j p hSp hEp hm
    by_cases hguard : i < m ∧ j < n
    · rcases pivotScan_ok hS hguard.1 hguard.2 with ⟨mx, hscan, hmx⟩
      by_cases hmxi : mx ≠ i
      · rcases Matrix.swap_rows_spec hSp hEp hguard.1 hmx hm with ⟨p2, hsw, hSp2, hEp2, _⟩
        rcases ih (i + 1) (j + 1) p2 hSp2 hEp2 hm with ⟨p', hrec, hSp', hEp'⟩
        refine ⟨p', ?_, hSp', hEp'⟩
        rw [Matrix.pivotLoop, if_pos hguard]
        simp only [hscan, resBind_ok, if_pos hmxi, hsw]
        exact hrec
      · rcases ih (i + 1) (j + 1) p hSp hEp hm with ⟨p', hrec, hSp', hEp'⟩
        refine ⟨p', ?_, hSp', hEp'⟩
        rw [Matrix.pivotLoop, if_pos hguard]
        simp only [hscan, resBind_ok, hmxi, if_false]
        exact hrec
    · refine ⟨p, ?_, hSp, hEp⟩
      rw [Matrix.pivotLoop, if_neg hguard]

theorem pivot_spec {mtx : Matrix} (hA : mtx.WF) :
    ∃ p, mtx._pivot = .ok p ∧
      Matrix.Shape p mtx.rows_number mtx.rows_number ∧ Matrix.EntPos p := by
  rcases Matrix.identity_spec mtx.rows_number hA.2.1 with ⟨idm, hok, hSid, hEid, _⟩
  rcases pivotLoop_spec (Matrix.wf_shape hA) mtx.cols_number 0 0 idm hSid hEid hA.2.1 with
    ⟨p, hloop, hSp, hEp⟩
  refine ⟨p, ?_, hSp, hEp⟩
  unfold Matrix._pivot
  rw [hok, resBind_ok]
  exact hloop

theorem lupFold_spec {m n i j : Nat} {pivot : MatrixElement}
    (him : i < m) (hjn : j < n)
    (hpz : pivot.is_zero = false) (hpP : pivot.data.Pos) :
    ∀ (ks : List Nat) (l u : Matrix) (clean : Bool),
    (∀ k ∈ ks, i < k ∧ k < m) → ks.Nodup →
    Matrix.Shape l m m → Matrix.EntPos l → Matrix.Shape u m n → Matrix.EntPos u →
    (∀ c, i < c → c < m → ∀ r, r < m → (l.ent r c).val = if r = c then 1 else 0) →
    (∀ r, r < m → (l.ent r r).val = 1) →
    (∀ r c, r < c → c < m → (l.ent r c).val = 0) →
    (∀ k ∈ ks, (l.ent k i).val = 0) →
    ∃ l2 u2 cl, ks.foldlM
        (fun st k => do
          let (l, u, clean) := st
          let a ← u.get k j
          let factor ← a.div pivot
          let clean := clean
            && (decide (factor.data.num = 0) || !factor.is_zero)
            && cleanVals (rowCombine (u.elements.getD k []) (u.elements.getD i [])
                factor.negate)
          let l ← l.set k i factor
          let u ← u.add_scaled_row_from_to i k factor.negate
          .ok (l, u, clean))
        (l, u, clean) = .ok (l2, u2, cl) ∧
      Matrix.Shape l2 m m ∧ Matrix.EntPos l2 ∧ Matrix.Shape u2 m n ∧ Matrix.EntPos u2 ∧
      (cl = true → clean = true) ∧
      (cl = true → toQM m m l2 * toQM m n u2 = toQM m m l * toQM m n u) ∧
      (∀ c, i < c → c < m → ∀ r, r < m → (l2.ent r c).val = if r = c then 1 else 0) ∧
      (∀ r, r < m → (l2.ent r r).val = 1) ∧
      (∀ r c, r < c → c < m → (l2.ent r c).val = 0) ∧
      (∀ r c', r ∉ ks → u2.ent r c' = u.ent r c') ∧
      (∀ k ∈ ks, ∀ c, c < n →
        (u.ent k c).val + (u.ent i c).val * (-((u.ent k j).val / pivot.val)) = 0 →
        (u2.ent k c).val = 0) := by
  intro ks
  induction ks with
  | nil =>
    intro l u clean _ _ hSl hEl hSu hEu hcols hdiag hup _
    exact ⟨l, u, clean, rfl, hSl, hEl, hSu, hEu, fun h => h, fun _ => rfl,
      hcols, hdiag, hup, fun _ _ _ => rfl, fun k hk => absurd hk (List.not_mem_nil k)⟩
  | cons k rest ih =>
    intro l u clean hks hnd hSl hEl hSu hEu hcols hdiag hup hcolz
    obtain ⟨hik, hkm⟩ := hks k (List.mem_cons_self ..)
    have hkni : k ∉ rest := (List.nodup_cons.mp hnd).1
    have hnd' : rest.Nodup := (List.nodup_cons.mp hnd).2
    have hrest : ∀ x ∈ rest, i < x ∧ x < m := fun x hx => hks x (List.mem_cons_of_mem k hx)
    have haP : (u.ent k j).data.Pos := hEu k j
    obtain ⟨hfval, hfP⟩ := MatrixElement.div_val haP hpP hpz
    have hnegP : ((⟨(u.ent k j).data.divFr pivot.data⟩ : MatrixElement).negate).data.Pos :=
      MatrixElement.pos_negate hfP
    rcases Matrix.set_spec (v := (⟨(u.ent k j).data.divFr pivot.data⟩ : MatrixElement))
        hSl hEl hkm him hfP with ⟨l1, hokl, hSl1, hEl1, hchl⟩
    rcases Matrix.add_scaled_spec (s :=
        (⟨(u.ent k j).data.divFr pivot.data⟩ : MatrixElement).negate)
        hSu hEu him hkm (by omega) hnegP with ⟨u1, hoku, hSu1, hEu1, hunchu, hmidu⟩
    have hcols1 : ∀ c, i < c → c < m → ∀ r, r < m → (l1.ent r c).val = if r = c then 1 else 0 := by
      intro c hic hcm r hrm
      rw [hchl r c, if_neg (fun hp => by omega)]
      exact hcols c hic hcm r hrm
    have hdiag1 : ∀ r, r < m → (l1.ent r r).val = 1 := by
      intro r hrm
      rw [hchl r r, if_neg (fun hp => by omega)]
      exact hdiag r hrm
    have hup1 : ∀ r c, r < c → c < m → (l1.ent r c).val = 0 := by
      intro r c hrc hcm
      rw [hchl r c, if_neg (fun hp => by omega)]
      exact hup r c hrc hcm
    have hcolz1 : ∀ x ∈ rest, (l1.ent x i).val = 0 := by
      intro x hx
      rw [hchl x i, if_neg (fun hp => hkni (by rw [← hp.1]; exact hx))]
      exact hcolz x (List.mem_cons_of_mem k hx)
    rcases ih l1 u1
        (clean &&
          (decide ((⟨(u.ent k j).data.divFr pivot.data⟩ : MatrixElement).data.num = 0) ||
            !(⟨(u.ent k j).data.divFr pivot.data⟩ : MatrixElement).is_zero) &&
          cleanVals (rowCombine (u.elements.getD k []) (u.elements.getD i [])
            (⟨(u.ent k j).data.divFr pivot.data⟩ : MatrixElement).negate))
        hrest hnd' hSl1 hEl1 hSu1 hEu1 hcols1 hdiag1 hup1 hcolz1 with
      ⟨l2, u2, cl, hfold, hSl2, hEl2, hSu2, hEu2, hmono, hprod, hcols2, hdiag2, hup2,
        hunch2, hzero2⟩
    refine ⟨l2, u2, cl, ?_, hSl2, hEl2, hSu2, hEu2, ?_, ?_, hcols2, hdiag2, hup2, ?_, ?_⟩
    · rw [List.foldlM_cons]
      try dsimp only
      rw [Matrix.get_ok hSu hkm hjn, resBind_ok]
      try dsimp only
      rw [MatrixElement.div_ok hpz, resBind_ok]
      try dsimp only
      rw [hokl, resBind_ok]
      try dsimp only
      rw [hoku, resBind_ok]
      exact hfold
    · intro hcl
      have := hmono hcl
      rcases Bool.and_eq_true_iff.mp this with ⟨h1, _⟩
      rcases Bool.and_eq_true_iff.mp h1 with ⟨h2, _⟩
      exact h2
    · intro hcl
      have hcleans := hmono hcl
      rcases Bool.and_eq_true_iff.mp hcleans with ⟨h1, hc2⟩
      rcases Bool.and_eq_true_iff.mp h1 with ⟨_, hc1⟩
      have hfcl : (⟨(u.ent k j).data.divFr pivot.data⟩ : MatrixElement).data.num = 0 ∨
          (⟨(u.ent k j).data.divFr pivot.data⟩ : MatrixElement).is_zero = false := by
        rcases Bool.or_eq_true_iff.mp hc1 with h | h
        · exact Or.inl (of_decide_eq_true h)
        · right
          simpa using h
      have hQl1 : toQM m m l1 = (toQM m m l).updateRow ⟨k, hkm⟩
          (Function.update (toQM m m l ⟨k, hkm⟩) ⟨i, him⟩
            (⟨(u.ent k j).data.divFr pivot.data⟩ : MatrixElement).val) :=
        toQM_set_char ⟨k, hkm⟩ ⟨i, him⟩ hfP hfcl hchl
      have hQu1 : toQM m n u1 = (toQM m n u).updateRow ⟨k, hkm⟩
          (toQM m n u ⟨k, hkm⟩ +
            ((⟨(u.ent k j).data.divFr pivot.data⟩ : MatrixElement).negate).val •
              toQM m n u ⟨i, him⟩) :=
        toQM_add_char ⟨k, hkm⟩ ⟨i, him⟩ hSu hEu hnegP hunchu hmidu hc2
      rw [hprod hcl, hQl1, hQu1, MatrixElement.val_negate
        (a := (⟨(u.ent k j).data.divFr pivot.data⟩ : MatrixElement)) hfP]
      exact lu_step (toQM m m l) (toQM m n u) ⟨k, hkm⟩ ⟨i, him⟩
        (⟨(u.ent k j).data.divFr pivot.data⟩ : MatrixElement).val
        (fun he => by
          have : k = i := congrArg Fin.val he
          omega)
        (fun r => by
          have := hcols k hik hkm r r.isLt
          show (l.ent (r : Nat) k).val = _
          rw [this]
          exact if_congr (by rw [Fin.ext_iff]) rfl rfl)
        (by
          show (l.ent k i).val = 0
          exact hcolz k (List.mem_cons_self ..))
    · intro r c' hr
      have hrk : r ≠ k := fun he => hr (by rw [he]; exact List.mem_cons_self ..)
      have hrrest : r ∉ rest := fun he => hr (List.mem_cons_of_mem k he)
      rw [hunch2 r c' hrrest, hunchu r c' hrk]
    · intro x hx c hc hvz
      rcases List.mem_cons.mp hx with hxk | hxrest
      · subst hxk
        rw [hunch2 x c hkni, hmidu c hc]
        apply clampWrite_val_zero
          (MatrixElement.pos_add (hEu x c) (MatrixElement.pos_mul (hEu i c) hnegP))
        rw [MatrixElement.val_add (hEu x c) (MatrixElement.pos_mul (hEu i c) hnegP),
          MatrixElement.val_mul (hEu i c) hnegP, MatrixElement.val_negate
            (a := (⟨(u.ent x j).data.divFr pivot.data⟩ : MatrixElement)) hfP, hfval]
        exact hvz
      · have hxk : x ≠ k := fun he => hkni (he ▸ hxrest)
        have hxi : x ≠ i := by
          have := hrest x hxrest
          omega
        apply hzero2 x hxrest c hc
        rw [hunchu x c hxk, hunchu i c (by omega)]
        have hjx : u1.ent x j = u.ent x j := hunchu x j hxk
        rw [hjx]
        exact hvz

end RustMatrix

namespace RustMatrix

theorem lupLoop_spec {m n : Nat} (hm : 0 < m) (hn : 0 < n) :
    ∀ (fuel i j : Nat) (l u : Matrix) (clean noskip : Bool),
    i ≤ j → n ≤ j + fuel →
    Matrix.Shape l m m → Matrix.EntPos l → Matrix.Shape u m n → Matrix.EntPos u →
    (∀ c, i ≤ c → c < m → ∀ r, r < m → (l.ent r c).val = if r = c then 1 else 0) →
    (∀ r, r < m → (l.ent r r).val = 1) →
    (∀ r c, r < c → c < m → (l.ent r c).val = 0) →
    (noskip = true → (i = j ∧ ∀ c, c < i → ∀ r, c < r → r < m → (u.ent r c).val = 0)) →
    ∃ l2 u2 cl ns, Matrix.lupLoop m n fuel i j l u clean noskip = .ok (l2, u2, cl, ns) ∧
      Matrix.Shape l2 m m ∧ Matrix.EntPos l2 ∧ Matrix.Shape u2 m n ∧ Matrix.EntPos u2 ∧
      (cl = true → clean = true) ∧
      (cl = true → toQM m m l2 * toQM m n u2 = toQM m m l * toQM m n u) ∧
      (∀ r, r < m → (l2.ent r r).val = 1) ∧
      (∀ r c, r < c → c < m → (l2.ent r c).val = 0) ∧
      (ns = true → noskip = true) ∧
      (ns = true → ∀ r c, c < r → r < m → c < n → (u2.ent r c).val = 0) := by
  intro fuel
  induction fuel with
  | zero =>
    intro i j l u clean noskip hij hfuel hSl hEl hSu hEu hcols hdiag hup hns
    refine ⟨l, u, clean, noskip, rfl, hSl, hEl, hSu, hEu, fun h => h, fun _ => rfl,
      hdiag, hup, fun h => h, ?_⟩
    intro hnse r c hcr hrm hcn
    obtain ⟨hijeq, hz⟩ := hns hnse
    exact hz c (by omega) r hcr hrm
  | succ fuel ih =>
    intro i j l u clean noskip hij hfuel hSl hEl hSu hEu hcols hdiag hup hns
    by_cases hguard : i < m ∧ j < n
    · obtain ⟨him, hjn⟩ := hguard
      by_cases hz : (u.ent i j).is_zero = true
      · rcases ih i (j + 1) l u clean false (by omega) (by omega)
            hSl hEl hSu hEu hcols hdiag hup (fun h => by cases h) with
          ⟨l2, u2, cl, ns, hrec, hSl2, hEl2, hSu2, hEu2, hmono, hprod, hdiag2, hup2,
            hnsmono, hnszero⟩
        refine ⟨l2, u2, cl, ns, ?_, hSl2, hEl2, hSu2, hEu2, hmono, hprod, hdiag2, hup2,
          ?_, hnszero⟩
        · rw [Matrix.lupLoop, if_pos ⟨him, hjn⟩]
          simp only [Matrix.get_ok hSu him hjn, resBind_ok, hz, if_true]
          exact hrec
        · intro hnse
          exact absurd (hnsmono hnse) (by simp)
      · replace hz : (u.ent i j).is_zero = false := by
          cases h : (u.ent i j).is_zero
          · rfl
          · exact absurd h hz
        have hks : ∀ k ∈ List.range' (i + 1) (m - (i + 1)), i < k ∧ k < m :=
          fun k hk => by have := List_mem_range' hk; omega
        rcases lupFold_spec him hjn hz (hEu i j)
            (List.range' (i + 1) (m - (i + 1))) l u clean hks
            (List_nodup_range' ..) hSl hEl hSu hEu
            (fun c hic hcm r hrm => hcols c (by omega) hcm r hrm)
            hdiag hup
            (fun k hk => by
              have hkb := hks k hk
              have := hcols i (by omega) him k hkb.2
              rw [this, if_neg (by omega)]) with
          ⟨l1, u1, cl1, hfold, hSl1, hEl1, hSu1, hEu1, hmono1, hprod1, hcols1, hdiag1,
            hup1, hunch1, hzero1⟩
        rcases ih (i + 1) (j + 1) l1 u1 cl1 noskip (by omega) (by omega)
            hSl1 hEl1 hSu1 hEu1
            (fun c hic hcm r hrm => hcols1 c (by omega) hcm r hrm)
            hdiag1 hup1
            (fun hnse => by
              obtain ⟨hijeq, hzlow⟩ := hns hnse
              subst hijeq
              refine ⟨rfl, ?_⟩
              intro c hc r hcr hrm
              by_cases hrk : r ∈ List.range' (i + 1) (m - (i + 1))
              · by_cases hci : c < i
                · apply hzero1 r hrk c (by omega)
                  have h1 : (u.ent r c).val = 0 := hzlow c hci r hcr hrm
                  have h2 : (u.ent i c).val = 0 := hzlow c hci i hci him
                  rw [h1, h2]
                  ring
                · have hceq : c = i := by omega
                  subst hceq
                  apply hzero1 r hrk c (by omega)
                  have hpv : (u.ent c c).val ≠ 0 :=
                    MatrixElement.val_ne_zero_of_not_is_zero (hEu c c) hz
                  field_simp
                  try ring
              · rw [hunch1 r c hrk]
                have hci : c < i := by
                  by_cases hgt : i < r
                  · exact absurd (List.mem_range'_1.mpr (by omega)) hrk
                  · omega
                exact hzlow c hci r hcr hrm) with
          ⟨l2, u2, cl, ns, hrec, hSl2, hEl2, hSu2, hEu2, hmono, hprod, hdiag2, hup2,
            hnsmono, hnszero⟩
        refine ⟨l2, u2, cl, ns, ?_, hSl2, hEl2, hSu2, hEu2,
          fun hcl => hmono1 (hmono hcl), ?_, hdiag2, hup2, hnsmono, hnszero⟩
        · rw [Matrix.lupLoop, if_pos ⟨him, hjn⟩]
          simp only [Matrix.get_ok hSu him hjn, resBind_ok, hz, Bool.false_eq_true,
            if_false, hfold]
          exact hrec
        · intro hcl
          rw [hprod hcl, hprod1 (hmono hcl)]
    · refine ⟨l, u, clean, noskip, ?_, hSl, hEl, hSu, hEu, fun h => h, fun _ => rfl,
        hdiag, hup, fun h => h, ?_⟩
      · rw [Matrix.lupLoop, if_neg hguard]
      · intro hnse r c hcr hrm hcn
        obtain ⟨hijeq, hzlow⟩ := hns hnse
        have : ¬(i < m ∧ j < n) := hguard
        by_cases hci : c < i
        · exact hzlow c hci r hcr hrm
        · exfalso
          omega

end RustMatrix

namespace RustMatrix

theorem lupG_spec {A : Matrix} (hA : A.WF) :
    ∃ l u p cl ns u0,
      A.lupG = .ok (l, u, p, cl, ns) ∧
      A.lup_decomposition = .ok (l, u, p) ∧
      p.multiply A = .ok u0 ∧
      Matrix.Shape u0 A.rows_number A.cols_number ∧ Matrix.EntPos u0 ∧
      Matrix.Shape l A.rows_number A.rows_number ∧ Matrix.EntPos l ∧
      Matrix.Shape u A.rows_number A.cols_number ∧ Matrix.EntPos u ∧
      (cl = true → toQM A.rows_number A.cols_number u0 =
        toQM A.rows_number A.rows_number l * toQM A.rows_number A.cols_number u) ∧
      (∀ r, r < A.rows_number → (l.ent r r).val = 1) ∧
      (∀ r c, r < c → c < A.rows_number → (l.ent r c).val = 0) ∧
      (ns = true → ∀ r c, c < r → r < A.rows_number → c < A.cols_number →
        (u.ent r c).val = 0) := by
  have hm : 1 ≤ A.rows_number := hA.2.1
  have hn : 1 ≤ A.cols_number := hA.2.2.1
  rcases pivot_spec hA with ⟨p, hpiv, hSp, hEp⟩
  rcases Matrix.identity_spec A.rows_number hm with ⟨l0, hidm, hSl0, hEl0, hch⟩
  rcases Matrix.multiply_spec hSp hEp (Matrix.wf_shape hA) (Matrix.wf_entPos hA)
      hm hm hn with ⟨u0, hmul, hSu0, hEu0, hchu0⟩
  have hcols0 : ∀ c, 0 ≤ c → c < A.rows_number → ∀ r, r < A.rows_number →
      (l0.ent r c).val = if r = c then 1 else 0 := by
    intro c _ hcm r hrm
    rw [hch r c]
    by_cases hrc : r = c
    · rw [if_pos ⟨hrc, by omega⟩, if_pos hrc]
      exact MatrixElement.val_one
    · rw [if_neg (fun hp => hrc hp.1), if_neg hrc]
      exact MatrixElement.val_zero
  rcases lupLoop_spec (by omega) (by omega) A.cols_number 0 0 l0 u0 true true
      (by omega) (by omega) hSl0 hEl0 hSu0 hEu0
      (fun c hc hcm r hrm => hcols0 c hc hcm r hrm)
      (fun r hrm => by rw [hcols0 r (by omega) hrm r hrm, if_pos rfl])
      (fun r c hrc hcm => by rw [hcols0 c (by omega) hcm r (by omega), if_neg (by omega)])
      (fun _ => ⟨rfl, fun c hc => by omega⟩) with
    ⟨l2, u2, cl, ns, hloop, hSl2, hEl2, hSu2, hEu2, _, hprod, hdiag2, hup2, _, hnszero⟩
  have hlupG : A.lupG = .ok (l2, u2, p, cl, ns) := by
    unfold Matrix.lupG
    rw [hpiv, resBind_ok, hidm, resBind_ok, hmul]
    simp only [unwrapR, resBind_ok, hloop]
  refine ⟨l2, u2, p, cl, ns, u0, hlupG, ?_, hmul, hSu0, hEu0, hSl2, hEl2, hSu2, hEu2,
    ?_, hdiag2, hup2, hnszero⟩
  · unfold Matrix.lup_decomposition
    rw [hlupG, resBind_ok]
  · intro hcl
    rw [hprod hcl, toQM_identity hch, Matrix.one_mul]

/-- C1, amended: `lup_decomposition` succeeds on every well-formed
matrix, and whenever the ghost run records that no written value
(factor or row entry) was clamped by the write guard of set.rs, the
products `P*A` and `L*U` agree entrywise exactly — hence are
epsilon-equal. -/
theorem claim_C1_amended : ∀ A : Matrix, A.WF →
    ∃ l u p clean noskip pa lu2,
      A.lupG = .ok (l, u, p, clean, noskip) ∧
      A.lup_decomposition = .ok (l, u, p) ∧
      p.multiply A = .ok pa ∧
      l.multiply u = .ok lu2 ∧
      (clean = true →
        (∀ r c, (pa.ent r c).val = (lu2.ent r c).val) ∧
        pa.epsilon_equals lu2 = true) := by
  intro A hA
  have hm : 1 ≤ A.rows_number := hA.2.1
  have hn : 1 ≤ A.cols_number := hA.2.2.1
  rcases lupG_spec hA with
    ⟨l, u, p, cl, ns, u0, hlupG, hdecomp, hmul, hSu0, hEu0, hSl, hEl, hSu, hEu,
      hprod, _, _, _⟩
  rcases Matrix.multiply_spec hSl hEl hSu hEu hm hm hn with
    ⟨lu2, hmul2, hSlu2, hElu2, hchlu2⟩
  refine ⟨l, u, p, cl, ns, u0, lu2, hlupG, hdecomp, hmul, hmul2, ?_⟩
  intro hcl
  have hQ : toQM A.rows_number A.cols_number u0 =
      toQM A.rows_number A.cols_number lu2 := by
    rw [multiply_toQM hchlu2]
    exact hprod hcl
  have hvals_in : ∀ r c, r < A.rows_number → c < A.cols_number →
      (u0.ent r c).val = (lu2.ent r c).val := by
    intro r c hr hc
    exact congrFun (congrFun hQ (⟨r, hr⟩ : Fin A.rows_number)) ⟨c, hc⟩
  exact ⟨valEq_of_inrange hSu0 hSlu2 hvals_in,
    epsilon_equals_of_val_eq_mat hSu0 hSlu2 hEu0 hElu2 hvals_in⟩

/-- C1, witness for the amended claim at `[[2,1],[4,3]]`, a well-formed
input. -/
theorem claim_C1_amended_witness :
    witC1.WF ∧
    (∃ l u p clean noskip pa lu2,
      witC1.lupG = .ok (l, u, p, clean, noskip) ∧
      witC1.lup_decomposition = .ok (l, u, p) ∧
      p.multiply witC1 = .ok pa ∧
      l.multiply u = .ok lu2 ∧
      (clean = true →
        (∀ r c, (pa.ent r c).val = (lu2.ent r c).val) ∧
        pa.epsilon_equals lu2 = true)) :=
  ⟨by decide, claim_C1_amended witC1 (by decide)⟩

/-- C2, amended: with `(L, U, P) = lup_decomposition(A)` for well-formed
`A`, the factor `L` always has value one on the diagonal and value zero
strictly above it; and whenever the ghost run records that no column was
skipped over an epsilon-zero pivot, every entry of `U` strictly below
the diagonal has value exactly zero, hence is epsilon-zero. -/
theorem claim_C2_amended : ∀ A : Matrix, A.WF →
    ∃ l u p clean noskip,
      A.lupG = .ok (l, u, p, clean, noskip) ∧
      A.lup_decomposition = .ok (l, u, p) ∧
      (∀ r, r < A.rows_number → (l.ent r r).val = 1) ∧
      (∀ r c, r < c → c < A.rows_number → (l.ent r c).val = 0) ∧
      (noskip = true → ∀ r c, c < r → r < A.rows_number → c < A.cols_number →
        (u.ent r c).val = 0 ∧ (u.ent r c).is_zero = true) := by
  intro A hA
  rcases lupG_spec hA with
    ⟨l, u, p, cl, ns, u0, hlupG, hdecomp, _, _, _, _, _, _, hEu, _, hdiag, hup, hnszero⟩
  refine ⟨l, u, p, cl, ns, hlupG, hdecomp, hdiag, hup, ?_⟩
  intro hns r c hcr hrm hcn
  have hz := hnszero hns r c hcr hrm hcn
  refine ⟨hz, ?_⟩
  rw [MatrixElement.is_zero_iff (hEu r c), hz]
  simpa using EPSQ_pos

/-- C2, witness for the amended claim at `[[2,1],[4,3]]`. -/
theorem claim_C2_amended_witness :
    witC1.WF ∧
    (∃ l u p clean noskip,
      witC1.lupG = .ok (l, u, p, clean, noskip) ∧
      witC1.lup_decomposition = .ok (l, u, p) ∧
      (∀ r, r < witC1.rows_number → (l.ent r r).val = 1) ∧
      (∀ r c, r < c → c < witC1.rows_number → (l.ent r c).val = 0) ∧
      (noskip = true → ∀ r c, c < r → r < witC1.rows_number → c < witC1.cols_number →
        (u.ent r c).val = 0 ∧ (u.ent r c).is_zero = true)) :=
  ⟨by decide, claim_C2_amended witC1 (by decide)⟩

end RustMatrix

/-! ### Strict reduced-row-echelon shape: extraction lemmas -/

namespace RustMatrix

theorem findIdxAux_some {α : Type} (p : α → Bool) (d : α) :
    ∀ (l : List α) (s j : Nat), List.findIdx? p l s = some j →
      s ≤ j ∧ j - s < l.length ∧ p (l.getD (j - s) d) = true ∧
      ∀ c, c < j - s → p (l.getD c d) = false := by
  intro l
  induction l with
  | nil =>
    intro s j h
    rw [List.findIdx?_nil] at h
    cases h
  | cons x xs ih =>
    intro s j h
    rw [List.findIdx?_cons] at h
    by_cases hp : p x = true
    · rw [if_pos hp] at h
      have hj : s = j := by injection h
      subst hj
      refine ⟨le_refl s, ?_, ?_, ?_⟩
      · simp
      · simpa using hp
      · intro c hc
        omega
    · rw [if_neg hp] at h
      obtain ⟨hsj, hlt, hpt, hbefore⟩ := ih (s + 1) j h
      have hge : 1 ≤ j - s := by omega
      refine ⟨by omega, ?_, ?_, ?_⟩
      · simp only [List.length_cons]
        omega
      · have : j - s = (j - (s + 1)) + 1 := by omega
        rw [this]
        simpa using hpt
      · intro c hc
        cases c with
        | zero => simpa using hp
        | succ c' =>
          have : c' < j - (s + 1) := by omega
          simpa using hbefore c' this

theorem findIdxAux_none {α : Type} (p : α → Bool) (d : α) :
    ∀ (l : List α) (s : Nat), List.findIdx? p l s = none →
      ∀ c, c < l.length → p (l.getD c d) = false := by
  intro l
  induction l with
  | nil =>
    intro s _ c hc
    simp at hc
  | cons x xs ih =>
    intro s h c hc
    rw [List.findIdx?_cons] at h
    by_cases hp : p x = true
    · rw [if_pos hp] at h
      cases h
    · rw [if_neg hp] at h
      cases c with
      | zero => simpa using hp
      | succ c' =>
        have : c' < xs.length := by simpa using hc
        simpa using ih (s + 1) h c' this

theorem leadIdx_some {row : List MatrixElement} {j : Nat}
    (h : leadIdx row = some j) :
    j < row.length ∧ (row.getD j MatrixElement.zero).is_zero = false ∧
    ∀ c, c < j → (row.getD c MatrixElement.zero).is_zero = true := by
  unfold leadIdx at h
  obtain ⟨_, hlt, hpt, hbefore⟩ :=
    findIdxAux_some (fun e => !e.is_zero) MatrixElement.zero row 0 j h
  simp only [Nat.sub_zero] at hlt hpt hbefore
  refine ⟨hlt, by simpa using hpt, ?_⟩
  intro c hc
  have := hbefore c hc
  simpa using this

theorem leadIdx_none {row : List MatrixElement} (h : leadIdx row = none) :
    ∀ c, c < row.length → (row.getD c MatrixElement.zero).is_zero = true := by
  unfold leadIdx at h
  intro c hc
  have := findIdxAux_none (fun e => !e.is_zero) MatrixElement.zero row 0 h c hc
  simpa using this

theorem leadsOrdered_cons_cons (a b : Option Nat) (t : List (Option Nat)) :
    leadsOrdered (a :: b :: t) =
      ((match a, b with
        | some x, some y => decide (x < y)
        | some _, none => true
        | none, none => false || true
        | none, some _ => false) && leadsOrdered (b :: t)) := rfl

theorem leadsOrdered_tail {a : Option Nat} {rest : List (Option Nat)}
    (h : leadsOrdered (a :: rest) = true) : leadsOrdered rest = true := by
  cases rest with
  | nil => rfl
  | cons b t =>
    rw [leadsOrdered_cons_cons] at h
    exact (Bool.and_eq_true_iff.mp h).2

theorem leadsOrdered_adj :
    ∀ (ls : List (Option Nat)), leadsOrdered ls = true →
    ∀ t, t + 1 < ls.length →
    ∀ y, ls.getD (t + 1) none = some y →
      ∃ x, ls.getD t none = some x ∧ x < y := by
  intro ls
  induction ls with
  | nil =>
    intro _ t ht
    simp at ht
  | cons a rest ih =>
    intro h t ht y hy
    cases rest with
    | nil => simp at ht
    | cons b tail =>
      cases t with
      | zero =>
        rw [leadsOrdered_cons_cons] at h
        have h1 := (Bool.and_eq_true_iff.mp h).1
        have hb : (b :: tail).getD 0 none = some y := hy
        have hbeq : b = some y := hb
        cases a with
        | none =>
          rw [hbeq] at h1
          cases h1
        | some x =>
          rw [hbeq] at h1
          exact ⟨x, rfl, of_decide_eq_true h1⟩
      | succ t' =>
        have h2 := leadsOrdered_tail h
        exact ih h2 t' (by simpa using ht) y hy

theorem leadsOrdered_chain (ls : List (Option Nat)) (ho : leadsOrdered ls = true) :
    ∀ (d p q : Nat), q = p + d + 1 → q < ls.length →
    ∀ y, ls.getD q none = some y →
      ∃ x, ls.getD p none = some x ∧ x < y := by
  intro d
  induction d with
  | zero =>
    intro p q hq hlen y hy
    subst hq
    exact leadsOrdered_adj ls ho p hlen y hy
  | succ t ih =>
    intro p q hq hlen y hy
    rcases leadsOrdered_adj ls ho (q - 1) (by omega) y (by
      have : q - 1 + 1 = q := by omega
      rw [this]
      exact hy) with ⟨x1, hx1, hlt1⟩
    rcases ih p (q - 1) (by omega) (by omega) x1 hx1 with ⟨x, hx, hlt⟩
    exact ⟨x, hx, by omega⟩

theorem eps_le_abs_of_not_is_zero {a : MatrixElement} (ha : a.data.Pos)
    (h : a.is_zero = false) : EPSQ ≤ |a.val| := by
  by_contra hlt
  have : a.is_zero = true := (MatrixElement.is_zero_iff ha).mpr (by linarith [not_le.mp hlt])
  rw [this] at h
  cases h

theorem is_zero_of_val_zero {a : MatrixElement} (ha : a.data.Pos)
    (h : a.val = 0) : a.is_zero = true := by
  rw [MatrixElement.is_zero_iff ha, h]
  simpa using EPSQ_pos

theorem is_one_of_val_one {a : MatrixElement} (ha : a.data.Pos)
    (h : a.val = 1) : a.is_one = true := by
  rw [MatrixElement.is_one_iff ha, h]
  simpa using EPSQ_pos

theorem not_is_zero_of_val_one {a : MatrixElement} (ha : a.data.Pos)
    (h : a.val = 1) : a.is_zero = false := by
  cases hz : a.is_zero
  · rfl
  · exfalso
    have := (MatrixElement.is_zero_iff ha).mp hz
    rw [h] at this
    norm_num [EPSQ] at this

theorem epsilon_gt_false_of_le {a b : MatrixElement} (ha : a.data.Pos)
    (hb : b.data.Pos) (h : |a.val| ≤ |b.val|) :
    a.abs.epsilon_gt b.abs = false := by
  unfold MatrixElement.epsilon_gt
  by_cases he : a.abs.epsilon_equals b.abs = true
  · rw [if_pos he]
  · rw [if_neg he]
    rw [MatrixElement.epsilon_equals_iff (MatrixElement.pos_abs ha)
      (MatrixElement.pos_abs hb), MatrixElement.val_abs ha, MatrixElement.val_abs hb]
      at he
    rw [if_pos ?hlt]
    case hlt =>
      have hne : EPSQ ≤ |(|a.val| - |b.val|)| := not_lt.mp he
      have hEp := EPSQ_pos
      have hstrict : |a.val| < |b.val| := by
        rcases abs_cases (|a.val| - |b.val|) with ⟨he1, _⟩ | ⟨he1, _⟩
        · linarith
        · linarith
      rw [Fr.lt_iff (MatrixElement.pos_abs ha) (MatrixElement.pos_abs hb)]
      show a.abs.val < b.abs.val
      rw [MatrixElement.val_abs ha, MatrixElement.val_abs hb]
      exact hstrict

end RustMatrix

namespace RustMatrix

theorem List_all_enumFrom {α : Type} (d : α) (p : Nat × α → Bool) :
    ∀ (l : List α) (off : Nat), (List.enumFrom off l).all p = true →
    ∀ i, i < l.length → p (off + i, l.getD i d) = true := by
  intro l
  induction l with
  | nil =>
    intro off _ i hi
    simp at hi
  | cons x xs ih =>
    intro off h i hi
    have hcons : List.enumFrom off (x :: xs) = (off, x) :: List.enumFrom (off + 1) xs := rfl
    rw [hcons, List.all_cons, Bool.and_eq_true] at h
    cases i with
    | zero => simpa using h.1
    | succ k =>
      have := ih (off + 1) h.2 k (by simpa using hi)
      have harith : off + 1 + k = off + (k + 1) := by omega
      rw [harith] at this
      exact this

theorem strict_facts {R : Matrix} {m n : Nat} (hS : Matrix.Shape R m n)
    (hE : Matrix.EntPos R) (hstrict : strictShape R = true) :
    (∀ r c, r < m → c < n → (R.ent r c).val = 0 ∨ (R.ent r c).is_zero = false) ∧
    (∀ p q y, p < q → q < m → leadIdx (R.elements.getD q []) = some y →
      ∃ x, leadIdx (R.elements.getD p []) = some x ∧ x < y) ∧
    (∀ r, r < m → ∀ jr, leadIdx (R.elements.getD r []) = some jr →
      jr < n ∧ (R.ent r jr).val = 1 ∧ (R.ent r jr).is_zero = false ∧
      (∀ c, c < jr → (R.ent r c).val = 0) ∧
      (∀ q, q < m → q ≠ r → (R.ent q jr).val = 0)) ∧
    (∀ r, r < m → leadIdx (R.elements.getD r []) = none →
      ∀ c, c < n → (R.ent r c).val = 0) := by
  obtain ⟨hrows, hcols, hlen, hrowlen⟩ := hS
  simp only [strictShape] at hstrict
  rcases Bool.and_eq_true_iff.mp hstrict with ⟨h12, h3⟩
  rcases Bool.and_eq_true_iff.mp h12 with ⟨h1, h2⟩
  have hrowmem : ∀ r, r < m → R.elements.getD r [] ∈ R.elements := by
    intro r hr
    exact List_getD_mem _ _ _ (by omega)
  refine ⟨?_, ?_, ?_, ?_⟩
  · intro r c hr hc
    rw [List.all_eq_true] at h1
    have hrow := h1 _ (hrowmem r hr)
    rw [List.all_eq_true] at hrow
    have hent := hrow _ (List_getD_mem _ c MatrixElement.zero (by rw [hrowlen r hr]; omega))
    rcases Bool.or_eq_true_iff.mp hent with h | h
    · left
      exact (Fr.num_zero_iff (hE r c)).mp (of_decide_eq_true h)
    · right
      show ((R.elements.getD r []).getD c MatrixElement.zero).is_zero = false
      cases hb : ((R.elements.getD r []).getD c MatrixElement.zero).is_zero
      · rfl
      · rw [hb] at h
        cases h
  · intro p q y hpq hq hy
    have hmap : ∀ t, t < m →
        (R.elements.map leadIdx).getD t none = leadIdx (R.elements.getD t []) := by
      intro t ht
      exact List_getD_map_gen leadIdx R.elements t none [] (by omega)
    rcases leadsOrdered_chain (R.elements.map leadIdx) h2 (q - p - 1) p q (by omega)
        (by rw [List.length_map]; omega)
        y (by rw [hmap q hq]; exact hy) with ⟨x, hx, hlt⟩
    rw [hmap p (by omega)] at hx
    exact ⟨x, hx, hlt⟩
  · intro r hr jr hjr
    have hcase := List_all_enumFrom [] _ R.elements 0 h3 r (by omega)
    simp only [Nat.zero_add] at hcase
    have hred : (match leadIdx (R.elements.getD r []) with
      | none => (R.elements.getD r []).all fun e => decide (e.data.num = 0)
      | some j =>
        (decide (((R.elements.getD r []).getD j MatrixElement.zero).data.num =
            ((R.elements.getD r []).getD j MatrixElement.zero).data.den)
          && ((List.range j).all fun c =>
            decide (((R.elements.getD r []).getD c MatrixElement.zero).data.num = 0))
          && (R.elements.enum.all fun q =>
            decide (q.1 = r) || decide ((q.2.getD j MatrixElement.zero).data.num = 0)))) =
        true := hcase
    rw [hjr] at hred
    rcases Bool.and_eq_true_iff.mp hred with ⟨hr12, hcol⟩
    rcases Bool.and_eq_true_iff.mp hr12 with ⟨hdiagv, hbefore⟩
    obtain ⟨hjlt, hnz, _⟩ := leadIdx_some hjr
    have hjn : jr < n := by rw [hrowlen r hr] at hjlt; exact hjlt
    refine ⟨hjn, ?_, hnz, ?_, ?_⟩
    · have hnd : (R.ent r jr).data.num = (R.ent r jr).data.den := of_decide_eq_true hdiagv
      show (R.ent r jr).data.toQ = 1
      unfold Fr.toQ
      rw [hnd, div_self (Fr.den_ne (hE r jr))]
    · intro c hc
      rw [List.all_eq_true] at hbefore
      have := hbefore c (List.mem_range.mpr hc)
      exact (Fr.num_zero_iff (hE r c)).mp (of_decide_eq_true this)
    · intro q hq hqr
      have hq2 := List_all_enumFrom [] _ R.elements 0 hcol q (by omega)
      simp only [Nat.zero_add] at hq2
      rcases Bool.or_eq_true_iff.mp hq2 with h | h
      · exact absurd (of_decide_eq_true h) hqr
      · exact (Fr.num_zero_iff (hE q jr)).mp (of_decide_eq_true h)
  · intro r hr hnone c hc
    have hcase := List_all_enumFrom [] _ R.elements 0 h3 r (by omega)
    simp only [Nat.zero_add] at hcase
    have hred : (match leadIdx (R.elements.getD r []) with
      | none => (R.elements.getD r []).all fun e => decide (e.data.num = 0)
      | some j =>
        (decide (((R.elements.getD r []).getD j MatrixElement.zero).data.num =
            ((R.elements.getD r []).getD j MatrixElement.zero).data.den)
          && ((List.range j).all fun c =>
            decide (((R.elements.getD r []).getD c MatrixElement.zero).data.num = 0))
          && (R.elements.enum.all fun q =>
            decide (q.1 = r) || decide ((q.2.getD j MatrixElement.zero).data.num = 0)))) =
        true := hcase
    rw [hnone] at hred
    rw [List.all_eq_true] at hred
    have := hred _ (List_getD_mem _ c MatrixElement.zero (by rw [hrowlen r hr]; omega))
    exact (Fr.num_zero_iff (hE r c)).mp (of_decide_eq_true this)

end RustMatrix

namespace RustMatrix

theorem not_is_zero_of_eps_le {a : MatrixElement} (ha : a.data.Pos)
    (h : EPSQ ≤ |a.val|) : a.is_zero = false := by
  cases hz : a.is_zero
  · rfl
  · exfalso
    have := (MatrixElement.is_zero_iff ha).mp hz
    linarith

theorem pivotScanFold_stay {origin : Matrix} {m n j : Nat} (hS : Matrix.Shape origin m n)
    (hj : j < n) (i : Nat) (hi : i < m) :
    ∀ (ks : List Nat), (∀ k ∈ ks, k < m ∧
      (origin.ent k j).abs.epsilon_gt (origin.ent i j).abs = false) →
    ks.foldlM
      (fun mx k => do
        let a ← origin.get k j
        let b ← origin.get mx j
        (.ok (if a.abs.epsilon_gt b.abs then k else mx) : Res Nat)) i = .ok i := by
  intro ks
  induction ks with
  | nil => intro _; rfl
  | cons k rest ih =>
    intro hks
    obtain ⟨hkm, hkgt⟩ := hks k (List.mem_cons_self ..)
    rw [List.foldlM_cons]
    simp only [Matrix.get_ok hS hkm hj, Matrix.get_ok hS hi hj, resBind_ok, hkgt,
      Bool.false_eq_true, if_false]
    exact ih (fun x hx => hks x (List.mem_cons_of_mem k hx))

theorem pivotScan_stay {origin : Matrix} {m n i j : Nat} (hS : Matrix.Shape origin m n)
    (hi : i < m) (hj : j < n)
    (h : ∀ k, i ≤ k → k < m →
      (origin.ent k j).abs.epsilon_gt (origin.ent i j).abs = false) :
    origin.pivotScan i m j = .ok i := by
  unfold Matrix.pivotScan
  exact pivotScanFold_stay hS hj i hi (List.range' i (m - i))
    (fun k hk => by
      have := List_mem_range' hk
      exact ⟨by omega, h k (by omega) (by omega)⟩)

theorem elimFold_vals {m n i j : Nat} (him : i < m) (hjn : j < n)
    (v : Nat → Nat → ℚ)
    (hF1 : ∀ r c, r < m → c < n → v r c = 0 ∨ EPSQ ≤ |v r c|)
    (hpiv1 : v i j = 1) :
    ∀ (ks : List Nat) (origin output : Matrix) (clean : Bool),
    (∀ k ∈ ks, i < k ∧ k < m) →
    Matrix.Shape origin m n → Matrix.EntPos origin →
    Matrix.Shape output m n → Matrix.EntPos output →
    (∀ r c, r < m → c < n → (origin.ent r c).val = v r c) →
    (∀ r c, r < m → c < n → (output.ent r c).val = v r c) →
    (∀ k ∈ ks, v k j = 0) →
    ∃ o q cl, Matrix.elimLoop i j ks (origin, output, clean) = .ok (o, q, cl) ∧
      Matrix.Shape o m n ∧ Matrix.EntPos o ∧ Matrix.Shape q m n ∧ Matrix.EntPos q ∧
      (∀ r c, r < m → c < n → (o.ent r c).val = v r c) ∧
      (∀ r c, r < m → c < n → (q.ent r c).val = v r c) := by
  intro ks
  induction ks with
  | nil =>
    intro origin output clean _ hSo hEo hSq hEq horig hout _
    exact ⟨origin, output, clean, rfl, hSo, hEo, hSq, hEq, horig, hout⟩
  | cons k rest ih =>
    intro origin output clean hks hSo hEo hSq hEq horig hout hcolz
    obtain ⟨hik, hkm⟩ := hks k (List.mem_cons_self ..)
    have hbval : (origin.ent i j).val = 1 := by rw [horig i j him hjn]; exact hpiv1
    have hbz : (origin.ent i j).is_zero = false :=
      not_is_zero_of_val_one (hEo i j) hbval
    obtain ⟨hqval, hqP⟩ := MatrixElement.div_val (hEo k j) (hEo i j) hbz
    have hfP : ((⟨(origin.ent k j).data.divFr (origin.ent i j).data⟩ :
        MatrixElement).negate).data.Pos := MatrixElement.pos_negate hqP
    have hfval : ((⟨(origin.ent k j).data.divFr (origin.ent i j).data⟩ :
        MatrixElement).negate).val = 0 := by
      rw [MatrixElement.val_negate
        (a := (⟨(origin.ent k j).data.divFr (origin.ent i j).data⟩ : MatrixElement)) hqP,
        hqval, horig k j hkm hjn, hcolz k (List.mem_cons_self ..)]
      norm_num
    rcases Matrix.add_scaled_spec (s :=
        (⟨(origin.ent k j).data.divFr (origin.ent i j).data⟩ : MatrixElement).negate)
        hSo hEo him hkm (by omega) hfP with ⟨o1, hok1, hS1, hE1, hunch1, hmid1⟩
    rcases Matrix.add_scaled_spec (s :=
        (⟨(origin.ent k j).data.divFr (origin.ent i j).data⟩ : MatrixElement).negate)
        hSq hEq him hkm (by omega) hfP with ⟨q1, hok2, hS2, hE2, hunch2, hmid2⟩
    have hval1 : ∀ (a : Matrix), Matrix.Shape a m n → Matrix.EntPos a →
        (∀ r c, r < m → c < n → (a.ent r c).val = v r c) →
        ∀ (a1 : Matrix),
        (∀ r' c', r' ≠ k → a1.ent r' c' = a.ent r' c') →
        (∀ c, c < n → a1.ent k c = Matrix.clampWrite ((a.ent k c).add ((a.ent i c).mul
          ((⟨(origin.ent k j).data.divFr (origin.ent i j).data⟩ : MatrixElement).negate)))) →
        ∀ r c, r < m → c < n → (a1.ent r c).val = v r c := by
      intro a hSa hEa hvala a1 hunch hmid r c hr hc
      by_cases hrk : r = k
      · rw [hrk]
        have hkm2 : k < m := hrk ▸ hr
        rw [hmid c hc]
        have hinnerP : ((a.ent k c).add ((a.ent i c).mul
            ((⟨(origin.ent k j).data.divFr (origin.ent i j).data⟩ :
              MatrixElement).negate))).data.Pos :=
          MatrixElement.pos_add (hEa k c) (MatrixElement.pos_mul (hEa i c) hfP)
        have hinner : ((a.ent k c).add ((a.ent i c).mul
            ((⟨(origin.ent k j).data.divFr (origin.ent i j).data⟩ :
              MatrixElement).negate))).val = v k c := by
          rw [MatrixElement.val_add (hEa k c) (MatrixElement.pos_mul (hEa i c) hfP),
            MatrixElement.val_mul (hEa i c) hfP, hfval, hvala k c hkm2 hc]
          ring
        rcases hF1 k c hkm2 hc with hz | hbig
        · rw [clampWrite_val_zero hinnerP (by rw [hinner]; exact hz), hz]
        · rw [clampWrite_val_of_clean hinnerP (Or.inr
            (not_is_zero_of_eps_le hinnerP (by rw [hinner]; exact hbig))), hinner]
      · rw [hunch r c hrk]
        exact hvala r c hr hc
    rcases ih o1 q1
        (clean &&
          cleanVals (rowCombine (origin.elements.getD k []) (origin.elements.getD i [])
            ((⟨(origin.ent k j).data.divFr (origin.ent i j).data⟩ : MatrixElement).negate)) &&
          cleanVals (rowCombine (output.elements.getD k []) (output.elements.getD i [])
            ((⟨(origin.ent k j).data.divFr (origin.ent i j).data⟩ : MatrixElement).negate)))
        (fun x hx => hks x (List.mem_cons_of_mem k hx)) hS1 hE1 hS2 hE2
        (hval1 origin hSo hEo horig o1 hunch1 hmid1)
        (hval1 output hSq hEq hout q1 hunch2 hmid2)
        (fun x hx => hcolz x (List.mem_cons_of_mem k hx)) with
      ⟨o, q, cl, hfold, hSo2, hEo2, hSq2, hEq2, hovals, hqvals⟩
    refine ⟨o, q, cl, ?_, hSo2, hEo2, hSq2, hEq2, hovals, hqvals⟩
    show List.foldlM _ _ (k :: rest) = _
    rw [List.foldlM_cons]
    try dsimp only
    rw [Matrix.get_ok hSo hkm hjn, resBind_ok]
    try dsimp only
    rw [Matrix.get_ok hSo him hjn, resBind_ok]
    try dsimp only
    rw [MatrixElement.div_ok hbz, resBind_ok]
    try dsimp only
    rw [hok1, resBind_ok]
    try dsimp only
    rw [hok2, resBind_ok]
    exact hfold

end RustMatrix

namespace RustMatrix

theorem strictForward {R : Matrix} {m n : Nat} (hSR : Matrix.Shape R m n)
    (hER : Matrix.EntPos R) (hstrict : strictShape R = true) :
    ∀ (fuel i j : Nat) (origin output : Matrix) (swaps : Nat) (clean : Bool),
    n ≤ j + fuel →
    Matrix.Shape origin m n → Matrix.EntPos origin →
    Matrix.Shape output m n → Matrix.EntPos output →
    (∀ r c, r < m → c < n → (origin.ent r c).val = (R.ent r c).val) →
    (∀ r c, r < m → c < n → (output.ent r c).val = (R.ent r c).val) →
    (∀ q y, i ≤ q → q < m → leadIdx (R.elements.getD q []) = some y → j ≤ y) →
    ∃ o q2 s cl, Matrix.echelonLoop m n fuel i j origin output swaps clean =
        .ok (o, q2, s, cl) ∧
      Matrix.Shape o m n ∧ Matrix.EntPos o ∧ Matrix.Shape q2 m n ∧ Matrix.EntPos q2 ∧
      (∀ r c, r < m → c < n → (o.ent r c).val = (R.ent r c).val) ∧
      (∀ r c, r < m → c < n → (q2.ent r c).val = (R.ent r c).val) := by
  obtain ⟨F1, chain, Fsome, Fnone⟩ := strict_facts hSR hER hstrict
  intro fuel
  induction fuel with
  | zero =>
    intro i j origin output swaps clean hfuel hSo hEo hSq hEq horig hout _
    exact ⟨origin, output, swaps, clean, rfl, hSo, hEo, hSq, hEq, horig, hout⟩
  | succ fuel ih =>
    intro i j origin output swaps clean hfuel hSo hEo hSq hEq horig hout hlead
    by_cases hguard : i < m ∧ j < n
    · obtain ⟨him, hjn⟩ := hguard
      by_cases hLi : leadIdx (R.elements.getD i []) = some j
      · obtain ⟨hjn2, hv1, hnz1, hbef, hcolclear⟩ := Fsome i him j hLi
        have colvals : ∀ k, i < k → k < m → (R.ent k j).val = 0 := by
          intro k hik hkm
          cases hLk : leadIdx (R.elements.getD k []) with
          | none => exact Fnone k hkm hLk j hjn
          | some y =>
            rcases chain i k y hik hkm hLk with ⟨x, hx, hxy⟩
            have hxj : x = j := by
              rw [hLi] at hx
              injection hx with hx
              exact hx.symm
            exact (Fsome k hkm y hLk).2.2.2.1 j (hxj ▸ hxy)
        have hscan : origin.pivotScan i m j = .ok i := by
          apply pivotScan_stay hSo him hjn
          intro k hik hkm
          apply epsilon_gt_false_of_le (hEo k j) (hEo i j)
          rw [horig i j him hjn, hv1]
          by_cases hki : k = i
          · subst hki
            rw [horig k j hkm hjn, hv1]
          · rw [horig k j hkm hjn, colvals k (by omega) hkm]
            norm_num
        have hpz : (origin.ent i j).is_zero = false := by
          apply not_is_zero_of_val_one (hEo i j)
          rw [horig i j him hjn]
          exact hv1
        have hmxi : ¬(i ≠ i) := fun h => h rfl
        rcases elimFold_vals him hjn (fun r c => (R.ent r c).val)
            (fun r c hr hc => by
              rcases F1 r c hr hc with h | h
              · exact Or.inl h
              · exact Or.inr (eps_le_abs_of_not_is_zero (hER r c) h))
            (by exact hv1)
            (List.range' (i + 1) (m - (i + 1))) origin output clean
            (fun k hk => by have := List_mem_range' hk; omega)
            hSo hEo hSq hEq horig hout
            (fun k hk => by
              have := List_mem_range' hk
              exact colvals k (by omega) (by omega)) with
          ⟨o3, q3, cl3, helim, hSo3, hEo3, hSq3, hEq3, ho3, hq3⟩
        rcases ih (i + 1) (j + 1) o3 q3 swaps cl3 (by omega)
            hSo3 hEo3 hSq3 hEq3 ho3 hq3
            (fun q y hq hqm hLq => by
              rcases chain i q y (by omega) hqm hLq with ⟨x, hx, hxy⟩
              have hxj : x = j := by
                rw [hLi] at hx
                injection hx with hx
                exact hx.symm
              omega) with
          ⟨o, q2, s, cl, hrec, hSo4, hEo4, hSq4, hEq4, ho4, hq4⟩
        refine ⟨o, q2, s, cl, ?_, hSo4, hEo4, hSq4, hEq4, ho4, hq4⟩
        rw [Matrix.echelonLoop, if_pos ⟨him, hjn⟩]
        simp only [hscan, resBind_ok, Matrix.get_ok hSo him hjn, hpz,
          Bool.false_eq_true, if_false, hmxi, helim]
        exact hrec
      · have colvals0 : ∀ k, i ≤ k → k < m → (R.ent k j).val = 0 := by
          intro k hik hkm
          by_cases hki : k = i
          · subst hki
            cases hLk : leadIdx (R.elements.getD k []) with
            | none => exact Fnone k hkm hLk j hjn
            | some x =>
              have hx1 : j ≤ x := hlead k x hik hkm hLk
              have hx2 : x ≠ j := fun he => hLi (he ▸ hLk)
              exact (Fsome k hkm x hLk).2.2.2.1 j (by omega)
          · have hik2 : i < k := by omega
            cases hLk : leadIdx (R.elements.getD k []) with
            | none => exact Fnone k hkm hLk j hjn
            | some y =>
              rcases chain i k y hik2 hkm hLk with ⟨x, hx, hxy⟩
              have hx1 : j ≤ x := hlead i x (by omega) him hx
              exact (Fsome k hkm y hLk).2.2.2.1 j (by omega)
        have hscan : origin.pivotScan i m j = .ok i := by
          apply pivotScan_stay hSo him hjn
          intro k hik hkm
          apply epsilon_gt_false_of_le (hEo k j) (hEo i j)
          rw [horig i j him hjn, colvals0 i (by omega) him,
            horig k j hkm hjn, colvals0 k (by omega) hkm]
        have hpt : (origin.ent i j).is_zero = true := by
          apply is_zero_of_val_zero (hEo i j)
          rw [horig i j him hjn]
          exact colvals0 i (by omega) him
        rcases ih i (j + 1) origin output swaps clean (by omega)
            hSo hEo hSq hEq horig hout
            (fun q y hq hqm hLq => by
              have hy1 : j ≤ y := hlead q y hq hqm hLq
              have hy2 : y ≠ j := by
                intro he
                subst he
                by_cases hqi : q = i
                · exact hLi (hqi ▸ hLq)
                · rcases chain i q y (by omega) hqm hLq with ⟨x, hx, hxy⟩
                  have := hlead i x (by omega) him hx
                  omega
              omega) with
          ⟨o, q2, s, cl, hrec, hSo4, hEo4, hSq4, hEq4, ho4, hq4⟩
        refine ⟨o, q2, s, cl, ?_, hSo4, hEo4, hSq4, hEq4, ho4, hq4⟩
        rw [Matrix.echelonLoop, if_pos ⟨him, hjn⟩]
        simp only [hscan, resBind_ok, Matrix.get_ok hSo him hjn, hpt, if_true]
        exact hrec
    · refine ⟨origin, output, swaps, clean, ?_, hSo, hEo, hSq, hEq, horig, hout⟩
      rw [Matrix.echelonLoop, if_neg hguard]

end RustMatrix

namespace RustMatrix

theorem findLeading_all_zero {origin : Matrix} {m n i : Nat}
    (hS : Matrix.Shape origin m n) (hi : i < m)
    (hall : ∀ c, c < n → (origin.ent i c).is_zero = true) :
    ∀ (fuel j : Nat), Matrix.findLeading origin i j fuel = .ok none := by
  intro fuel
  induction fuel with
  | zero => intro j; rfl
  | succ f ih =>
    intro j
    by_cases hj : j < origin.cols_number
    · have hjn : j < n := by rw [hS.2.1] at hj; exact hj
      rw [Matrix.findLeading, if_pos hj]
      simp only [Matrix.get_ok hS hi hjn, resBind_ok, hall j hjn, if_true]
      exact ih (j + 1)
    · rw [Matrix.findLeading, if_neg hj]

theorem findLeading_finds {origin : Matrix} {m n i pivot : Nat}
    (hS : Matrix.Shape origin m n) (hi : i < m) (hpv : pivot < n)
    (hz : (origin.ent i pivot).is_zero = false)
    (hbefore : ∀ c, c < pivot → (origin.ent i c).is_zero = true) :
    ∀ (fuel j : Nat), j ≤ pivot → pivot < j + fuel →
      Matrix.findLeading origin i j fuel = .ok (some pivot) := by
  intro fuel
  induction fuel with
  | zero =>
    intro j hj1 hj2
    omega
  | succ f ih =>
    intro j hj1 hj2
    have hjn : j < n := by omega
    have hj : j < origin.cols_number := by rw [hS.2.1]; exact hjn
    by_cases hjp : j = pivot
    · subst hjp
      rw [Matrix.findLeading, if_pos hj]
      simp only [Matrix.get_ok hS hi hjn, resBind_ok, hz, Bool.false_eq_true, if_false]
    · rw [Matrix.findLeading, if_pos hj]
      simp only [Matrix.get_ok hS hi hjn, resBind_ok, hbefore j (by omega), if_true]
      exact ih (j + 1) (by omega) (by omega)

theorem strictBack_id {R : Matrix} {m n : Nat} (hSR : Matrix.Shape R m n)
    (hER : Matrix.EntPos R) (hstrict : strictShape R = true) {i : Nat} (hi : i < m)
    (origin output : Matrix) (clean : Bool)
    (hSo : Matrix.Shape origin m n) (hEo : Matrix.EntPos origin)
    (horig : ∀ r c, r < m → c < n → (origin.ent r c).val = (R.ent r c).val) :
    Matrix.backStep (origin, output, clean) i = .ok (origin, output, clean) := by
  obtain ⟨F1, chain, Fsome, Fnone⟩ := strict_facts hSR hER hstrict
  cases hLi : leadIdx (R.elements.getD i []) with
  | none =>
    have hfl : origin.findLeading i 0 origin.cols_number = .ok none := by
      apply findLeading_all_zero hSo hi
      intro c hc
      apply is_zero_of_val_zero (hEo i c)
      rw [horig i c hi hc]
      exact Fnone i hi hLi c hc
    show (origin.findLeading i 0 origin.cols_number) >>= _ = _
    rw [hfl, resBind_ok]
  | some pivot =>
    obtain ⟨hpvn, hv1, _, hbef, hcolclear⟩ := Fsome i hi pivot hLi
    have hfl : origin.findLeading i 0 origin.cols_number = .ok (some pivot) := by
      apply findLeading_finds hSo hi hpvn
      · apply not_is_zero_of_val_one (hEo i pivot)
        rw [horig i pivot hi hpvn]
        exact hv1
      · intro c hc
        apply is_zero_of_val_zero (hEo i c)
        rw [horig i c hi (by omega)]
        exact hbef c hc
      · omega
      · rw [hSo.2.1]
        omega
    have hisone : (origin.ent i pivot).is_one = true := by
      apply is_one_of_val_one (hEo i pivot)
      rw [horig i pivot hi hpvn]
      exact hv1
    have hfold : ∀ ks : List Nat, (∀ k ∈ ks, k < m ∧ k ≠ i) →
        ks.foldlM
          (fun st k => do
            let (origin, output, clean) := st
            let e ← origin.get k pivot
            let factor := e.negate
            if factor.is_zero then .ok (origin, output, clean)
            else do
              let clean := clean
                && cleanVals (rowCombine (origin.elements.getD k [])
                     (origin.elements.getD i []) factor)
                && cleanVals (rowCombine (output.elements.getD k [])
                     (output.elements.getD i []) factor)
              let origin ← origin.add_scaled_row_from_to i k factor
              let output ← output.add_scaled_row_from_to i k factor
              .ok (origin, output, clean))
          (origin, output, clean) = .ok (origin, output, clean) := by
      intro ks
      induction ks with
      | nil => intro _; rfl
      | cons k rest ih =>
        intro hks
        obtain ⟨hkm, hki⟩ := hks k (List.mem_cons_self ..)
        have hfz : ((origin.ent k pivot).negate).is_zero = true := by
          apply is_zero_of_val_zero (MatrixElement.pos_negate (hEo k pivot))
          rw [MatrixElement.val_negate (hEo k pivot), horig k pivot hkm hpvn,
            hcolclear k hkm hki]
          norm_num
        rw [List.foldlM_cons]
        simp only [Matrix.get_ok hSo hkm hpvn, resBind_ok, hfz, if_true]
        exact ih (fun x hx => hks x (List.mem_cons_of_mem k hx))
    show (origin.findLeading i 0 origin.cols_number) >>= _ = _
    rw [hfl, resBind_ok]
    simp only [Matrix.get_ok hSo hi hpvn, resBind_ok, hisone, if_true]
    exact hfold (List.range i) (fun k hk => ⟨by have := List.mem_range.mp hk; omega,
      by have := List.mem_range.mp hk; omega⟩)

theorem strictBackRange_id {R : Matrix} {m n : Nat} (hSR : Matrix.Shape R m n)
    (hER : Matrix.EntPos R) (hstrict : strictShape R = true)
    (origin output : Matrix) (clean : Bool)
    (hSo : Matrix.Shape origin m n) (hEo : Matrix.EntPos origin)
    (horig : ∀ r c, r < m → c < n → (origin.ent r c).val = (R.ent r c).val) :
    ∀ ks : List Nat, (∀ k ∈ ks, k < m) →
    ks.foldlM Matrix.backStep (origin, output, clean) = .ok (origin, output, clean) := by
  intro ks
  induction ks with
  | nil => intro _; rfl
  | cons k rest ih =>
    intro hks
    rw [List.foldlM_cons,
      strictBack_id hSR hER hstrict (hks k (List.mem_cons_self ..)) origin output clean
        hSo hEo horig, resBind_ok]
    exact ih (fun x hx => hks x (List.mem_cons_of_mem k hx))

theorem strict_fixed {R : Matrix} (hWF : R.WF) (hstrict : strictShape R = true) :
    ∃ r2, R.to_rref = .ok r2 ∧
      Matrix.Shape r2 R.rows_number R.cols_number ∧ Matrix.EntPos r2 ∧
      (∀ r c, (r2.ent r c).val = (R.ent r c).val) := by
  have hSR := Matrix.wf_shape hWF
  have hER := Matrix.wf_entPos hWF
  rcases strictForward hSR hER hstrict R.cols_number 0 0 R R 0 true (by omega)
      hSR hER hSR hER (fun r c _ _ => rfl) (fun r c _ _ => rfl)
      (fun q y _ _ _ => by omega) with
    ⟨o, q2, s, cl, hech, hSo, hEo, hSq, hEq, hovals, _⟩
  have hrg : R.rowEchelonG none = .ok (o, q2, s, cl) := by
    unfold Matrix.rowEchelonG
    dsimp only
    exact hech
  have hback := strictBackRange_id hSR hER hstrict o q2 cl hSo hEo hovals
    (List.range R.rows_number).reverse
    (fun k hk => List.mem_range.mp (List.mem_reverse.mp hk))
  have htr : R.toRrefG none = .ok (o, q2, cl) := by
    show (R.rowEchelonG none) >>= _ = _
    rw [hrg, resBind_ok]
    exact hback
  refine ⟨o, ?_, hSo, hEo, valEq_of_inrange hSo hSR hovals⟩
  unfold Matrix.to_rref Matrix._to_rref
  rw [htr]
  rfl

/-- C5, amended: whenever the reduced form `r = to_rref(A)` of a
well-formed matrix is in strict reduced-row-echelon shape — every entry
exactly zero or not epsilon-zero, strictly increasing leading indices
with zero rows last, exact unit leading entries with exactly-zero
columns elsewhere and exactly-zero prefixes — a second reduction leaves
every entry value unchanged, so `to_rref(to_rref(A))` equals
`to_rref(A)` entrywise exactly and is epsilon-equal to it; the
unconditional idempotence claim fails. -/
theorem claim_C5_amended : ∀ A : Matrix, A.WF →
    ∀ r, A.to_rref = .ok r → strictShape r = true →
    ∃ r2, r.to_rref = .ok r2 ∧
      (∀ i j, (r2.ent i j).val = (r.ent i j).val) ∧
      r2.epsilon_equals r = true := by
  intro A hA r hto hstrict
  rcases toRrefG_none_spec hA with ⟨o, q, cl, hrg, hSo, hEo, _, _⟩
  have hto2 : A.to_rref = .ok o := by
    unfold Matrix.to_rref Matrix._to_rref
    rw [hrg]
    rfl
  have hro : r = o := by
    have := hto.symm.trans hto2
    injection this
  subst hro
  have hWr : r.WF := by
    apply Matrix.shape_wf hSo hEo hA.2.1 hA.2.2.1
  have hSr := Matrix.wf_shape hWr
  have hEr := Matrix.wf_entPos hWr
  rcases strict_fixed hWr hstrict with ⟨r2, hok, hS2, hE2, hvals⟩
  refine ⟨r2, hok, hvals, ?_⟩
  exact epsilon_equals_of_val_eq_mat hS2 hSr hE2 hEr (fun rr cc _ _ => hvals rr cc)

/-- C5, witness for the amended claim: reducing the identity `witC5`
returns the identity itself, which is in strict reduced shape, and the
claim applies. -/
theorem claim_C5_amended_witness :
    witC5.WF ∧ witC5.to_rref = .ok witC5 ∧ strictShape witC5 = true ∧
    (∃ r2, witC5.to_rref = .ok r2 ∧
      (∀ i j, (r2.ent i j).val = (witC5.ent i j).val) ∧
      r2.epsilon_equals witC5 = true) :=
  ⟨by decide, by decide, by decide,
    claim_C5_amended witC5 (by decide) witC5 (by decide) (by decide)⟩

end RustMatrix
